import Mathlib

/-!
The go-calculator: tokenizer, shunting-yard converter and postfix evaluator.

A shallow embedding of `src/main.go` (functions `tokenize`, `calcFunc`,
`parseToRPN`, `evaluateRPN`) together with the properties of its
specification.

The program relies on three pieces of the Go language and standard library,
which are modelled here from their documentation:

* `float64` arithmetic (IEEE 754 binary64, round to nearest, ties to even),
* `strconv.ParseFloat(s, 64)`,
* `regexp.FindAllString` for the one regular expression of `tokenize`.
-/

namespace Calculator

/-! ## float64 -/

/-- Values of Go's `float64`.  A finite value `fin neg m e` denotes
`(-1)^neg * m * 2^e`; the operations below produce it with `m` odd, or with
`m = 0` and `e = 0` for a (signed) zero. -/
inductive Float64 where
  | nan
  | inf (neg : Bool)
  | fin (neg : Bool) (m : Nat) (e : Int)
  deriving DecidableEq, Repr

namespace Float64

/-- Strips factors of two from a mantissa (at most `fuel` of them). -/
def trim : Nat → Nat → Int → Nat × Int
  | 0, m, e => (m, e)
  | fuel + 1, m, e => if m ≠ 0 ∧ m % 2 = 0 then trim fuel (m / 2) (e + 1) else (m, e)

/-- The finite value `(-1)^neg * m * 2^e` in reduced form, for `m < 2^64`. -/
def reduced (neg : Bool) (m : Nat) (e : Int) : Float64 :=
  if m = 0 then fin neg 0 0 else fin neg (trim 64 m e).1 (trim 64 m e).2

/-- Position of the leading bit of `n`: `2^(log2 fuel n) ≤ n < 2^(log2 fuel n + 1)`
for `0 < n ≤ fuel`. -/
def log2 : Nat → Nat → Nat
  | 0, _ => 0
  | fuel + 1, n => if n < 2 then 0 else log2 fuel (n / 2) + 1

/-- Rounds the rational `(-1)^neg * n / d` (with `0 < d`) to the nearest binary64
value, ties to even: 53 bits of precision, least exponent `-1074` (gradual
underflow), overflow to infinity from `2^1024 - 2^970` on. -/
def round (neg : Bool) (n d : Nat) : Float64 :=
  if n = 0 then fin neg 0 0 else
    let a := log2 n n
    let b := log2 d d
    -- `2^lg ≤ n / d < 2^(lg + 1)`
    let lg : Int := if d * 2 ^ a ≤ n * 2 ^ b then (a : Int) - b else (a : Int) - b - 1
    -- exponent of the unit in the last place
    let ulp : Int := max (lg - 52) (-1074)
    let num := n * 2 ^ (-ulp).toNat
    let den := d * 2 ^ ulp.toNat
    let q := num / den
    let r := num % den
    let m := if den < 2 * r ∨ (2 * r = den ∧ q % 2 = 1) then q + 1 else q
    if 971 < ulp ∨ (ulp = 971 ∧ 2 ^ 53 ≤ m) then inf neg else reduced neg m ulp

/-- Conversion of a natural number, as for an untyped Go constant. -/
def ofNat (n : Nat) : Float64 := round false n 1

instance (n : Nat) : OfNat Float64 n := ⟨ofNat n⟩

/-- Go's `x == 0` on `float64`: true for both zeros, false for NaN. -/
def isZero : Float64 → Bool
  | fin _ 0 _ => true
  | _ => false

/-- Integer value of a signed magnitude. -/
def signed (neg : Bool) (m : Nat) : Int := if neg then -(m : Int) else m

/-- Go's `x + y` on `float64`. -/
def add : Float64 → Float64 → Float64
  | nan, _ => nan
  | _, nan => nan
  | inf s, inf t => if s = t then inf s else nan
  | inf s, fin _ _ _ => inf s
  | fin _ _ _, inf t => inf t
  | fin s m e, fin t n f =>
    let lo := min e f
    let z := signed s (m * 2 ^ (e - lo).toNat) + signed t (n * 2 ^ (f - lo).toNat)
    if z = 0 then fin (s && t) 0 0
    else round (decide (z < 0)) (z.natAbs * 2 ^ lo.toNat) (2 ^ (-lo).toNat)

/-- Go's unary `-x` on `float64`. -/
def neg : Float64 → Float64
  | nan => nan
  | inf s => inf (!s)
  | fin s m e => fin (!s) m e

/-- Go's `x - y` on `float64`. -/
def sub (x y : Float64) : Float64 := add x (neg y)

/-- Go's `x * y` on `float64`. -/
def mul : Float64 → Float64 → Float64
  | nan, _ => nan
  | _, nan => nan
  | inf s, inf t => inf (xor s t)
  | inf s, fin t n _ => if n = 0 then nan else inf (xor s t)
  | fin s m _, inf t => if m = 0 then nan else inf (xor s t)
  | fin s m e, fin t n f =>
    round (xor s t) (m * n * 2 ^ (e + f).toNat) (2 ^ (-(e + f)).toNat)

/-- Go's `x / y` on `float64`. -/
def div : Float64 → Float64 → Float64
  | nan, _ => nan
  | _, nan => nan
  | inf _, inf _ => nan
  | inf s, fin t _ _ => inf (xor s t)
  | fin s _ _, inf t => fin (xor s t) 0 0
  | fin s m e, fin t n f =>
    if n = 0 then (if m = 0 then nan else inf (xor s t))
    else round (xor s t) (m * 2 ^ (e - f).toNat) (n * 2 ^ (f - e).toNat)

instance : Add Float64 := ⟨add⟩
instance : Sub Float64 := ⟨sub⟩
instance : Mul Float64 := ⟨mul⟩
instance : Div Float64 := ⟨div⟩

end Float64

/-! ## strconv.ParseFloat -/

/-- ASCII decimal digit, the class `\d` of Go regular expressions and the digit
test of `strconv`. -/
def isDigit (c : Char) : Bool := 48 ≤ c.toNat && c.toNat ≤ 57

/-- Value of a digit of the mantissa: decimal digits, and `a`-`f`, `A`-`F` in a
hexadecimal mantissa. -/
def digitValue (hex : Bool) (c : Char) : Option Nat :=
  if isDigit c then some (c.toNat - 48)
  else if hex && (97 ≤ c.toNat && c.toNat ≤ 102) then some (c.toNat - 87)
  else if hex && (65 ≤ c.toNat && c.toNat ≤ 70) then some (c.toNat - 55)
  else none

/-- ASCII lower case of an upper-case letter, as in `commonPrefixLenIgnoreCase`. -/
def lowerASCII (c : Char) : Char :=
  if 65 ≤ c.toNat && c.toNat ≤ 90 then Char.ofNat (c.toNat + 32) else c

/-- Length of the longest common prefix, ignoring the case of `s`
(`commonPrefixLenIgnoreCase`). -/
def commonPrefixLenIgnoreCase : List Char → List Char → Nat
  | c :: s, p :: pre => if lowerASCII c = p then commonPrefixLenIgnoreCase s pre + 1 else 0
  | _, _ => 0

/-- Infinity or NaN at the beginning of the text, and the number of characters
it takes (`special`). -/
def special (s : List Char) : Option (Float64 × Nat) :=
  let infinity (neg : Bool) (nsign : Nat) (t : List Char) : Option (Float64 × Nat) :=
    let n := commonPrefixLenIgnoreCase t "infinity".data
    let n := if 3 < n ∧ n < 8 then 3 else n
    if n = 3 ∨ n = 8 then some (Float64.inf neg, nsign + n) else none
  match s with
  | [] => none
  | c :: t =>
    if c = '+' then infinity false 1 t
    else if c = '-' then infinity true 1 t
    else if c = 'i' ∨ c = 'I' then infinity false 0 s
    else if c = 'n' ∨ c = 'N' then
      if commonPrefixLenIgnoreCase s "nan".data = 3 then some (Float64.nan, 3) else none
    else none

/-- State of the digit loop of `readFloat`: the digits read so far as a number in
the base, how many of them follow the point, and what has been seen. -/
structure Mantissa where
  value : Nat
  frac : Nat
  sawdigits : Bool
  sawdot : Bool

/-- The digit loop of `readFloat`: digits, underscores and at most one point; the
unread text is returned with the mantissa. -/
def readDigits (hex : Bool) : List Char → Mantissa → Mantissa × List Char
  | [], acc => (acc, [])
  | c :: s, acc =>
    if c = '_' then readDigits hex s acc
    else if c = '.' then
      if acc.sawdot then (acc, c :: s) else readDigits hex s { acc with sawdot := true }
    else
      match digitValue hex c with
      | some v =>
        readDigits hex s
          { value := acc.value * (if hex then 16 else 10) + v
            frac := if acc.sawdot then acc.frac + 1 else acc.frac
            sawdigits := true
            sawdot := acc.sawdot }
      | none => (acc, c :: s)

/-- The digits of an exponent: digits and underscores, the value no longer
accumulated once it has reached 10000. -/
def readExpDigits : List Char → Nat → Nat × List Char
  | [], e => (e, [])
  | c :: s, e =>
    if c = '_' then readExpDigits s e
    else if isDigit c then readExpDigits s (if e < 10000 then e * 10 + (c.toNat - 48) else e)
    else (e, c :: s)

/-- The optional exponent of `readFloat` (`e` for a decimal, `p` for a
hexadecimal mantissa, which must have one); `none` is a syntax error. -/
def readExponent (hex : Bool) : List Char → Option (Int × List Char)
  | [] => if hex then none else some (0, [])
  | c :: s =>
    if (hex ∧ (c = 'p' ∨ c = 'P')) ∨ (¬ hex ∧ (c = 'e' ∨ c = 'E')) then
      match s with
      | [] => none
      | d :: t =>
        let neg := decide (d = '-')
        let t := if d = '+' ∨ d = '-' then t else d :: t
        match t with
        | [] => none
        | f :: _ =>
          if isDigit f then
            let r := readExpDigits t 0
            some (if neg then -(r.1 : Int) else r.1, r.2)
          else none
    else if hex then none else some (0, c :: s)

/-- The loop of `underscoreOK`: `saw` is the kind of the last character, `'0'` for
a digit, `'_'` for an underscore, `'!'` for anything else. -/
def underscoreLoop (hex : Bool) : List Char → Char → Bool
  | [], saw => saw != '_'
  | c :: s, saw =>
    if (digitValue hex c).isSome then underscoreLoop hex s '0'
    else if c = '_' then (saw == '0') && underscoreLoop hex s '_'
    else if saw = '_' then false
    else underscoreLoop hex s '!'

/-- Underscores may only separate digits, or a base prefix from a digit
(`underscoreOK`). -/
def underscoreOK (s : List Char) : Bool :=
  let s := match s with
    | c :: t => if c = '+' ∨ c = '-' then t else s
    | [] => s
  match s with
  | '0' :: c :: t =>
    if c = 'b' ∨ c = 'B' ∨ c = 'o' ∨ c = 'O' then underscoreLoop false t '0'
    else if c = 'x' ∨ c = 'X' then underscoreLoop true t '0'
    else underscoreLoop false s '^'
  | _ => underscoreLoop false s '^'

/-- The number read by `readFloat`, when the text is one in whole: the sign, and
the value as a fraction `n / d`. -/
def readFloat (s : List Char) : Option (Bool × Nat × Nat) :=
  let neg := decide (s.head? = some '-')
  let t := if s.head? = some '+' ∨ s.head? = some '-' then s.tail else s
  let hex := match t with
    | '0' :: c :: _ :: _ => c = 'x' ∨ c = 'X'
    | _ => false
  let r := readDigits hex (if hex then t.drop 2 else t) ⟨0, 0, false, false⟩
  if r.1.sawdigits then
    match readExponent hex r.2 with
    | some (e, []) =>
      if underscoreOK s then
        -- the point moves by `e` decimal places, or by `e` bits after hex digits
        let shift : Int := if hex then e - 4 * r.1.frac else e - r.1.frac
        let base : Nat := if hex then 2 else 10
        some (neg, r.1.value * base ^ shift.toNat, base ^ (-shift).toNat)
      else none
    | _ => none
  else none

/-- Go's `strconv.ParseFloat(s, 64)`: the nearest `float64` of a decimal or
hexadecimal floating-point number, infinity or NaN; `none` stands for a non-nil
error, which is a syntax error or, for a number that rounds to infinity, a range
error. -/
def parseFloat (s : String) : Option Float64 :=
  match special s.data with
  | some (v, n) => if n = s.data.length then some v else none
  | none =>
    match readFloat s.data with
    | some (neg, n, d) =>
      match Float64.round neg n d with
      | Float64.fin sg m e => some (Float64.fin sg m e)
      | _ => none
    | none => none

/-! ## The program -/

/-- The errors the program returns, one constructor for each message of
`src/main.go`. -/
inductive CalcError where
  /-- In `tokenize`: "не удалось токенизировать выражение: %s". -/
  | tokenize (expression : String)
  /-- In `calcFunc`: "деление на ноль невозможно". -/
  | divisionByZero
  /-- In `parseToRPN`: "некорректное выражение: нет соответствующей открывающей скобки". -/
  | noOpeningParen
  /-- In `parseToRPN`: "некорректный токен: %s". -/
  | invalidToken (token : String)
  /-- In `parseToRPN`: "некорректное выражение: нет соответствующей закрывающей скобки". -/
  | noClosingParen
  /-- In `evaluateRPN`: "ошибка: недостаточно операндов для выполнения операции '%s' на
  позиции %d". -/
  | insufficientOperands (token : String) (position : Nat)
  /-- In `evaluateRPN`: "ошибка при вычислении операции '%s': %v". -/
  | operation (token : String) (cause : CalcError)
  /-- In `evaluateRPN`: "ошибка: выражение некорректно, остались лишние или отсутствующие
  операнды". -/
  | malformed
  deriving DecidableEq, Repr

deriving instance DecidableEq for Except

/-- One of the characters of the class `[+\-*/()]`. -/
def isOperatorChar (c : Char) : Bool :=
  c = '+' ∨ c = '-' ∨ c = '*' ∨ c = '/' ∨ c = '(' ∨ c = ')'

/-- The match of `\d+(\.\d+)?|[+\-*/()]` that starts at the first character of the
text, if there is one, and the text after it.  The quantifiers are greedy: all
the digits are taken, then a point and all the digits after it when there is at
least one. -/
def matchPrefix : List Char → Option (List Char × List Char)
  | [] => none
  | c :: s =>
    if isDigit c then
      let int := c :: s.takeWhile isDigit
      let rest := s.dropWhile isDigit
      match rest with
      | [] => some (int, rest)
      | p :: t =>
        if p = '.' ∧ (t.takeWhile isDigit) ≠ [] then
          some (int ++ p :: t.takeWhile isDigit, t.dropWhile isDigit)
        else some (int, rest)
    else if isOperatorChar c then some ([c], s)
    else none

/-- The successive matches of the regular expression (`FindAllString` with
`n = -1`): the leftmost match, then the matches of the text that follows it; a
character at which no match starts is passed over.  `fuel` bounds the number of
steps; the length of the text is enough. -/
def findAll : Nat → List Char → List String
  | 0, _ => []
  | fuel + 1, s =>
    match matchPrefix s with
    | some (token, rest) => String.mk token :: findAll fuel rest
    | none =>
      match s with
      | [] => []
      | _ :: t => findAll fuel t

/-- The function `tokenize` of `src/main.go`. -/
def tokenize (expression : String) : Except CalcError (List String) :=
  let tokens := findAll expression.length expression.data
  if tokens = [] then .error (.tokenize expression) else .ok tokens

/-- The method `calcFunc` of `src/main.go`; `values` is the slice of two operands
it is called with. -/
def calcFunc (values : Float64 × Float64) (operator : String) : Except CalcError Float64 :=
  if operator = "+" then .ok (values.1 + values.2)
  else if operator = "-" then .ok (values.1 - values.2)
  else if operator = "*" then .ok (values.1 * values.2)
  else if operator = "/" then
    if values.2.isZero then .error .divisionByZero
    else .ok (values.1 / values.2)
  else .ok 0

/-- The map `precedence` of `parseToRPN`; a key that is absent reads as `0`. -/
def precedence (token : String) : Nat :=
  if token = "+" then 1
  else if token = "-" then 1
  else if token = "*" then 2
  else if token = "/" then 2
  else 0

/-- The loop of the `)` case: moves the operators above the nearest `(` to the
output.  A stack is a list with its top first. -/
def popToParen : List String → List String → List String × List String
  | output, [] => (output, [])
  | output, top :: stack =>
    if top ≠ "(" then popToParen (output ++ [top]) stack else (output, top :: stack)

/-- The loop of the operator case: moves to the output the tokens on top of the
stack whose precedence is at least that of `token`. -/
def popOperators (token : String) : List String → List String → List String × List String
  | output, [] => (output, [])
  | output, top :: stack =>
    if precedence top ≥ precedence token then popOperators token (output ++ [top]) stack
    else (output, top :: stack)

/-- The body of the main loop of `parseToRPN` for one token, on the pair of the
output and the operator stack. -/
def convertToken (token : String) (state : List String × List String) :
    Except CalcError (List String × List String) :=
  if (parseFloat token).isSome then .ok (state.1 ++ [token], state.2)
  else if token = "(" then .ok (state.1, token :: state.2)
  else if token = ")" then
    match popToParen state.1 state.2 with
    | (_, []) => .error .noOpeningParen
    | (output, top :: stack) =>
      if top ≠ "(" then .error .noOpeningParen else .ok (output, stack)
  else if precedence token > 0 then
    .ok ((popOperators token state.1 state.2).1, token :: (popOperators token state.1 state.2).2)
  else .error (.invalidToken token)

/-- The main loop of `parseToRPN`. -/
def convert : List String → List String × List String →
    Except CalcError (List String × List String)
  | [], state => .ok state
  | token :: tokens, state =>
    match convertToken token state with
    | .ok state => convert tokens state
    | .error err => .error err

/-- The final loop of `parseToRPN`: empties the stack into the output. -/
def drain : List String → List String → Except CalcError (List String)
  | output, [] => .ok output
  | output, top :: stack =>
    if top = "(" then .error .noClosingParen else drain (output ++ [top]) stack

/-- The conversion of a token sequence to postfix form: the two loops of
`parseToRPN`. -/
def toPostfix (tokens : List String) : Except CalcError (List String) :=
  match convert tokens ([], []) with
  | .ok (output, stack) => drain output stack
  | .error err => .error err

/-- The method `parseToRPN` of `src/main.go`. -/
def parseToRPN (expression : String) : Except CalcError (List String) :=
  match tokenize expression with
  | .ok tokens => toPostfix tokens
  | .error errTokenize => .error errTokenize

/-- The loop of `evaluateRPN` from the token of index `i` on; the operand stack is
a list with its top first. -/
def evalLoop : List String → Nat → List Float64 → Except CalcError (List Float64)
  | [], _, stack => .ok stack
  | token :: rpn, i, stack =>
    match parseFloat token with
    | some value => evalLoop rpn (i + 1) (value :: stack)
    | none =>
      match stack with
      | a :: b :: stack =>
        match calcFunc (b, a) token with
        | .ok result => evalLoop rpn (i + 1) (result :: stack)
        | .error err => .error (.operation token err)
      | _ => .error (.insufficientOperands token (i + 1))

/-- The method `evaluateRPN` of `src/main.go`. -/
def evaluateRPN (rpn : List String) : Except CalcError Float64 :=
  match evalLoop rpn 0 [] with
  | .ok [result] => .ok result
  | .ok _ => .error .malformed
  | .error err => .error err

/-- The computation of `run` on one input line that is not a command:
`parseToRPN`, then `evaluateRPN`. -/
def evaluate (input : String) : Except CalcError Float64 :=
  match parseToRPN input with
  | .ok rpn => evaluateRPN rpn
  | .error errParseToRPN => .error errParseToRPN

/-! ## Notions of the specification -/

/-- A decimal literal: one or more digits, optionally followed by a point and one
or more digits. -/
def IsLiteral (t : List Char) : Prop :=
  ∃ int : List Char, int ≠ [] ∧ (∀ c ∈ int, isDigit c = true) ∧
    (t = int ∨ ∃ frac : List Char, frac ≠ [] ∧ (∀ c ∈ frac, isDigit c = true) ∧
      t = int ++ '.' :: frac)

/-- The relation `Lexed s tokens`: the text `s` consists of the tokens `tokens`, unchanged and
in this order, and of characters between them that are neither a digit nor one
of `+ - * / ( )`; a token is one of these six characters, or a decimal literal
that is the longest one starting at its place. -/
inductive Lexed : List Char → List String → Prop
  | done : Lexed [] []
  | skip (c : Char) (s : List Char) (tokens : List String) :
      isDigit c = false → isOperatorChar c = false → Lexed s tokens →
      Lexed (c :: s) tokens
  | operator (c : Char) (s : List Char) (tokens : List String) :
      isOperatorChar c = true → Lexed s tokens →
      Lexed (c :: s) (String.mk [c] :: tokens)
  | number (t s : List Char) (tokens : List String) :
      IsLiteral t → (∀ u : List Char, IsLiteral u → u <+: t ++ s → u.length ≤ t.length) →
      Lexed s tokens → Lexed (t ++ s) (String.mk t :: tokens)

/-- The four binary operators. -/
inductive Op where
  | add
  | sub
  | mul
  | div
  deriving DecidableEq, Repr

/-- The token of an operator. -/
def Op.token : Op → String
  | .add => "+"
  | .sub => "-"
  | .mul => "*"
  | .div => "/"

/-- Standard precedence: `*` and `/` bind tighter than `+` and `-`. -/
def Op.prec : Op → Nat
  | .add => 1
  | .sub => 1
  | .mul => 2
  | .div => 2

/-- The `float64` operation an operator stands for. -/
def Op.apply : Op → Float64 → Float64 → Float64
  | .add, x, y => x + y
  | .sub, x, y => x - y
  | .mul, x, y => x * y
  | .div, x, y => x / y

/-- Infix expressions: number tokens, binary operations and parenthesised
expressions. -/
inductive Expr where
  | lit (token : String)
  | bin (op : Op) (left right : Expr)
  | paren (e : Expr)
  deriving DecidableEq, Repr

namespace Expr

/-- How tightly the outermost construct binds: the precedence of the operator of
a binary operation, and more than any operator for a literal or a parenthesised
expression. -/
def level : Expr → Nat
  | lit _ => 3
  | bin op _ _ => op.prec
  | paren _ => 3

/-- The expression is the parse tree of its own token sequence under the standard
grammar with left-associative operators: the left operand of an operator binds
at least as tightly as the operator, the right operand strictly tighter. -/
def wellFormed : Expr → Bool
  | lit _ => true
  | bin op l r => l.wellFormed && r.wellFormed && decide (op.prec ≤ l.level) &&
      decide (op.prec < r.level)
  | paren e => e.wellFormed

/-- The token sequence of the expression, in infix order. -/
def tokens : Expr → List String
  | lit t => [t]
  | bin op l r => l.tokens ++ op.token :: r.tokens
  | paren e => "(" :: e.tokens ++ [")"]

/-- The text of the expression: its tokens one after the other. -/
def text : Expr → String
  | lit t => t
  | bin op l r => l.text ++ op.token ++ r.text
  | paren e => "(" ++ e.text ++ ")"

/-- The number tokens of the expression. -/
def literals : Expr → List String
  | lit t => [t]
  | bin _ l r => l.literals ++ r.literals
  | paren e => e.literals

/-- Post-order traversal: left operand, right operand, operator. -/
def rpn : Expr → List String
  | lit t => [t]
  | bin op l r => l.rpn ++ r.rpn ++ [op.token]
  | paren e => e.rpn

/-- The value of the expression in `float64` arithmetic, when every number token
has a value (`ParseFloat` accepts it) and no division has a right operand equal
to zero. -/
def value : Expr → Option Float64
  | lit t => parseFloat t
  | bin op l r =>
    match l.value, r.value with
    | some x, some y => if op = Op.div ∧ y.isZero = true then none else some (op.apply x y)
    | _, _ => none
  | paren e => e.value

/-- Some division in the expression has a right operand whose value is zero. -/
def dividesByZero : Expr → Bool
  | lit _ => false
  | bin op l r =>
    l.dividesByZero || r.dividesByZero ||
      (decide (op = Op.div) && (match r.value with
        | some y => y.isZero
        | none => false))
  | paren e => e.dividesByZero

end Expr

/-- The token is a parenthesis. -/
def isParen (token : String) : Bool := token = "(" ∨ token = ")"

/-- The number of `(` tokens among the tokens. -/
def opening (tokens : List String) : Nat := tokens.count "("

/-- The number of `)` tokens among the tokens. -/
def closing (tokens : List String) : Nat := tokens.count ")"

/-- A number token with 309 digits, `2 * 10^308`: more than any `float64`. -/
def tooLarge : String := String.mk ('2' :: List.replicate 308 '0')

/-- The test of a number token in both loops of the program: `ParseFloat` returns
no error. -/
def isNumber (token : String) : Bool := (parseFloat token).isSome

/-- A necessary condition on the token sequence of an infix expression: operands
(number tokens, which begin with a digit, and parenthesised parts) and operators
alternate.  The flag tells whether an operand is expected next. -/
def alternates : Bool → List String → Bool
  | operand, [] => !operand
  | true, t :: ts =>
    if t = "(" then alternates true ts
    else if t.data.head?.any isDigit then alternates false ts
    else false
  | false, t :: ts =>
    if t = ")" then alternates false ts
    else if 0 < precedence t then alternates true ts
    else false

/-! ## The receiver of the methods -/

set_option linter.dupNamespace false in
/-- The type `Calculator` of `src/main.go`: the history of the results. -/
structure Calculator where
  history : List String
  deriving DecidableEq, Repr

namespace Method

/-- The method `calcFunc` with its receiver, as a function from the state of the
calculator to the result and the state afterwards. -/
def calcFunc (c : Calculator) (values : Float64 × Float64) (operator : String) :
    Except CalcError Float64 × Calculator :=
  (Calculator.calcFunc values operator, c)

/-- The method `parseToRPN` with its receiver; it calls `tokenize`, which is no
method, and no method. -/
def parseToRPN (c : Calculator) (expression : String) :
    Except CalcError (List String) × Calculator :=
  (Calculator.parseToRPN expression, c)

/-- The loop of the method `evaluateRPN` with its receiver, which it passes to
each call of `calcFunc`. -/
def evalLoop : List String → Nat → List Float64 → Calculator →
    Except CalcError (List Float64) × Calculator
  | [], _, stack, c => (.ok stack, c)
  | token :: rpn, i, stack, c =>
    match parseFloat token with
    | some value => evalLoop rpn (i + 1) (value :: stack) c
    | none =>
      match stack with
      | a :: b :: stack =>
        match calcFunc c (b, a) token with
        | (.ok result, c) => evalLoop rpn (i + 1) (result :: stack) c
        | (.error err, c) => (.error (.operation token err), c)
      | _ => (.error (.insufficientOperands token (i + 1)), c)

/-- The method `evaluateRPN` with its receiver. -/
def evaluateRPN (c : Calculator) (rpn : List String) : Except CalcError Float64 × Calculator :=
  match evalLoop rpn 0 [] c with
  | (.ok [result], c) => (.ok result, c)
  | (.ok _, c) => (.error .malformed, c)
  | (.error err, c) => (.error err, c)

/-- The method `addHistory`: the input without its blanks, ` = ` and the result;
`format` stands for the formatting of a `float64` by `%.2f`. -/
def addHistory (format : Float64 → String) (c : Calculator) (input : String)
    (result : Float64) : Calculator :=
  { history := c.history ++
      [String.mk (input.data.filter (fun ch => ch ≠ ' ')) ++ " = " ++ format result] }

/-- The body of the loop of `run` for an input that is not a command:
`parseToRPN`, `evaluateRPN` and, when both succeed, `addHistory`. -/
def evaluateInput (format : Float64 → String) (c : Calculator) (input : String) :
    Except CalcError Float64 × Calculator :=
  match parseToRPN c input with
  | (.error errParseToRPN, c) => (.error errParseToRPN, c)
  | (.ok rpn, c) =>
    match evaluateRPN c rpn with
    | (.error errEvaluateRPN, c) => (.error errEvaluateRPN, c)
    | (.ok result, c) => (.ok result, addHistory format c input result)

end Method

/-- The number that a text of decimal digits denotes. -/
def digitsValue (digits : List Char) : Nat :=
  digits.foldl (fun n c => n * 10 + (c.toNat - 48)) 0

/-- The `float64` value is exactly the fraction `n / d` (with `0 < d`). -/
def Float64.isRatio (x : Float64) (n d : Nat) : Bool :=
  match x with
  | Float64.fin neg m e =>
    decide ((neg = false ∨ m = 0) ∧ m * 2 ^ e.toNat * d = n * 2 ^ (-e).toNat)
  | _ => false

/-- The result of `ParseFloat` for a rounded value: a range error for an
infinity. -/
def finite (x : Float64) : Option Float64 :=
  match x with
  | Float64.fin neg m e => some (Float64.fin neg m e)
  | _ => none

/-- White space in the sense of Go's `unicode.IsSpace`: tab, line feed, vertical
tab, form feed, carriage return, space, U+0085, U+00A0 and the space separators
of Unicode. -/
def isSpace (c : Char) : Bool :=
  (9 ≤ c.toNat && c.toNat ≤ 13) || c.toNat = 32 || c.toNat = 133 || c.toNat = 160 ||
    c.toNat = 5760 || (8192 ≤ c.toNat && c.toNat ≤ 8202) || c.toNat = 8232 ||
    c.toNat = 8233 || c.toNat = 8239 || c.toNat = 8287 || c.toNat = 12288

/-- The places of the successive matches of the regular expression in a text that
begins at offset `pos` (`FindAllStringIndex`): for each token the offset of its
first character and the offset after its last one. -/
def findAllIndex : Nat → Nat → List Char → List (Nat × Nat)
  | 0, _, _ => []
  | fuel + 1, pos, s =>
    match matchPrefix s with
    | some (token, rest) =>
      (pos, pos + token.length) :: findAllIndex fuel (pos + token.length) rest
    | none =>
      match s with
      | [] => []
      | _ :: t => findAllIndex fuel (pos + 1) t

/-- The text `s` with the characters `ws` inserted at offset `k`. -/
def insertAt (s : String) (k : Nat) (ws : List Char) : String :=
  String.mk (s.data.take k ++ ws ++ s.data.drop k)

/-- The rational number that a finite `float64` value denotes,
`(-1)^neg * m * 2^e` (and zero for an infinity or a NaN). -/
def Float64.toRat : Float64 → ℚ
  | Float64.fin neg m e => (if neg then -(m : ℚ) else (m : ℚ)) * 2 ^ e
  | _ => 0

/-- A finite value of binary64: a magnitude `M * 2^E` with a significand
`M < 2^53` and an exponent `-1074 ≤ E ≤ 971`.  It is recognised in every form
`m * 2^e` with `-1074 ≤ e`: for `e ≤ 971` the significand is `m` itself, and for
`e > 971` it is `m * 2^(e - 971)`, at the exponent 971. -/
def Float64.isFinite64 : Float64 → Bool
  | Float64.fin _ m e => decide (-1074 ≤ e ∧ m * 2 ^ (e - 971).toNat < 2 ^ 53)
  | _ => false

/-- The decimal value of a number token `d1.d2` with digit strings `d1` and `d2`:
`d1 + d2 / 10^len(d2)`. -/
def decimalValue (d1 d2 : List Char) : ℚ :=
  digitsValue d1 + digitsValue d2 / 10 ^ d2.length

end Calculator


/-! ## Properties -/

namespace Calculator

/-! ### The arithmetic operator -/

theorem calcFunc_add (v : Float64 × Float64) : calcFunc v "+" = .ok (v.1 + v.2) := by
  simp [calcFunc]

theorem calcFunc_sub (v : Float64 × Float64) : calcFunc v "-" = .ok (v.1 - v.2) := by
  simp [calcFunc]

theorem calcFunc_mul (v : Float64 × Float64) : calcFunc v "*" = .ok (v.1 * v.2) := by
  simp [calcFunc]

theorem calcFunc_div (v : Float64 × Float64) :
    calcFunc v "/" = if v.2.isZero = true then .error .divisionByZero else .ok (v.1 / v.2) := by
  simp [calcFunc]

theorem calcFunc_other (v : Float64 × Float64) (op : String)
    (h : op ≠ "+" ∧ op ≠ "-" ∧ op ≠ "*" ∧ op ≠ "/") : calcFunc v op = .ok 0 := by
  simp [calcFunc, h.1, h.2.1, h.2.2.1, h.2.2.2]

/-- The operator of the program for an operator of the grammar. -/
theorem calcFunc_token (op : Op) (x y : Float64) :
    calcFunc (x, y) op.token =
      if op = Op.div ∧ y.isZero = true then .error .divisionByZero else .ok (op.apply x y) := by
  cases op <;> simp [Op.token, Op.apply, calcFunc]

/-- C7: for all operands `a`, `b`, `calcFunc` returns `a + b`, `a - b`, `a * b`, and
`a / b` when `b` is not `0`, each without error; for the four operators it returns
an error if and only if the operator is `/` and `b == 0`. -/
theorem calcFunc_contract (a b : Float64) :
    calcFunc (a, b) "+" = .ok (a + b) ∧
    calcFunc (a, b) "-" = .ok (a - b) ∧
    calcFunc (a, b) "*" = .ok (a * b) ∧
    (b.isZero = false → calcFunc (a, b) "/" = .ok (a / b)) ∧
    (∀ op, op ∈ ["+", "-", "*", "/"] →
      ((∃ err, calcFunc (a, b) op = .error err) ↔ (op = "/" ∧ b.isZero = true))) := by
  refine ⟨calcFunc_add _, calcFunc_sub _, calcFunc_mul _, ?_, ?_⟩
  · intro hb
    simp [calcFunc_div, hb]
  · intro op hop
    simp only [List.mem_cons, List.mem_singleton, List.not_mem_nil, or_false] at hop
    rcases hop with rfl | rfl | rfl | rfl
    · simp [calcFunc_add]
    · simp [calcFunc_sub]
    · simp [calcFunc_mul]
    · cases hb : b.isZero <;> simp [calcFunc_div, hb]

/-- C7, at `8 / 2` and at `8 / 0`. -/
theorem calcFunc_contract_witness :
    calcFunc (8, 2) "/" = .ok (8 / 2) ∧ (∃ err, calcFunc (8, 0) "/" = .error err) :=
  ⟨(calcFunc_contract 8 2).2.2.2.1 (by decide),
    ((calcFunc_contract 8 0).2.2.2.2 "/" (by decide)).2 ⟨rfl, by decide⟩⟩

/-- C6, as stated, fails: for the symbol `(`, outside `+ - * /`, `calcFunc` returns
the number `0` and no error, and so does `evaluateRPN` on `["1", "2", "("]`. -/
theorem calcFunc_unknown_operator_counterexample :
    "(" ∉ ["+", "-", "*", "/"] ∧ calcFunc (1, 2) "(" = .ok 0 ∧
      evaluateRPN ["1", "2", "("] = .ok 0 := by
  decide

/-- C6, amended: for every operator symbol outside `+ - * /` and all operands,
`calcFunc` returns `0` without error; on a postfix sequence `[x, y, op]` with two
number tokens and such a symbol that is not a number, `evaluateRPN` returns `0`. -/
theorem calcFunc_unknown_operator (op : String) (hop : op ∉ ["+", "-", "*", "/"]) :
    (∀ a b : Float64, calcFunc (a, b) op = .ok 0) ∧
    (∀ (x y : String) (a b : Float64), parseFloat x = some a → parseFloat y = some b →
      parseFloat op = none → evaluateRPN [x, y, op] = .ok 0) := by
  simp only [List.mem_cons, List.mem_singleton, List.not_mem_nil, or_false, not_or] at hop
  have h : ∀ v : Float64 × Float64, calcFunc v op = .ok 0 := fun v => calcFunc_other v op hop
  refine ⟨fun a b => h (a, b), ?_⟩
  intro x y a b hx hy hn
  simp [evaluateRPN, evalLoop, hx, hy, hn, h]

/-- C6, amended, at the symbol `(`. -/
theorem calcFunc_unknown_operator_witness :
    (∀ a b : Float64, calcFunc (a, b) "(" = .ok 0) ∧ evaluateRPN ["1", "2", "("] = .ok 0 :=
  ⟨(calcFunc_unknown_operator "(" (by decide)).1,
    (calcFunc_unknown_operator "(" (by decide)).2 "1" "2" 1 2 (by decide) (by decide)
      (by decide)⟩

/-! ### The evaluator -/

theorem evalLoop_append (pre rest : List String) (i : Nat) (stack : List Float64) :
    evalLoop (pre ++ rest) i stack =
      match evalLoop pre i stack with
      | .ok stack' => evalLoop rest (i + pre.length) stack'
      | .error err => .error err := by
  induction pre generalizing i stack with
  | nil => simp [evalLoop]
  | cons token pre ih =>
    have hlen : i + 1 + pre.length = i + (token :: pre).length := by
      simp only [List.length_cons]; omega
    cases hp : parseFloat token with
    | some value =>
      simp only [List.cons_append, evalLoop, hp]
      rw [← hlen]; exact ih _ _
    | none =>
      match stack with
      | [] => simp only [List.cons_append, evalLoop, hp]
      | [_] => simp only [List.cons_append, evalLoop, hp]
      | a :: b :: stack =>
        cases hc : calcFunc (b, a) token with
        | ok result =>
          simp only [List.cons_append, evalLoop, hp, hc]
          rw [← hlen]; exact ih _ _
        | error err => simp only [List.cons_append, evalLoop, hp, hc]

/-- C5: if `evaluateRPN` meets an operator token (a token that is not a number) at
the 0-based index `i`, after a prefix of `i` tokens processed without failure that
leaves fewer than two values on the operand stack, it fails with the
insufficient-operands error naming that token and the position `i + 1`. -/
theorem evaluateRPN_insufficientOperands (pre post : List String) (token : String)
    (stack : List Float64) (hpre : evalLoop pre 0 [] = .ok stack) (hlen : stack.length < 2)
    (hop : parseFloat token = none) :
    evaluateRPN (pre ++ token :: post) =
      .error (.insufficientOperands token (pre.length + 1)) := by
  have h : evalLoop (token :: post) (0 + pre.length) stack =
      .error (.insufficientOperands token (pre.length + 1)) := by
    match stack, hlen with
    | [], _ => simp [evalLoop, hop]
    | [_], _ => simp [evalLoop, hop]
  simp only [evaluateRPN, evalLoop_append, hpre, h]

/-- C5, at the postfix sequence `["+"]`: it fails naming `+` at position 1. -/
theorem evaluateRPN_insufficientOperands_witness :
    evaluateRPN ["+"] = .error (.insufficientOperands "+" 1) :=
  evaluateRPN_insufficientOperands [] [] "+" [] rfl (by decide) (by decide)

/-! ### The tokenizer -/

theorem isDigit_not_operator (c : Char) (h : isDigit c = true) : isOperatorChar c = false := by
  simp only [isOperatorChar, decide_eq_false_iff_not, not_or]
  refine ⟨?_, ?_, ?_, ?_, ?_, ?_⟩ <;> rintro rfl <;> revert h <;> decide

theorem isDigit_point : isDigit '.' = false := by decide

/-- A run of digits at the beginning of a text lies within its leading digits. -/
theorem length_le_takeWhile_digits (u s : List Char) (hu : ∀ c ∈ u, isDigit c = true)
    (h : u <+: s) : u.length ≤ (s.takeWhile isDigit).length := by
  obtain ⟨v, rfl⟩ := h
  rw [List.takeWhile_append_of_pos hu]
  simp

/-- Every decimal literal at the beginning of a text is at most as long as the
leading digits, together with a point and the digits after it when there are
some. -/
theorem literal_length_le (u s : List Char) (hu : IsLiteral u) (h : u <+: s) :
    (u.length ≤ (s.takeWhile isDigit).length) ∨
    (∃ t, s.dropWhile isDigit = '.' :: t ∧ t.takeWhile isDigit ≠ [] ∧
      u.length ≤ (s.takeWhile isDigit).length + 1 + (t.takeWhile isDigit).length) := by
  obtain ⟨int, _, hint, hu⟩ := hu
  rcases hu with rfl | ⟨frac, hfrac, hfracd, rfl⟩
  · exact Or.inl (length_le_takeWhile_digits _ _ hint h)
  · right
    obtain ⟨v, rfl⟩ := h
    have e : int ++ '.' :: frac ++ v = int ++ '.' :: (frac ++ v) := by simp
    rw [e, List.takeWhile_append_of_pos hint, List.dropWhile_append_of_pos hint]
    refine ⟨frac ++ v, by simp [List.dropWhile, isDigit_point], ?_, ?_⟩
    · rw [List.takeWhile_append_of_pos hfracd]
      cases frac with
      | nil => exact absurd rfl hfrac
      | cons a l => simp
    · rw [List.takeWhile_append_of_pos hfracd]
      simp only [List.length_append, List.length_cons]
      omega

/-- At a digit the regular expression matches a decimal literal, the longest one
that starts there. -/
theorem matchPrefix_digit (c : Char) (s : List Char) (hc : isDigit c = true) :
    ∃ token rest, matchPrefix (c :: s) = some (token, rest) ∧ token ++ rest = c :: s ∧
      IsLiteral token ∧
      ∀ u, IsLiteral u → u <+: c :: s → u.length ≤ token.length := by
  have htake : (c :: s).takeWhile isDigit = c :: s.takeWhile isDigit := by
    simp [List.takeWhile, hc]
  have hdrop : (c :: s).dropWhile isDigit = s.dropWhile isDigit := by
    simp [List.dropWhile, hc]
  have hint : ∀ d ∈ c :: s.takeWhile isDigit, isDigit d = true := by
    intro d hd
    rcases List.mem_cons.1 hd with rfl | hd
    · exact hc
    · exact List.mem_takeWhile_imp hd
  have hsplit : c :: s = (c :: s.takeWhile isDigit) ++ s.dropWhile isDigit := by
    simp
  cases hR : s.dropWhile isDigit with
  | nil =>
    refine ⟨c :: s.takeWhile isDigit, [], by simp [matchPrefix, hc, hR], ?_, ?_, ?_⟩
    · rw [hsplit, hR]
    · exact ⟨_, by simp, hint, Or.inl rfl⟩
    · intro u hu hpre
      rcases literal_length_le u (c :: s) hu hpre with h | ⟨t, ht, _, _⟩
      · rw [htake] at h; exact h
      · rw [hdrop, hR] at ht; exact absurd ht (by simp)
  | cons p t =>
    by_cases hp : p = '.' ∧ t.takeWhile isDigit ≠ []
    · refine ⟨(c :: s.takeWhile isDigit) ++ p :: t.takeWhile isDigit, t.dropWhile isDigit,
        by simp only [matchPrefix, hc, if_true, hR]; rw [if_pos hp], ?_, ?_, ?_⟩
      · rw [hsplit, hR]; simp
      · refine ⟨_, by simp, hint, Or.inr ⟨t.takeWhile isDigit, hp.2, ?_, by rw [hp.1]⟩⟩
        intro d hd
        exact List.mem_takeWhile_imp hd
      · intro u hu hpre
        rcases literal_length_le u (c :: s) hu hpre with h | ⟨t', ht', _, h⟩
        · rw [htake] at h; simp only [List.length_append, List.length_cons] at h ⊢; omega
        · rw [hdrop, hR] at ht'
          obtain ⟨_, rfl⟩ := List.cons.inj ht'
          rw [htake] at h
          simp only [List.length_append, List.length_cons] at h ⊢; omega
    · refine ⟨c :: s.takeWhile isDigit, p :: t,
        by simp only [matchPrefix, hc, if_true, hR]; rw [if_neg hp], ?_, ?_, ?_⟩
      · rw [hsplit, hR]
      · exact ⟨_, by simp, hint, Or.inl rfl⟩
      · intro u hu hpre
        rcases literal_length_le u (c :: s) hu hpre with h | ⟨t', ht', hne, _⟩
        · rw [htake] at h; exact h
        · rw [hdrop, hR] at ht'
          obtain ⟨rfl, rfl⟩ := List.cons.inj ht'
          exact absurd ⟨rfl, hne⟩ hp

theorem matchPrefix_operator (c : Char) (s : List Char) (hd : isDigit c = false)
    (hc : isOperatorChar c = true) : matchPrefix (c :: s) = some ([c], s) := by
  simp [matchPrefix, hd, hc]

theorem matchPrefix_other (c : Char) (s : List Char) (hd : isDigit c = false)
    (hc : isOperatorChar c = false) : matchPrefix (c :: s) = none := by
  simp [matchPrefix, hd, hc]

/-- With fuel for every character, `findAll` splits the whole text into tokens
and characters that start none. -/
theorem findAll_lexed (fuel : Nat) (s : List Char) (h : s.length ≤ fuel) :
    Lexed s (findAll fuel s) := by
  induction fuel generalizing s with
  | zero =>
    have : s = [] := List.length_eq_zero.1 (Nat.le_zero.1 h)
    subst this
    exact Lexed.done
  | succ fuel ih =>
    cases s with
    | nil => simp only [findAll, matchPrefix]; exact Lexed.done
    | cons c s =>
      have hs : s.length ≤ fuel := by simpa using h
      cases hd : isDigit c with
      | true =>
        obtain ⟨token, rest, hm, hsplit, hlit, hlong⟩ := matchPrefix_digit c s hd
        have hne : token ≠ [] := by
          obtain ⟨int, hint, _, ht⟩ := hlit
          rcases ht with rfl | ⟨_, _, _, rfl⟩
          · exact hint
          · simp
        have hlen : rest.length ≤ fuel := by
          have := congrArg List.length hsplit
          have hpos : 0 < token.length := List.length_pos.2 hne
          simp only [List.length_append, List.length_cons] at this
          omega
        simp only [findAll, hm]
        rw [← hsplit] at hlong ⊢
        exact Lexed.number token rest _ hlit hlong (ih rest hlen)
      | false =>
        cases hc : isOperatorChar c with
        | true =>
          simp only [findAll, matchPrefix_operator c s hd hc]
          exact Lexed.operator c s _ hc (ih s hs)
        | false =>
          simp only [findAll, matchPrefix_other c s hd hc]
          exact Lexed.skip c s _ hd hc (ih s hs)

theorem isLiteral_head_digit (t : List Char) (h : IsLiteral t) :
    ∃ c r, t = c :: r ∧ isDigit c = true := by
  obtain ⟨int, hint, hd, ht⟩ := h
  cases int with
  | nil => exact absurd rfl hint
  | cons c r =>
    have hc := hd c (List.mem_cons_self _ _)
    rcases ht with rfl | ⟨frac, _, _, rfl⟩
    · exact ⟨c, r, rfl, hc⟩
    · exact ⟨c, r ++ '.' :: frac, by simp, hc⟩

/-- A text has no token exactly when none of its characters is a digit or one of
`+ - * / ( )`. -/
theorem lexed_nil_iff (s : List Char) (tokens : List String) (h : Lexed s tokens) :
    tokens = [] ↔ ∀ c ∈ s, isDigit c = false ∧ isOperatorChar c = false := by
  induction h with
  | done => simp
  | skip c s tokens hd hc _ ih =>
    rw [ih]
    simp [hd, hc]
  | operator c s tokens hc _ _ =>
    simp only [List.cons_ne_nil, false_iff, not_forall]
    exact ⟨c, List.mem_cons_self _ _, by simp [hc]⟩
  | number t s tokens hlit _ _ _ =>
    obtain ⟨c, r, rfl, hc⟩ := isLiteral_head_digit t hlit
    simp only [List.cons_ne_nil, false_iff, not_forall]
    exact ⟨c, by simp, by simp [hc]⟩

/-- The tokens of a text are single characters among `+ - * / ( )` and decimal
literals. -/
theorem lexed_token (s : List Char) (tokens : List String) (h : Lexed s tokens) :
    ∀ t ∈ tokens, t ∈ ["+", "-", "*", "/", "(", ")"] ∨ IsLiteral t.data := by
  induction h with
  | done => simp
  | skip c s tokens _ _ _ ih => exact ih
  | operator c s tokens hc _ ih =>
    intro t ht
    rcases List.mem_cons.1 ht with rfl | ht
    · left
      simp only [isOperatorChar, decide_eq_true_eq] at hc
      rcases hc with rfl | rfl | rfl | rfl | rfl | rfl <;> decide
    · exact ih t ht
  | number t s tokens hlit _ _ ih =>
    intro t' ht
    rcases List.mem_cons.1 ht with rfl | ht
    · exact Or.inr hlit
    · exact ih t' ht

theorem tokenize_ok (s : String) (tokens : List String) (h : tokenize s = .ok tokens) :
    tokens = findAll s.length s.data ∧ tokens ≠ [] := by
  unfold tokenize at h
  by_cases he : findAll s.length s.data = []
  · simp [he] at h
  · simp only [he, if_false, Except.ok.injEq] at h
    exact ⟨h.symm, h ▸ he⟩

/-- The tokens that `tokenize` returns split the whole text. -/
theorem tokenize_ok_lexed (s : String) (tokens : List String) (h : tokenize s = .ok tokens) :
    Lexed s.data tokens := by
  rw [(tokenize_ok s tokens h).1]
  exact findAll_lexed _ _ (Nat.le_refl _)

/-- C8: `tokenize` returns an error if and only if the token sequence is empty,
which is the case exactly when the text has no decimal digit and none of the
characters `+ - * / ( )`; otherwise it returns the non-empty token sequence. -/
theorem tokenize_error_iff (s : String) :
    ((∃ err, tokenize s = .error err) ↔ findAll s.length s.data = []) ∧
    (findAll s.length s.data = [] ↔
      ∀ c ∈ s.data, isDigit c = false ∧ isOperatorChar c = false) ∧
    (findAll s.length s.data ≠ [] →
      tokenize s = .ok (findAll s.length s.data)) := by
  refine ⟨?_, lexed_nil_iff _ _ (findAll_lexed _ _ (Nat.le_refl _)), ?_⟩
  · by_cases he : findAll s.length s.data = [] <;> simp [tokenize, he]
  · intro he
    simp [tokenize, he]

/-- C8, at a text of letters and blanks only, and at a text with one digit among
unrecognized characters. -/
theorem tokenize_error_iff_witness :
    (∃ err, tokenize "ab c" = .error err) ∧
      tokenize "a?7_" = .ok (findAll "a?7_".length "a?7_".data) :=
  ⟨(tokenize_error_iff "ab c").1.2 (by decide), (tokenize_error_iff "a?7_").2.2 (by decide)⟩

/-- C9: on success the tokens of `tokenize` are single characters among
`+ - * / ( )` and decimal literals; the text is these tokens, unchanged and in
order, separated by characters that are neither a digit nor one of `+ - * / ( )`;
and each number token is the longest decimal literal starting at its place. -/
theorem tokenize_lexed (s : String) (tokens : List String) (h : tokenize s = .ok tokens) :
    Lexed s.data tokens ∧
      ∀ t ∈ tokens, t ∈ ["+", "-", "*", "/", "(", ")"] ∨ IsLiteral t.data :=
  ⟨tokenize_ok_lexed s tokens h, lexed_token _ _ (tokenize_ok_lexed s tokens h)⟩

/-- C9, at the texts `1.`, `.5` and `2a+3`. -/
theorem tokenize_lexed_witness :
    (tokenize "1." = .ok ["1"] ∧ Lexed "1.".data ["1"]) ∧
    (tokenize ".5" = .ok ["5"] ∧ Lexed ".5".data ["5"]) ∧
    (tokenize "2a+3" = .ok ["2", "+", "3"] ∧ Lexed "2a+3".data ["2", "+", "3"]) :=
  ⟨⟨by decide, (tokenize_lexed "1." ["1"] (by decide)).1⟩,
    ⟨by decide, (tokenize_lexed ".5" ["5"] (by decide)).1⟩,
    ⟨by decide, (tokenize_lexed "2a+3" ["2", "+", "3"] (by decide)).1⟩⟩

/-! ### The tokenizer on the text of an expression -/

theorem isLiteral_chars (t : List Char) (h : IsLiteral t) :
    ∀ c ∈ t, isDigit c = true ∨ c = '.' := by
  obtain ⟨int, _, hint, ht⟩ := h
  rcases ht with rfl | ⟨frac, _, hfrac, rfl⟩
  · exact fun c hc => Or.inl (hint c hc)
  · intro c hc
    rcases List.mem_append.1 hc with hc | hc
    · exact Or.inl (hint c hc)
    · rcases List.mem_cons.1 hc with rfl | hc
      · exact Or.inr rfl
      · exact Or.inl (hfrac c hc)

theorem isOperatorChar_not_literal (c : Char) (h : isOperatorChar c = true) :
    ¬ (isDigit c = true ∨ c = '.') := by
  simp only [isOperatorChar, decide_eq_true_eq] at h
  rcases h with rfl | rfl | rfl | rfl | rfl | rfl <;> decide

/-- A decimal literal followed by the end of the text or by one of `+ - * / ( )` is
the match of the regular expression at its first character. -/
theorem matchPrefix_literal (t rest : List Char) (ht : IsLiteral t)
    (hrest : ∀ c ∈ rest.head?, isOperatorChar c = true) :
    matchPrefix (t ++ rest) = some (t, rest) := by
  obtain ⟨c, r, rfl, hc⟩ := isLiteral_head_digit t ht
  obtain ⟨token, rest', hm, hsplit, hlit, hlong⟩ := matchPrefix_digit c (r ++ rest) hc
  have hsplit' : token ++ rest' = (c :: r) ++ rest := hsplit
  have hle := hlong (c :: r) ht (List.prefix_append _ _)
  have e : token = c :: r ∧ rest' = rest := by
    rcases List.append_eq_append_iff.1 hsplit' with ⟨a, h1, h2⟩ | ⟨a, h1, h2⟩
    · have ha : a = [] := by
        have := congrArg List.length h1
        simp only [List.length_append] at this
        exact List.length_eq_zero.1 (by omega)
      subst ha
      simp only [List.append_nil] at h1
      simp only [List.nil_append] at h2
      exact ⟨h1.symm, h2⟩
    · cases a with
      | nil =>
        simp only [List.append_nil] at h1
        simp only [List.nil_append] at h2
        exact ⟨h1, h2.symm⟩
      | cons x a =>
        exfalso
        have hx : isOperatorChar x = true := hrest x (by rw [h2]; rfl)
        exact isOperatorChar_not_literal x hx
          (isLiteral_chars token hlit x (by rw [h1]; simp))
  show matchPrefix (c :: (r ++ rest)) = some (c :: r, rest)
  rw [hm, e.1, e.2]

theorem matchPrefix_length (s token rest : List Char) (h : matchPrefix s = some (token, rest)) :
    rest.length < s.length := by
  cases s with
  | nil => simp [matchPrefix] at h
  | cons c s =>
    cases hd : isDigit c with
    | true =>
      obtain ⟨token', rest', hm, hsplit, hlit, _⟩ := matchPrefix_digit c s hd
      rw [hm] at h
      obtain ⟨c', r', rfl, _⟩ := isLiteral_head_digit token' hlit
      cases h
      have := congrArg List.length hsplit
      simp only [List.length_append, List.length_cons] at this ⊢
      omega
    | false =>
      cases hc : isOperatorChar c with
      | true =>
        rw [matchPrefix_operator c s hd hc] at h
        cases h
        simp
      | false =>
        rw [matchPrefix_other c s hd hc] at h
        cases h

/-- The tokens found do not depend on the fuel, from the length of the text on. -/
theorem findAll_fuel (fuel : Nat) (s : List Char) (h : s.length ≤ fuel) :
    findAll fuel s = findAll s.length s := by
  induction fuel using Nat.strong_induction_on generalizing s with
  | _ fuel ih =>
    cases s with
    | nil =>
      cases fuel with
      | zero => rfl
      | succ fuel => simp [findAll, matchPrefix]
    | cons c s =>
      cases fuel with
      | zero => simp at h
      | succ fuel =>
        have hs : s.length ≤ fuel := by simpa using h
        simp only [findAll, List.length_cons]
        cases hm : matchPrefix (c :: s) with
        | none => exact ih fuel (Nat.lt_succ_self _) s hs
        | some p =>
          obtain ⟨token, rest⟩ := p
          have hl := matchPrefix_length _ _ _ hm
          simp only [List.length_cons] at hl
          have h1 : rest.length ≤ fuel := by omega
          have h2 : rest.length ≤ s.length := by omega
          simp only
          rw [ih fuel (Nat.lt_succ_self _) rest h1]
          by_cases hlt : s.length < fuel + 1
          · rw [ih s.length hlt rest h2]
          · have : s.length = fuel + 1 := by omega
            omega

/-- The tokens of a text that begins with a decimal literal, followed by the end
of the text or by one of `+ - * / ( )`. -/
theorem findAll_literal (t rest : List Char) (ht : IsLiteral t)
    (hrest : ∀ c ∈ rest.head?, isOperatorChar c = true) :
    findAll (t ++ rest).length (t ++ rest) = String.mk t :: findAll rest.length rest := by
  obtain ⟨c, r, rfl, _⟩ := isLiteral_head_digit t ht
  have hm := matchPrefix_literal (c :: r) rest ht hrest
  simp only [List.cons_append, List.length_cons, findAll] at hm ⊢
  rw [hm]
  simp only
  rw [findAll_fuel _ rest (by simp)]

/-- The tokens of a text that begins with one of `+ - * / ( )`. -/
theorem findAll_operator (c : Char) (rest : List Char) (hc : isOperatorChar c = true) :
    findAll (c :: rest).length (c :: rest) = String.mk [c] :: findAll rest.length rest := by
  have hd : isDigit c = false := by
    cases h : isDigit c with
    | false => rfl
    | true => rw [isDigit_not_operator c h] at hc; cases hc
  simp only [List.length_cons, findAll, matchPrefix_operator c rest hd hc]

theorem Op.token_data (op : Op) : ∃ c, op.token.data = [c] ∧ isOperatorChar c = true := by
  cases op
  · exact ⟨'+', rfl, by decide⟩
  · exact ⟨'-', rfl, by decide⟩
  · exact ⟨'*', rfl, by decide⟩
  · exact ⟨'/', rfl, by decide⟩

/-- The tokens of the text of an expression with decimal literals, followed by
the end of the text or by one of `+ - * / ( )`, are the tokens of the expression
and those of what follows. -/
theorem findAll_text (e : Expr) (hlit : ∀ t ∈ e.literals, IsLiteral t.data)
    (rest : List Char) (hrest : ∀ c ∈ rest.head?, isOperatorChar c = true) :
    findAll (e.text.data ++ rest).length (e.text.data ++ rest) =
      e.tokens ++ findAll rest.length rest := by
  induction e generalizing rest with
  | lit t =>
    have ht := hlit t (by simp [Expr.literals])
    simp only [Expr.text, Expr.tokens]
    rw [findAll_literal t.data rest ht hrest]
    rfl
  | paren e ih =>
    have h1 := ih hlit (')' :: rest) (by intro c hc; cases hc; decide)
    have h2 := findAll_operator ')' rest (by decide)
    have h3 := findAll_operator '(' (e.text.data ++ ')' :: rest) (by decide)
    have ht : (Expr.paren e).text.data ++ rest = '(' :: (e.text.data ++ ')' :: rest) := by
      simp [Expr.text, String.data_append]
    rw [ht, h3, h1, h2]
    simp [Expr.tokens]
  | bin op l r ihl ihr =>
    obtain ⟨c, hc, hop⟩ := op.token_data
    have hr := ihr (fun t ht => hlit t (by simp [Expr.literals, ht])) rest hrest
    have ho := findAll_operator c (r.text.data ++ rest) hop
    have hl := ihl (fun t ht => hlit t (by simp [Expr.literals, ht]))
      (c :: (r.text.data ++ rest)) (by intro x hx; cases hx; exact hop)
    have ht : (Expr.bin op l r).text.data ++ rest =
        l.text.data ++ c :: (r.text.data ++ rest) := by
      simp [Expr.text, String.data_append, hc]
    have hk : String.mk [c] = op.token := by
      rw [← hc]
    rw [ht, hl, ho, hr, hk]
    simp [Expr.tokens]

/-- The tokenizer returns the tokens of an expression on its text, when the
number tokens are decimal literals. -/
theorem tokenize_text (e : Expr) (hlit : ∀ t ∈ e.literals, IsLiteral t.data) :
    tokenize e.text = .ok e.tokens := by
  have h := findAll_text e hlit [] (by simp)
  simp only [List.append_nil, List.length_nil, findAll] at h
  have hne : e.tokens ≠ [] := by
    cases e <;> simp [Expr.tokens]
  have hl : e.text.length = e.text.data.length := rfl
  simp only [tokenize, hl, h, hne, if_false]

/-! ### The converter: its loops in closed form -/

theorem popToParen_eq (output stack : List String) :
    popToParen output stack =
      (output ++ stack.takeWhile (fun t => decide (t ≠ "(")),
        stack.dropWhile (fun t => decide (t ≠ "("))) := by
  induction stack generalizing output with
  | nil => simp [popToParen]
  | cons top stack ih =>
    by_cases h : top = "("
    · simp [popToParen, h, List.takeWhile, List.dropWhile]
    · simp [popToParen, h, List.takeWhile, List.dropWhile, ih]

theorem popOperators_eq (token : String) (output stack : List String) :
    popOperators token output stack =
      (output ++ stack.takeWhile (fun t => decide (precedence token ≤ precedence t)),
        stack.dropWhile (fun t => decide (precedence token ≤ precedence t))) := by
  induction stack generalizing output with
  | nil => simp [popOperators]
  | cons top stack ih =>
    by_cases h : precedence token ≤ precedence top
    · simp [popOperators, h, List.takeWhile, List.dropWhile, ih]
    · simp [popOperators, h, List.takeWhile, List.dropWhile]

theorem drain_eq (output stack : List String) :
    drain output stack =
      if "(" ∈ stack then .error .noClosingParen else .ok (output ++ stack) := by
  induction stack generalizing output with
  | nil => simp [drain]
  | cons top stack ih =>
    by_cases h : top = "("
    · simp [drain, h]
    · have h' : ¬ "(" = top := fun e => h e.symm
      simp only [drain, h, if_false, ih, List.mem_cons, h', false_or]
      split <;> simp

theorem convert_append (a b : List String) (state : List String × List String) :
    convert (a ++ b) state =
      match convert a state with
      | .ok state' => convert b state'
      | .error err => .error err := by
  induction a generalizing state with
  | nil => simp [convert]
  | cons token a ih =>
    simp only [List.cons_append, convert]
    cases convertToken token state with
    | ok state' => exact ih state'
    | error err => rfl

theorem precedence_pos (token : String) (h : 0 < precedence token) :
    token = "+" ∨ token = "-" ∨ token = "*" ∨ token = "/" := by
  unfold precedence at h
  by_cases h1 : token = "+"
  · exact Or.inl h1
  by_cases h2 : token = "-"
  · exact Or.inr (Or.inl h2)
  by_cases h3 : token = "*"
  · exact Or.inr (Or.inr (Or.inl h3))
  by_cases h4 : token = "/"
  · exact Or.inr (Or.inr (Or.inr h4))
  simp [h1, h2, h3, h4] at h

theorem precedence_pos_not_paren (token : String) (h : 0 < precedence token) :
    isParen token = false := by
  rcases precedence_pos token h with rfl | rfl | rfl | rfl <;> decide

theorem parseFloat_not_paren (token : String) (h : (parseFloat token).isSome = true) :
    isParen token = false := by
  by_cases h1 : token = "("
  · subst h1; revert h; decide
  by_cases h2 : token = ")"
  · subst h2; revert h; decide
  simp [isParen, h1, h2]

theorem isParen_false (token : String) (h : isParen token = false) :
    token ≠ "(" ∧ token ≠ ")" := by
  simpa [isParen] using h

/-- The step of the main loop on a number token. -/
theorem convertToken_number (token : String) (state : List String × List String)
    (h : (parseFloat token).isSome = true) :
    convertToken token state = .ok (state.1 ++ [token], state.2) := by
  simp [convertToken, h]

/-- The step of the main loop on `(`. -/
theorem convertToken_open (state : List String × List String) :
    convertToken "(" state = .ok (state.1, "(" :: state.2) := by
  have h : (parseFloat "(").isSome = false := by decide
  simp [convertToken, h]

/-- The step of the main loop on `)`. -/
theorem convertToken_close (state : List String × List String) :
    convertToken ")" state =
      match state.2.dropWhile (fun t => decide (t ≠ "(")) with
      | [] => .error .noOpeningParen
      | _ :: stack => .ok (state.1 ++ state.2.takeWhile (fun t => decide (t ≠ "(")), stack) := by
  have h : (parseFloat ")").isSome = false := by decide
  have h' : ¬ ")" = "(" := by decide
  simp only [convertToken, h, h', if_false, if_true, popToParen_eq, Bool.false_eq_true]
  cases hd : state.2.dropWhile (fun t => decide (t ≠ "(")) with
  | nil => rfl
  | cons top stack =>
    have := List.head_dropWhile_not (fun t => decide (t ≠ "(")) state.2
      (by rw [hd]; exact List.cons_ne_nil _ _)
    simp only [hd, List.head_cons, decide_eq_false_iff_not, not_not] at this
    simp [this]

/-- The step of the main loop on an operator. -/
theorem convertToken_operator (token : String) (state : List String × List String)
    (h : 0 < precedence token) :
    convertToken token state =
      .ok (state.1 ++ state.2.takeWhile (fun t => decide (precedence token ≤ precedence t)),
        token :: state.2.dropWhile (fun t => decide (precedence token ≤ precedence t))) := by
  have hp := isParen_false token (precedence_pos_not_paren token h)
  have hn : (parseFloat token).isSome = false := by
    rcases precedence_pos token h with rfl | rfl | rfl | rfl <;> decide
  simp [convertToken, hn, hp.1, hp.2, h, popOperators_eq]

/-- The part of a stack above its first `(`. -/
theorem stack_split_paren (stack : List String) (h : "(" ∈ stack) :
    ∃ above below, stack = above ++ "(" :: below ∧ (∀ x ∈ above, x ≠ "(") ∧
      stack.takeWhile (fun t => decide (t ≠ "(")) = above ∧
      stack.dropWhile (fun t => decide (t ≠ "(")) = "(" :: below := by
  induction stack with
  | nil => simp at h
  | cons top stack ih =>
    by_cases ht : top = "("
    · subst ht
      exact ⟨[], stack, rfl, by simp, by simp [List.takeWhile], by simp [List.dropWhile]⟩
    · have hm : "(" ∈ stack := by
        rcases List.mem_cons.1 h with e | hm
        · exact absurd e.symm ht
        · exact hm
      obtain ⟨above, below, hs, ha, htw, hdw⟩ := ih hm
      refine ⟨top :: above, below, by rw [hs]; rfl, ?_, ?_, ?_⟩
      · intro x hx
        rcases List.mem_cons.1 hx with rfl | hx
        · exact ht
        · exact ha x hx
      · rw [List.takeWhile_cons_of_pos (by simpa using ht), htw]
      · rw [List.dropWhile_cons_of_pos (by simpa using ht), hdw]

theorem dropWhile_paren_nil (stack : List String) (h : "(" ∉ stack) :
    stack.dropWhile (fun t => decide (t ≠ "(")) = [] := by
  rw [List.dropWhile_eq_nil_iff]
  intro x hx
  have : x ≠ "(" := fun e => h (e ▸ hx)
  simpa using this

/-- The step on `)` when the stack holds no `(`. -/
theorem convertToken_close_error (state : List String × List String) (h : "(" ∉ state.2) :
    convertToken ")" state = .error .noOpeningParen := by
  rw [convertToken_close, dropWhile_paren_nil _ h]

/-- The step on `)` when the stack holds a `(`. -/
theorem convertToken_close_ok (output above below : List String)
    (h : ∀ x ∈ above, x ≠ "(") :
    convertToken ")" (output, above ++ "(" :: below) = .ok (output ++ above, below) := by
  have hb : ∀ x ∈ above, (fun t => decide (t ≠ "(")) x = true := by
    intro x hx; simpa using h x hx
  rw [convertToken_close]
  simp only [List.dropWhile_append_of_pos hb, List.takeWhile_append_of_pos hb]
  simp [List.dropWhile, List.takeWhile]

/-- What the step of the main loop does to the tokens it holds: the new output and
stack together are the old ones and the token, parentheses apart. -/
theorem convertToken_perm (token : String) (state state' : List String × List String)
    (h : convertToken token state = .ok state') :
    ((state'.1 ++ state'.2).filter (fun t => !isParen t)).Perm
      ((state.1 ++ state.2 ++ [token]).filter (fun t => !isParen t)) := by
  obtain ⟨output, stack⟩ := state
  by_cases hn : (parseFloat token).isSome = true
  · rw [convertToken_number token _ hn] at h
    cases h
    apply List.Perm.filter
    simp only [List.append_assoc]
    exact List.Perm.append_left _ List.perm_append_comm
  by_cases ho : token = "("
  · subst ho
    rw [convertToken_open] at h
    cases h
    simp [List.filter_append, List.filter_cons, isParen]
  by_cases hc : token = ")"
  · subst hc
    by_cases hm : "(" ∈ stack
    · obtain ⟨above, below, hs, ha, _, _⟩ := stack_split_paren stack hm
      subst hs
      rw [convertToken_close_ok output above below ha] at h
      cases h
      simp [List.filter_append, List.filter_cons, isParen]
    · rw [convertToken_close_error _ hm] at h
      cases h
  by_cases hp : 0 < precedence token
  · rw [convertToken_operator token _ hp] at h
    cases h
    apply List.Perm.filter
    have hs := List.takeWhile_append_dropWhile
      (fun t => decide (precedence token ≤ precedence t)) stack
    conv_rhs => rw [← hs]
    simp only [List.append_assoc]
    apply List.Perm.append_left
    apply List.Perm.append_left
    exact (List.perm_append_singleton _ _).symm
  · simp [convertToken, hn, ho, hc, hp] at h

/-- The step of the main loop keeps parentheses out of the output, and `)` off the
stack. -/
theorem convertToken_clean (token : String) (state state' : List String × List String)
    (h : convertToken token state = .ok state')
    (hout : ∀ x ∈ state.1, isParen x = false) (hst : ∀ x ∈ state.2, x ≠ ")") :
    (∀ x ∈ state'.1, isParen x = false) ∧ (∀ x ∈ state'.2, x ≠ ")") := by
  obtain ⟨output, stack⟩ := state
  simp only at hout hst
  by_cases hn : (parseFloat token).isSome = true
  · rw [convertToken_number token _ hn] at h
    cases h
    refine ⟨?_, hst⟩
    intro x hx
    rcases List.mem_append.1 hx with hx | hx
    · exact hout x hx
    · rw [List.mem_singleton.1 hx]; exact parseFloat_not_paren token hn
  by_cases ho : token = "("
  · subst ho
    rw [convertToken_open] at h
    cases h
    refine ⟨hout, ?_⟩
    intro x hx
    rcases List.mem_cons.1 hx with rfl | hx
    · decide
    · exact hst x hx
  by_cases hc : token = ")"
  · subst hc
    by_cases hm : "(" ∈ stack
    · obtain ⟨above, below, hs, ha, _, _⟩ := stack_split_paren stack hm
      subst hs
      rw [convertToken_close_ok output above below ha] at h
      cases h
      refine ⟨?_, fun x hx => hst x (by simp [hx])⟩
      intro x hx
      rcases List.mem_append.1 hx with hx | hx
      · exact hout x hx
      · simp [isParen, ha x hx, hst x (by simp [hx])]
    · rw [convertToken_close_error _ hm] at h
      cases h
  by_cases hp : 0 < precedence token
  · rw [convertToken_operator token _ hp] at h
    cases h
    refine ⟨?_, ?_⟩
    · intro x hx
      rcases List.mem_append.1 hx with hx | hx
      · exact hout x hx
      · have := List.mem_takeWhile_imp hx
        simp only [decide_eq_true_eq] at this
        exact precedence_pos_not_paren x (Nat.lt_of_lt_of_le hp this)
    · intro x hx
      rcases List.mem_cons.1 hx with rfl | hx
      · exact (isParen_false _ (precedence_pos_not_paren _ hp)).2
      · exact hst x ((List.dropWhile_sublist _).subset hx)
  · simp [convertToken, hn, ho, hc, hp] at h

theorem convert_perm (tokens : List String) (state state' : List String × List String)
    (h : convert tokens state = .ok state') :
    ((state'.1 ++ state'.2).filter (fun t => !isParen t)).Perm
      ((state.1 ++ state.2 ++ tokens).filter (fun t => !isParen t)) := by
  induction tokens generalizing state with
  | nil =>
    simp only [convert, Except.ok.injEq] at h
    subst h
    simp
  | cons token tokens ih =>
    simp only [convert] at h
    cases hs : convertToken token state with
    | error err => rw [hs] at h; cases h
    | ok mid =>
      rw [hs] at h
      refine (ih mid h).trans ?_
      have := (convertToken_perm token state mid hs).append_right
        (tokens.filter (fun t => !isParen t))
      have e : token :: tokens = [token] ++ tokens := rfl
      rw [e]
      simp only [List.filter_append, List.append_assoc] at this ⊢
      exact this

theorem convert_clean (tokens : List String) (state state' : List String × List String)
    (h : convert tokens state = .ok state')
    (hout : ∀ x ∈ state.1, isParen x = false) (hst : ∀ x ∈ state.2, x ≠ ")") :
    (∀ x ∈ state'.1, isParen x = false) ∧ (∀ x ∈ state'.2, x ≠ ")") := by
  induction tokens generalizing state with
  | nil =>
    simp only [convert, Except.ok.injEq] at h
    subst h
    exact ⟨hout, hst⟩
  | cons token tokens ih =>
    simp only [convert] at h
    cases hs : convertToken token state with
    | error err => rw [hs] at h; cases h
    | ok mid =>
      rw [hs] at h
      obtain ⟨h1, h2⟩ := convertToken_clean token state mid hs hout hst
      exact ih mid h h1 h2

/-- The output of the converter has no parenthesis and is a permutation of the
tokens that are not parentheses. -/
theorem toPostfix_perm (tokens output : List String) (h : toPostfix tokens = .ok output) :
    (∀ x ∈ output, isParen x = false) ∧
      output.Perm (tokens.filter (fun t => !isParen t)) := by
  unfold toPostfix at h
  cases hc : convert tokens ([], []) with
  | error err => rw [hc] at h; cases h
  | ok state =>
    obtain ⟨out, stack⟩ := state
    rw [hc] at h
    simp only [drain_eq] at h
    by_cases hm : "(" ∈ stack
    · simp [hm] at h
    · simp only [hm, if_false, Except.ok.injEq] at h
      subst h
      obtain ⟨h1, h2⟩ := convert_clean tokens _ _ hc (by simp) (by simp)
      have hclean : ∀ x ∈ out ++ stack, isParen x = false := by
        intro x hx
        rcases List.mem_append.1 hx with hx | hx
        · exact h1 x hx
        · have hx1 : x ≠ "(" := fun e => hm (e ▸ hx)
          simp [isParen, hx1, h2 x hx]
      refine ⟨hclean, ?_⟩
      have hp := convert_perm tokens _ _ hc
      have hf : (out ++ stack).filter (fun t => !isParen t) = out ++ stack := by
        rw [List.filter_eq_self]
        intro x hx
        simp [hclean x hx]
      simp only [List.nil_append] at hp
      rw [hf] at hp
      exact hp

/-- C10: when `parseToRPN` succeeds, its output contains no parenthesis token and
is a permutation of the input token sequence without its `(` and `)` tokens; in
particular it has the same length. -/
theorem parseToRPN_perm (s : String) (output : List String)
    (h : parseToRPN s = .ok output) :
    ∃ tokens, tokenize s = .ok tokens ∧ "(" ∉ output ∧ ")" ∉ output ∧
      output.Perm (tokens.filter (fun t => !isParen t)) ∧
      output.length = (tokens.filter (fun t => !isParen t)).length := by
  unfold parseToRPN at h
  cases ht : tokenize s with
  | error err => rw [ht] at h; cases h
  | ok tokens =>
    rw [ht] at h
    obtain ⟨hclean, hperm⟩ := toPostfix_perm tokens output h
    refine ⟨tokens, rfl, ?_, ?_, hperm, hperm.length_eq⟩
    · intro hx
      have := hclean _ hx
      revert this; decide
    · intro hx
      have := hclean _ hx
      revert this; decide

/-- C10, at the text `(2+3)*4`. -/
theorem parseToRPN_perm_witness :
    ∃ tokens, tokenize "(2+3)*4" = .ok tokens ∧ "(" ∉ ["2", "3", "+", "4", "*"] ∧
      ")" ∉ ["2", "3", "+", "4", "*"] ∧
      ["2", "3", "+", "4", "*"].Perm (tokens.filter (fun t => !isParen t)) ∧
      ["2", "3", "+", "4", "*"].length = (tokens.filter (fun t => !isParen t)).length :=
  parseToRPN_perm "(2+3)*4" ["2", "3", "+", "4", "*"] (by decide)

/-! ### The converter: parentheses -/

theorem opening_cons (t : String) (ts : List String) :
    opening (t :: ts) = opening ts + if t = "(" then 1 else 0 := by
  by_cases h : t = "(" <;> simp [opening, List.count_cons, h]

theorem closing_cons (t : String) (ts : List String) :
    closing (t :: ts) = closing ts + if t = ")" then 1 else 0 := by
  by_cases h : t = ")" <;> simp [closing, List.count_cons, h]

theorem opening_append (a b : List String) : opening (a ++ b) = opening a + opening b := by
  simp [opening]

theorem opening_eq_zero (a : List String) (h : ∀ x ∈ a, x ≠ "(") : opening a = 0 := by
  simp only [opening, List.count_eq_zero]
  exact fun hm => h _ hm rfl

theorem opening_pos_iff (a : List String) : 0 < opening a ↔ "(" ∈ a := by
  simp [opening, List.count_pos_iff]

/-- Some prefix has more `)` than `(` and `d` together: the first token apart. -/
theorem excess_cons (t : String) (ts : List String) (d : Nat) :
    (∃ n, opening ((t :: ts).take n) + d < closing ((t :: ts).take n)) ↔
      ∃ n, opening (ts.take n) + (if t = "(" then 1 else 0) + d <
        closing (ts.take n) + (if t = ")" then 1 else 0) := by
  constructor
  · rintro ⟨n, hn⟩
    cases n with
    | zero => simp [opening, closing] at hn
    | succ n =>
      rw [List.take_succ_cons, opening_cons, closing_cons] at hn
      exact ⟨n, hn⟩
  · rintro ⟨n, hn⟩
    refine ⟨n + 1, ?_⟩
    rw [List.take_succ_cons, opening_cons, closing_cons]
    exact hn

/-- The main loop of `parseToRPN` and the parentheses: it fails for a `)` without
`(` exactly when some prefix has more `)` than there are `(` in it and on the
stack, and otherwise ends with the unclosed `(` on the stack; the tokens are
those the loop can classify. -/
theorem convert_paren (tokens : List String)
    (hcls : ∀ t ∈ tokens, (parseFloat t).isSome = true ∨ t = "(" ∨ t = ")" ∨ 0 < precedence t)
    (state : List String × List String) :
    ((∃ n, opening (tokens.take n) + opening state.2 < closing (tokens.take n)) →
      convert tokens state = .error .noOpeningParen) ∧
    ((¬ ∃ n, opening (tokens.take n) + opening state.2 < closing (tokens.take n)) →
      ∃ state', convert tokens state = .ok state' ∧
        opening state'.2 + closing tokens = opening state.2 + opening tokens) := by
  induction tokens generalizing state with
  | nil =>
    refine ⟨?_, fun _ => ⟨state, rfl, rfl⟩⟩
    rintro ⟨n, hn⟩
    simp [opening, closing] at hn
  | cons t ts ih =>
    obtain ⟨output, stack⟩ := state
    have hcls' : ∀ t ∈ ts, (parseFloat t).isSome = true ∨ t = "(" ∨ t = ")" ∨
        0 < precedence t := fun x hx => hcls x (List.mem_cons_of_mem _ hx)
    -- the step on `t`, and what it does to the number of `(` on the stack
    have step : (¬ (t = ")" ∧ opening stack = 0) → ∃ mid, convertToken t (output, stack) = .ok mid ∧
          opening mid.2 + (if t = ")" then 1 else 0) =
            opening stack + (if t = "(" then 1 else 0)) ∧
        (t = ")" ∧ opening stack = 0 → convertToken t (output, stack) = .error .noOpeningParen) := by
      rcases hcls t (List.mem_cons_self _ _) with hn | rfl | rfl | hp
      · have hp := isParen_false t (parseFloat_not_paren t hn)
        refine ⟨fun _ => ⟨_, convertToken_number t _ hn, by simp [hp.1, hp.2]⟩, ?_⟩
        exact fun h => absurd h.1 hp.2
      · refine ⟨fun _ => ⟨_, convertToken_open _, ?_⟩, fun h => absurd h.1 (by decide)⟩
        simp [opening_cons]
      · by_cases hm : "(" ∈ stack
        · obtain ⟨above, below, hs, ha, _, _⟩ := stack_split_paren stack hm
          subst hs
          refine ⟨fun _ => ⟨_, convertToken_close_ok output above below ha, ?_⟩, ?_⟩
          · simp [opening_append, opening_cons, opening_eq_zero above ha]
          · intro h
            have := (opening_pos_iff _).2 hm
            omega
        · refine ⟨fun h => absurd ⟨rfl, ?_⟩ h, fun _ => convertToken_close_error _ hm⟩
          have := (opening_pos_iff stack).not.2 hm
          omega
      · have hpar := isParen_false t (precedence_pos_not_paren t hp)
        refine ⟨fun _ => ⟨_, convertToken_operator t _ hp, ?_⟩, fun h => absurd h.1 hpar.2⟩
        have hs := List.takeWhile_append_dropWhile
          (fun x => decide (precedence t ≤ precedence x)) stack
        have hz : opening (stack.takeWhile (fun x => decide (precedence t ≤ precedence x))) = 0 := by
          apply opening_eq_zero
          intro x hx
          have := List.mem_takeWhile_imp hx
          simp only [decide_eq_true_eq] at this
          exact (isParen_false x (precedence_pos_not_paren x (Nat.lt_of_lt_of_le hp this))).1
        have ho : opening stack =
            opening (stack.dropWhile (fun x => decide (precedence t ≤ precedence x))) := by
          conv_lhs => rw [← hs]
          rw [opening_append, hz, Nat.zero_add]
        simp [opening_cons, hpar.1, hpar.2, ho]
    rw [excess_cons]
    by_cases hbad : t = ")" ∧ opening stack = 0
    · have herr := step.2 hbad
      obtain ⟨rfl, h2⟩ := hbad
      refine ⟨fun _ => by simp only [convert, herr], fun hno => absurd ⟨0, ?_⟩ hno⟩
      have h1 : ¬ ")" = "(" := by decide
      simp only [List.take_zero, h1, if_true, if_false]
      simp only [opening, closing, List.count_nil] at h2 ⊢
      omega
    · obtain ⟨mid, hmid, hcount⟩ := step.1 hbad
      have hih := ih hcls' mid
      have hiff : (∃ n, opening (ts.take n) + (if t = "(" then 1 else 0) + opening stack <
            closing (ts.take n) + (if t = ")" then 1 else 0)) ↔
          ∃ n, opening (ts.take n) + opening mid.2 < closing (ts.take n) := by
        constructor <;> rintro ⟨n, hn⟩ <;> exact ⟨n, by omega⟩
      rw [hiff]
      refine ⟨fun hex => ?_, fun hno => ?_⟩
      · simp only [convert, hmid]
        exact hih.1 hex
      · obtain ⟨fin, hfin, hc⟩ := hih.2 hno
        refine ⟨fin, by simp only [convert, hmid]; exact hfin, ?_⟩
        rw [opening_cons, closing_cons]
        simp only at hcount ⊢
        omega

/-- The converter and the parentheses, for tokens that the main loop can
classify. -/
theorem toPostfix_paren (tokens : List String)
    (hcls : ∀ t ∈ tokens, (parseFloat t).isSome = true ∨ t = "(" ∨ t = ")" ∨ 0 < precedence t) :
    (toPostfix tokens = .error .noOpeningParen ↔
      ∃ n, opening (tokens.take n) < closing (tokens.take n)) ∧
    (toPostfix tokens = .error .noClosingParen ↔
      (¬ ∃ n, opening (tokens.take n) < closing (tokens.take n)) ∧
        closing tokens < opening tokens) ∧
    ((∃ output, toPostfix tokens = .ok output) ↔
      (¬ ∃ n, opening (tokens.take n) < closing (tokens.take n)) ∧
        opening tokens = closing tokens) := by
  have key := convert_paren tokens hcls ([], [])
  simp only [opening, List.count_nil, Nat.add_zero] at key
  simp only [opening]
  by_cases hex : ∃ n, List.count "(" (tokens.take n) < closing (tokens.take n)
  · have herr := key.1 hex
    simp [toPostfix, herr, hex]
  · obtain ⟨state, hst, hcount⟩ := key.2 hex
    obtain ⟨output, stack⟩ := state
    have hle : closing tokens ≤ List.count "(" tokens := by
      have := fun h => hex ⟨tokens.length, h⟩
      simp only [List.take_length] at this
      omega
    simp only [Nat.zero_add] at hcount
    have hpos := opening_pos_iff stack
    simp only [opening] at hpos
    by_cases hm : "(" ∈ stack
    · have := hpos.2 hm
      have h1 : closing tokens < List.count "(" tokens := by omega
      have h2 : List.count "(" tokens ≠ closing tokens := by omega
      simp [toPostfix, hst, drain_eq, hm, hex, h1, h2]
    · have := hpos.not.2 hm
      have h1 : ¬ closing tokens < List.count "(" tokens := by omega
      have h2 : List.count "(" tokens = closing tokens := by omega
      simp [toPostfix, hst, drain_eq, hm, hex, h1, h2]

/-- The tokens of `tokenize` can all be classified by the main loop of
`parseToRPN` when `ParseFloat` accepts the literals among them. -/
theorem tokenize_classified (s : String) (tokens : List String)
    (h : tokenize s = .ok tokens)
    (hnum : ∀ t ∈ tokens, IsLiteral t.data → (parseFloat t).isSome = true) :
    ∀ t ∈ tokens, (parseFloat t).isSome = true ∨ t = "(" ∨ t = ")" ∨ 0 < precedence t := by
  intro t ht
  rcases lexed_token _ _ (tokenize_ok_lexed s tokens h) t ht with hop | hlit
  · simp only [List.mem_cons, List.mem_singleton, List.not_mem_nil, or_false] at hop
    rcases hop with rfl | rfl | rfl | rfl | rfl | rfl
    · exact Or.inr (Or.inr (Or.inr (by decide)))
    · exact Or.inr (Or.inr (Or.inr (by decide)))
    · exact Or.inr (Or.inr (Or.inr (by decide)))
    · exact Or.inr (Or.inr (Or.inr (by decide)))
    · exact Or.inr (Or.inl rfl)
    · exact Or.inr (Or.inr (Or.inl rfl))
  · exact Or.inl (hnum t ht hlit)

/-- A text that begins with no digit is no decimal literal. -/
theorem not_isLiteral (c : Char) (r : List Char) (h : isDigit c = false) :
    ¬ IsLiteral (c :: r) := by
  intro hl
  obtain ⟨c', r', e, hc⟩ := isLiteral_head_digit _ hl
  cases e
  rw [h] at hc
  cases hc

set_option maxRecDepth 100000 in
set_option exponentiation.threshold 2000 in
/-- C3, as stated, fails: the tokens of `2000...0)`, a number of 309 digits and
`)`, have a prefix with more `)` than `(`, and `parseToRPN` fails with the
unknown-token error for the number, which `ParseFloat` rejects as out of range,
not with an unmatched-parenthesis error. -/
theorem parseToRPN_unmatched_counterexample :
    tokenize (tooLarge ++ ")") = .ok [tooLarge, ")"] ∧
    (∃ n, opening ([tooLarge, ")"].take n) < closing ([tooLarge, ")"].take n)) ∧
    parseToRPN (tooLarge ++ ")") = .error (.invalidToken tooLarge) := by
  refine ⟨by decide, ⟨2, by decide⟩, by decide⟩

/-- C3, amended: for every input text that yields at least one token and whose
number tokens `ParseFloat` all accepts, `parseToRPN` fails with the 'no matching
opening parenthesis' error exactly when some prefix of the tokens contains more
`)` than `(`, and otherwise with the 'no matching closing parenthesis' error
exactly when the whole sequence contains more `(` than `)`; it succeeds exactly
when neither is the case. -/
theorem parseToRPN_unmatched (s : String) (tokens : List String)
    (h : tokenize s = .ok tokens)
    (hnum : ∀ t ∈ tokens, IsLiteral t.data → (parseFloat t).isSome = true) :
    (parseToRPN s = .error .noOpeningParen ↔
      ∃ n, opening (tokens.take n) < closing (tokens.take n)) ∧
    (parseToRPN s = .error .noClosingParen ↔
      (¬ ∃ n, opening (tokens.take n) < closing (tokens.take n)) ∧
        closing tokens < opening tokens) ∧
    ((∃ output, parseToRPN s = .ok output) ↔
      (¬ ∃ n, opening (tokens.take n) < closing (tokens.take n)) ∧
        opening tokens = closing tokens) := by
  have e : parseToRPN s = toPostfix tokens := by simp only [parseToRPN, h]
  rw [e]
  exact toPostfix_paren tokens (tokenize_classified s tokens h hnum)

/-- C3, amended, at the texts `2+3)` and `(2+3`. -/
theorem parseToRPN_unmatched_witness :
    parseToRPN "2+3)" = .error .noOpeningParen ∧
      parseToRPN "(2+3" = .error .noClosingParen := by
  refine ⟨(parseToRPN_unmatched "2+3)" ["2", "+", "3", ")"] (by decide) ?_).1.2
      ⟨4, by decide⟩,
    (parseToRPN_unmatched "(2+3" ["(", "2", "+", "3"] (by decide) ?_).2.1.2
      ⟨?_, by decide⟩⟩
  · intro t ht hl
    simp only [List.mem_cons, List.mem_singleton, List.not_mem_nil, or_false] at ht
    rcases ht with rfl | rfl | rfl | rfl
    · decide
    · exact absurd hl (not_isLiteral _ _ (by decide))
    · decide
    · exact absurd hl (not_isLiteral _ _ (by decide))
  · intro t ht hl
    simp only [List.mem_cons, List.mem_singleton, List.not_mem_nil, or_false] at ht
    rcases ht with rfl | rfl | rfl | rfl
    · exact absurd hl (not_isLiteral _ _ (by decide))
    · decide
    · exact absurd hl (not_isLiteral _ _ (by decide))
    · decide
  · rintro ⟨n, hn⟩
    have h4 : ∀ k, k ≤ 4 →
        ¬ opening (["(", "2", "+", "3"].take k) < closing (["(", "2", "+", "3"].take k) := by
      decide
    by_cases hk : n ≤ 4
    · exact h4 n hk hn
    · rw [List.take_of_length_le (by simp; omega)] at hn
      revert hn; decide

/-! ### The converter and the evaluator on well-formed expressions -/

theorem Op.precedence_token (op : Op) : precedence op.token = op.prec := by
  cases op <;> rfl

theorem Op.prec_pos (op : Op) : 0 < op.prec := by
  cases op <;> decide

theorem Op.parseFloat_token (op : Op) : parseFloat op.token = none := by
  cases op <;> decide

theorem Expr.level_pos (e : Expr) : 0 < e.level := by
  cases e with
  | lit _ => simp [Expr.level]
  | bin op _ _ => exact op.prec_pos
  | paren _ => simp [Expr.level]

/-- A loop that pops while a test holds takes exactly the part of the stack on
which it holds, when the test fails on the token below. -/
theorem takeWhile_dropWhile_append (f : String → Bool) (above below : List String)
    (ha : ∀ x ∈ above, f x = true) (hb : ∀ top ∈ below.head?, f top = false) :
    (above ++ below).takeWhile f = above ∧ (above ++ below).dropWhile f = below := by
  rw [List.takeWhile_append_of_pos ha, List.dropWhile_append_of_pos ha]
  cases below with
  | nil => simp
  | cons top below =>
    have := hb top (by simp)
    simp [List.takeWhile, List.dropWhile, this]

/-- The main loop of `parseToRPN` on the tokens of a well-formed expression, from
a stack whose top binds less tightly than the expression: the output grows by a
first part of the post-order traversal, and the rest of it, operators that bind
at least as tightly as the expression, is left on top of the stack. -/
theorem convert_expr (e : Expr) (hwf : e.wellFormed = true)
    (hlit : ∀ t ∈ e.literals, (parseFloat t).isSome = true)
    (p : Nat) (hp : p ≤ e.level) (output stack : List String)
    (hst : ∀ top ∈ stack.head?, precedence top < p) :
    ∃ moved pending, moved ++ pending = e.rpn ∧
      (∀ t ∈ pending, e.level ≤ precedence t) ∧
      convert e.tokens (output, stack) = .ok (output ++ moved, pending ++ stack) := by
  induction e generalizing p output stack with
  | lit t =>
    refine ⟨[t], [], rfl, by simp, ?_⟩
    have ht := hlit t (by simp [Expr.literals])
    simp [Expr.tokens, convert, convertToken_number t _ ht]
  | paren e ih =>
    have hopen : ∀ top ∈ ("(" :: stack).head?, precedence top < 1 := by
      intro top htop
      simp only [List.head?_cons, Option.mem_def, Option.some.injEq] at htop
      subst htop
      decide
    obtain ⟨moved, pending, hsplit, hpend, hconv⟩ :=
      ih hwf hlit 1 e.level_pos output ("(" :: stack) hopen
    refine ⟨moved ++ pending, [], by simpa [Expr.rpn] using hsplit, by simp, ?_⟩
    have hne : ∀ x ∈ pending, x ≠ "(" := by
      intro x hx hx'
      have := hpend x hx
      rw [hx'] at this
      have h0 : precedence "(" = 0 := rfl
      have := e.level_pos
      omega
    have htok : (Expr.paren e).tokens = "(" :: (e.tokens ++ [")"]) := rfl
    rw [htok]
    simp only [convert, convertToken_open, convert_append, hconv,
      convertToken_close_ok _ _ _ hne, List.append_assoc, List.nil_append]
  | bin op l r ihl ihr =>
    simp only [Expr.wellFormed, Bool.and_eq_true, decide_eq_true_eq] at hwf
    obtain ⟨⟨⟨hwl, hwr⟩, hll⟩, hlr⟩ := hwf
    have hlitl : ∀ t ∈ l.literals, (parseFloat t).isSome = true :=
      fun t ht => hlit t (by simp [Expr.literals, ht])
    have hlitr : ∀ t ∈ r.literals, (parseFloat t).isSome = true :=
      fun t ht => hlit t (by simp [Expr.literals, ht])
    have hp' : p ≤ op.prec := hp
    -- the left operand
    obtain ⟨moved₁, pending₁, hsplit₁, hpend₁, hconv₁⟩ :=
      ihl hwl hlitl op.prec hll output stack
        (fun top htop => Nat.lt_of_lt_of_le (hst top htop) hp')
    -- the operator pops what the left operand has left, and no more
    have hpop := takeWhile_dropWhile_append
      (fun x => decide (precedence op.token ≤ precedence x)) pending₁ stack
      (by
        intro x hx
        have := hpend₁ x hx
        simp only [decide_eq_true_eq, op.precedence_token]
        omega)
      (by
        intro top htop
        have := hst top htop
        simp only [decide_eq_false_iff_not, op.precedence_token]
        omega)
    have hstep := convertToken_operator op.token (output ++ moved₁, pending₁ ++ stack)
      (by rw [op.precedence_token]; exact op.prec_pos)
    simp only [hpop.1, hpop.2] at hstep
    -- the right operand
    obtain ⟨moved₂, pending₂, hsplit₂, hpend₂, hconv₂⟩ :=
      ihr hwr hlitr (op.prec + 1) hlr (output ++ moved₁ ++ pending₁) (op.token :: stack)
        (by
          intro top htop
          simp only [List.head?_cons, Option.mem_def, Option.some.injEq] at htop
          subst htop
          rw [op.precedence_token]
          omega)
    refine ⟨moved₁ ++ pending₁ ++ moved₂, pending₂ ++ [op.token], ?_, ?_, ?_⟩
    · simp only [Expr.rpn, ← hsplit₁, ← hsplit₂, List.append_assoc]
    · intro t ht
      rcases List.mem_append.1 ht with ht | ht
      · have := hpend₂ t ht
        simp only [Expr.level]
        omega
      · rw [List.mem_singleton.1 ht, op.precedence_token]
        exact Nat.le_refl _
    · have htok : (Expr.bin op l r).tokens = l.tokens ++ (op.token :: r.tokens) := rfl
      rw [htok, convert_append, hconv₁]
      simp only [convert, hstep]
      rw [hconv₂]
      simp only [List.append_assoc, List.singleton_append]

/-- On the tokens of a well-formed expression whose number tokens `ParseFloat`
accepts, the converter returns the post-order traversal. -/
theorem toPostfix_expr (e : Expr) (hwf : e.wellFormed = true)
    (hlit : ∀ t ∈ e.literals, (parseFloat t).isSome = true) :
    toPostfix e.tokens = .ok e.rpn := by
  obtain ⟨moved, pending, hsplit, hpend, hconv⟩ :=
    convert_expr e hwf hlit 0 (Nat.zero_le _) [] [] (by simp)
  have hne : "(" ∉ pending := by
    intro hx
    have := hpend _ hx
    have h0 : precedence "(" = 0 := rfl
    have := e.level_pos
    omega
  simp only [toPostfix, hconv, List.nil_append, List.append_nil, drain_eq, hne, if_false, hsplit]

/-- The loop of `evaluateRPN` on the post-order traversal of an expression whose
number tokens `ParseFloat` accepts: it pushes the value of the expression, or
fails at the first division by zero. -/
theorem evalLoop_expr (e : Expr) (hlit : ∀ t ∈ e.literals, (parseFloat t).isSome = true)
    (i : Nat) (stack : List Float64) :
    evalLoop e.rpn i stack =
      match e.value with
      | some v => .ok (v :: stack)
      | none => .error (.operation "/" .divisionByZero) := by
  induction e generalizing i stack with
  | lit t =>
    have ht := hlit t (by simp [Expr.literals])
    obtain ⟨v, hv⟩ := Option.isSome_iff_exists.1 ht
    simp [Expr.rpn, Expr.value, evalLoop, hv]
  | paren e ih => simpa [Expr.rpn, Expr.value] using ih hlit i stack
  | bin op l r ihl ihr =>
    have hlitl : ∀ t ∈ l.literals, (parseFloat t).isSome = true :=
      fun t ht => hlit t (by simp [Expr.literals, ht])
    have hlitr : ∀ t ∈ r.literals, (parseFloat t).isSome = true :=
      fun t ht => hlit t (by simp [Expr.literals, ht])
    simp only [Expr.rpn, Expr.value, List.append_assoc, evalLoop_append, ihl hlitl]
    cases hl : l.value with
    | none => rfl
    | some x =>
      simp only [ihr hlitr]
      cases hr : r.value with
      | none => rfl
      | some y =>
        simp only [List.singleton_append, evalLoop, op.parseFloat_token, calcFunc_token]
        by_cases hz : op = Op.div ∧ y.isZero = true
        · obtain ⟨rfl, hy⟩ := hz
          simp [hy, Op.token]
        · simp only [hz, if_false]

theorem evaluateRPN_expr (e : Expr) (hlit : ∀ t ∈ e.literals, (parseFloat t).isSome = true) :
    evaluateRPN e.rpn =
      match e.value with
      | some v => .ok v
      | none => .error (.operation "/" .divisionByZero) := by
  simp only [evaluateRPN, evalLoop_expr e hlit]
  cases e.value <;> rfl

/-- An expression with a value has number tokens that `ParseFloat` accepts. -/
theorem Expr.literals_of_value (e : Expr) (v : Float64) (h : e.value = some v) :
    ∀ t ∈ e.literals, (parseFloat t).isSome = true := by
  induction e generalizing v with
  | lit t =>
    intro t' ht'
    simp only [Expr.literals, List.mem_singleton] at ht'
    subst ht'
    simp only [Expr.value] at h
    simp [h]
  | paren e ih => exact ih v h
  | bin op l r ihl ihr =>
    simp only [Expr.value] at h
    cases hl : l.value with
    | none => simp [hl] at h
    | some x =>
      cases hr : r.value with
      | none => simp [hl, hr] at h
      | some y =>
        intro t ht
        simp only [Expr.literals, List.mem_append] at ht
        rcases ht with ht | ht
        · exact ihl x hl t ht
        · exact ihr y hr t ht

/-- An expression with a division by zero has no value. -/
theorem Expr.value_of_dividesByZero (e : Expr) (h : e.dividesByZero = true) :
    e.value = none := by
  induction e with
  | lit t => simp [Expr.dividesByZero] at h
  | paren e ih => exact ih h
  | bin op l r ihl ihr =>
    simp only [Expr.dividesByZero, Bool.or_eq_true, Bool.and_eq_true, decide_eq_true_eq] at h
    simp only [Expr.value]
    rcases h with (h | h) | ⟨hop, hz⟩
    · rw [ihl h]
    · rw [ihr h]
      cases l.value <;> rfl
    · cases hr : r.value with
      | none => cases l.value <;> rfl
      | some y =>
        rw [hr] at hz
        cases l.value with
        | none => rfl
        | some x =>
          have hz' : y.isZero = true := hz
          simp [hop, hz']

/-- The pipeline on a text whose tokens are those of a well-formed expression with
number tokens that `ParseFloat` accepts. -/
theorem evaluate_tokens (s : String) (e : Expr) (hs : tokenize s = .ok e.tokens)
    (hwf : e.wellFormed = true) (hlit : ∀ t ∈ e.literals, (parseFloat t).isSome = true) :
    parseToRPN s = .ok e.rpn ∧
      evaluate s = match e.value with
        | some v => .ok v
        | none => .error (.operation "/" .divisionByZero) := by
  have h : parseToRPN s = .ok e.rpn := by
    simp only [parseToRPN, hs, toPostfix_expr e hwf hlit]
  exact ⟨h, by simp only [evaluate, h, evaluateRPN_expr e hlit]⟩

/-- An expression has a value when `ParseFloat` accepts its number tokens and no
division in it has a right operand equal to zero. -/
theorem Expr.value_isSome (e : Expr) (hlit : ∀ t ∈ e.literals, (parseFloat t).isSome = true)
    (hdiv : e.dividesByZero = false) : ∃ v, e.value = some v := by
  induction e with
  | lit t => exact Option.isSome_iff_exists.1 (hlit t (by simp [Expr.literals]))
  | paren e ih => exact ih hlit hdiv
  | bin op l r ihl ihr =>
    simp only [Expr.dividesByZero, Bool.or_eq_false_iff, Bool.and_eq_false_iff] at hdiv
    obtain ⟨⟨hdl, hdr⟩, hz⟩ := hdiv
    obtain ⟨x, hx⟩ := ihl (fun t ht => hlit t (by simp [Expr.literals, ht])) hdl
    obtain ⟨y, hy⟩ := ihr (fun t ht => hlit t (by simp [Expr.literals, ht])) hdr
    simp only [hy, decide_eq_false_iff_not] at hz
    have hno : ¬ (op = Op.div ∧ y.isZero = true) := by
      rintro ⟨h1, h2⟩
      rcases hz with hz | hz
      · exact hz h1
      · rw [h2] at hz; cases hz
    exact ⟨op.apply x y, by simp only [Expr.value, hx, hy, hno, if_false]⟩

/-- A non-empty text of digits is a decimal literal. -/
theorem isLiteral_digits (t : List Char) (hne : t ≠ []) (h : ∀ c ∈ t, isDigit c = true) :
    IsLiteral t :=
  ⟨t, hne, h, Or.inl rfl⟩

set_option maxRecDepth 100000 in
theorem tooLarge_isLiteral : IsLiteral tooLarge.data :=
  isLiteral_digits _ (by decide) (by decide)

set_option maxRecDepth 100000 in
set_option exponentiation.threshold 2000 in
/-- C1, as stated, fails: the text `2000...0` of 309 digits is a well-formed
expression, one non-negative decimal literal and no division, and `parseToRPN`
fails on it with the unknown-token error, because `ParseFloat` rejects the
literal as out of range. -/
theorem evaluate_expr_counterexample :
    IsLiteral tooLarge.data ∧ (Expr.lit tooLarge).wellFormed = true ∧
    (Expr.lit tooLarge).dividesByZero = false ∧
    (Expr.lit tooLarge).text = tooLarge ∧
    parseToRPN tooLarge = .error (.invalidToken tooLarge) :=
  ⟨tooLarge_isLiteral, rfl, rfl, rfl, by decide⟩

/-- C1, amended: for every well-formed infix expression built from decimal
literals that `ParseFloat` accepts, the binary operators `+ - * /` and balanced
parentheses, in which no division has a right operand whose value is zero,
`parseToRPN` succeeds on the text of the expression (and on every text with the
same tokens), with the post-order traversal of the expression, and `evaluateRPN`
on this output returns the value of the expression in `float64` arithmetic under
the standard precedences. -/
theorem evaluate_expr (e : Expr) (hwf : e.wellFormed = true)
    (hdec : ∀ t ∈ e.literals, IsLiteral t.data)
    (hlit : ∀ t ∈ e.literals, (parseFloat t).isSome = true)
    (hdiv : e.dividesByZero = false) :
    ∃ v, e.value = some v ∧ parseToRPN e.text = .ok e.rpn ∧ evaluateRPN e.rpn = .ok v ∧
      ∀ s, tokenize s = .ok e.tokens → parseToRPN s = .ok e.rpn := by
  obtain ⟨v, hv⟩ := e.value_isSome hlit hdiv
  refine ⟨v, hv, (evaluate_tokens e.text e (tokenize_text e hdec) hwf hlit).1, ?_,
    fun s hs => (evaluate_tokens s e hs hwf hlit).1⟩
  rw [evaluateRPN_expr e hlit, hv]

/-- C1, amended, at `2+3*4`, which gives 14, and at `(2+3)*4`, which gives 20. -/
theorem evaluate_expr_witness :
    (parseToRPN "2+3*4" = .ok ["2", "3", "4", "*", "+"] ∧
      evaluateRPN ["2", "3", "4", "*", "+"] = .ok 14) ∧
    (parseToRPN "(2+3)*4" = .ok ["2", "3", "+", "4", "*"] ∧
      evaluateRPN ["2", "3", "+", "4", "*"] = .ok 20) := by
  constructor
  · obtain ⟨v, hv, hp, he, _⟩ := evaluate_expr
      (.bin .add (.lit "2") (.bin .mul (.lit "3") (.lit "4"))) (by decide)
      (by
        intro t ht
        simp only [Expr.literals, List.mem_append, List.mem_singleton] at ht
        rcases ht with rfl | rfl | rfl <;> exact isLiteral_digits _ (by decide) (by decide))
      (by decide) (by decide)
    have h14 : (Expr.bin .add (.lit "2") (.bin .mul (.lit "3") (.lit "4"))).value = some 14 := by
      decide
    rw [h14] at hv
    cases hv
    exact ⟨hp, he⟩
  · obtain ⟨v, hv, hp, he, _⟩ := evaluate_expr
      (.bin .mul (.paren (.bin .add (.lit "2") (.lit "3"))) (.lit "4")) (by decide)
      (by
        intro t ht
        simp only [Expr.literals, List.mem_append, List.mem_singleton] at ht
        rcases ht with (rfl | rfl) | rfl <;> exact isLiteral_digits _ (by decide) (by decide))
      (by decide) (by decide)
    have h20 : (Expr.bin .mul (.paren (.bin .add (.lit "2") (.lit "3"))) (.lit "4")).value =
        some 20 := by
      decide
    rw [h20] at hv
    cases hv
    exact ⟨hp, he⟩

set_option maxRecDepth 100000 in
set_option exponentiation.threshold 2000 in
/-- C2, as stated, fails: for the literals `a = 2000...0` of 309 digits, `b = 3` and
`c = 2`, the text `a-b-c` does not evaluate to a number: the pipeline fails with
the unknown-token error for `a`, which `ParseFloat` rejects as out of range. -/
theorem evaluate_left_assoc_counterexample :
    IsLiteral tooLarge.data ∧ IsLiteral "3".data ∧ IsLiteral "2".data ∧
    tokenize (tooLarge ++ "-3-2") = .ok [tooLarge, "-", "3", "-", "2"] ∧
    evaluate (tooLarge ++ "-3-2") = .error (.invalidToken tooLarge) :=
  ⟨tooLarge_isLiteral, isLiteral_digits _ (by decide) (by decide),
    isLiteral_digits _ (by decide) (by decide), by decide, by decide⟩

/-- C2, amended: operators of equal precedence are evaluated left to right: for
all decimal literals `a`, `b`, `c` that `ParseFloat` accepts, with values `x`,
`y`, `z`, and operators `o₁`, `o₂` of equal precedence, the text `a o₁ b o₂ c` (and
every text with these tokens) evaluates to `(x o₁ y) o₂ z`, where the right operand
of a division is not zero; so `a-b-c` gives `(x-y)-z`, `a/b/c` gives `(x/y)/z`, and
likewise `a-b+c` and `a/b*c`. -/
theorem evaluate_left_assoc (a b c : String) (x y z : Float64) (o₁ o₂ : Op)
    (hda : IsLiteral a.data) (hdb : IsLiteral b.data) (hdc : IsLiteral c.data)
    (ha : parseFloat a = some x) (hb : parseFloat b = some y) (hc : parseFloat c = some z)
    (hprec : o₁.prec = o₂.prec)
    (h₁ : o₁ = Op.div → y.isZero = false) (h₂ : o₂ = Op.div → z.isZero = false) :
    evaluate (a ++ o₁.token ++ b ++ o₂.token ++ c) = .ok (o₂.apply (o₁.apply x y) z) ∧
      ∀ s, tokenize s = .ok [a, o₁.token, b, o₂.token, c] →
        parseToRPN s = .ok [a, b, o₁.token, c, o₂.token] ∧
          evaluate s = .ok (o₂.apply (o₁.apply x y) z) := by
  have hwf : (Expr.bin o₂ (.bin o₁ (.lit a) (.lit b)) (.lit c)).wellFormed = true := by
    cases o₁ <;> cases o₂ <;> first | rfl | exact absurd hprec (by decide)
  have hlit : ∀ t ∈ (Expr.bin o₂ (.bin o₁ (.lit a) (.lit b)) (.lit c)).literals,
      (parseFloat t).isSome = true := by
    intro t ht
    simp only [Expr.literals, List.mem_append, List.mem_singleton] at ht
    rcases ht with (rfl | rfl) | rfl
    · simp [ha]
    · simp [hb]
    · simp [hc]
  have hdec : ∀ t ∈ (Expr.bin o₂ (.bin o₁ (.lit a) (.lit b)) (.lit c)).literals,
      IsLiteral t.data := by
    intro t ht
    simp only [Expr.literals, List.mem_append, List.mem_singleton] at ht
    rcases ht with (rfl | rfl) | rfl
    · exact hda
    · exact hdb
    · exact hdc
  have hv : (Expr.bin o₂ (.bin o₁ (.lit a) (.lit b)) (.lit c)).value =
      some (o₂.apply (o₁.apply x y) z) := by
    have n₁ : ¬ (o₁ = Op.div ∧ y.isZero = true) := by
      rintro ⟨e, hy⟩
      rw [h₁ e] at hy
      cases hy
    have n₂ : ¬ (o₂ = Op.div ∧ z.isZero = true) := by
      rintro ⟨e, hz⟩
      rw [h₂ e] at hz
      cases hz
    simp only [Expr.value, ha, hb, hc, n₁, n₂, if_false]
  have key : ∀ s, tokenize s = .ok [a, o₁.token, b, o₂.token, c] →
      parseToRPN s = .ok [a, b, o₁.token, c, o₂.token] ∧
        evaluate s = .ok (o₂.apply (o₁.apply x y) z) := by
    intro s hs
    have h := evaluate_tokens s (Expr.bin o₂ (.bin o₁ (.lit a) (.lit b)) (.lit c)) hs hwf hlit
    rw [hv] at h
    exact ⟨by simpa [Expr.rpn] using h.1, h.2⟩
  exact ⟨(key _ (tokenize_text (Expr.bin o₂ (.bin o₁ (.lit a) (.lit b)) (.lit c)) hdec)).2, key⟩

/-- C2, amended, at `10-3-2`, which gives 5, and at `20/4/5`, which gives 1. -/
theorem evaluate_left_assoc_witness :
    evaluate "10-3-2" = .ok 5 ∧ evaluate "20/4/5" = .ok 1 :=
  ⟨((evaluate_left_assoc "10" "3" "2" 10 3 2 .sub .sub
      (isLiteral_digits _ (by decide) (by decide)) (isLiteral_digits _ (by decide) (by decide))
      (isLiteral_digits _ (by decide) (by decide)) (by decide) (by decide) (by decide) rfl
      (by decide) (by decide)).2 "10-3-2" (by decide)).2.trans (by decide),
    ((evaluate_left_assoc "20" "4" "5" 20 4 5 .div .div
      (isLiteral_digits _ (by decide) (by decide)) (isLiteral_digits _ (by decide) (by decide))
      (isLiteral_digits _ (by decide) (by decide)) (by decide) (by decide) (by decide) rfl
      (by decide) (by decide)).2 "20/4/5" (by decide)).2.trans (by decide)⟩

set_option maxRecDepth 100000 in
set_option exponentiation.threshold 2000 in
/-- C4, as stated, fails: `5/0+2000...0`, with a last literal of 309 digits, is a
well-formed expression with the sub-expression `5/0`, whose right operand is
zero, and the pipeline fails on it with the unknown-token error for the last
literal, not with the division-by-zero error. -/
theorem evaluate_divisionByZero_counterexample :
    (Expr.bin .add (.bin .div (.lit "5") (.lit "0")) (.lit tooLarge)).wellFormed = true ∧
    (Expr.bin .add (.bin .div (.lit "5") (.lit "0")) (.lit tooLarge)).dividesByZero = true ∧
    tokenize ("5/0+" ++ tooLarge) =
      .ok (Expr.bin .add (.bin .div (.lit "5") (.lit "0")) (.lit tooLarge)).tokens ∧
    evaluate ("5/0+" ++ tooLarge) = .error (.invalidToken tooLarge) :=
  ⟨by decide, by decide, by decide, by decide⟩

/-- C4, amended: whenever `evaluateRPN` reaches a `/` with a right operand (the top
of the operand stack) equal to zero, it returns the division-by-zero error of
`calcFunc` wrapped with the operator `/`, and no number; so does the pipeline on
`5/0`, and on the text (and every text with the same tokens) of a well-formed
expression built from decimal literals that `ParseFloat` accepts with a
sub-expression `x/y` in which `y` evaluates to zero. -/
theorem evaluate_divisionByZero :
    (∀ (pre post : List String) (a b : Float64) (stack : List Float64),
      evalLoop pre 0 [] = .ok (a :: b :: stack) → a.isZero = true →
      evaluateRPN (pre ++ "/" :: post) = .error (.operation "/" .divisionByZero)) ∧
    evaluate "5/0" = .error (.operation "/" .divisionByZero) ∧
    (∀ e : Expr, e.wellFormed = true → (∀ t ∈ e.literals, IsLiteral t.data) →
      (∀ t ∈ e.literals, (parseFloat t).isSome = true) → e.dividesByZero = true →
      evaluate e.text = .error (.operation "/" .divisionByZero) ∧
        ∀ s, tokenize s = .ok e.tokens →
          evaluate s = .error (.operation "/" .divisionByZero)) := by
  refine ⟨?_, by decide, ?_⟩
  · intro pre post a b stack hpre ha
    have hn : parseFloat "/" = none := by decide
    simp only [evaluateRPN, evalLoop_append, hpre, evalLoop, hn, calcFunc_div, ha, if_true]
  · intro e hwf hdec hlit hdiv
    have key : ∀ s, tokenize s = .ok e.tokens →
        evaluate s = .error (.operation "/" .divisionByZero) := by
      intro s hs
      have h := (evaluate_tokens s e hs hwf hlit).2
      rw [e.value_of_dividesByZero hdiv] at h
      exact h
    exact ⟨key _ (tokenize_text e hdec), key⟩

/-- C4, amended, at the postfix sequence `["5", "0", "/"]` and at the text
`1+(5/(2-2))`. -/
theorem evaluate_divisionByZero_witness :
    evaluateRPN ["5", "0", "/"] = .error (.operation "/" .divisionByZero) ∧
    evaluate "1+(5/(2-2))" = .error (.operation "/" .divisionByZero) :=
  ⟨evaluate_divisionByZero.1 ["5", "0"] [] 0 5 [] (by decide) (by decide),
    (evaluate_divisionByZero.2.2
      (.bin .add (.lit "1")
        (.paren (.bin .div (.lit "5") (.paren (.bin .sub (.lit "2") (.lit "2"))))))
      (by decide)
      (by
        intro t ht
        simp only [Expr.literals, List.mem_append, List.mem_singleton] at ht
        rcases ht with rfl | rfl | rfl | rfl <;> exact isLiteral_digits _ (by decide) (by decide))
      (by decide) (by decide)).1⟩

/-! ### The evaluator: what is left on the operand stack -/

/-- Each number token adds a value to the operand stack and each other token
that is processed takes one away. -/
theorem evalLoop_length (rpn : List String) (i : Nat) (stack stack' : List Float64)
    (h : evalLoop rpn i stack = .ok stack') :
    stack'.length + rpn.countP (fun t => !isNumber t) =
      stack.length + rpn.countP isNumber := by
  induction rpn generalizing i stack with
  | nil =>
    simp only [evalLoop, Except.ok.injEq] at h
    subst h
    simp
  | cons token rpn ih =>
    cases hp : parseFloat token with
    | some value =>
      simp only [evalLoop, hp] at h
      have := ih _ _ h
      have hn : isNumber token = true := by simp [isNumber, hp]
      simp only [List.countP_cons, hn, List.length_cons] at this ⊢
      simp only [Bool.not_true, Bool.false_eq_true, if_false, if_true] at this ⊢
      omega
    | none =>
      have hn : isNumber token = false := by simp [isNumber, hp]
      match stack with
      | [] => simp [evalLoop, hp] at h
      | [_] => simp [evalLoop, hp] at h
      | a :: b :: stack =>
        simp only [evalLoop, hp] at h
        cases hc : calcFunc (b, a) token with
        | error err => rw [hc] at h; cases h
        | ok result =>
          rw [hc] at h
          have := ih _ _ h
          simp only [List.countP_cons, hn, List.length_cons] at this ⊢
          simp only [Bool.not_false, Bool.false_eq_true, if_false, if_true] at this ⊢
          omega

/-- A sequence of number tokens leaves all its values on the operand stack. -/
theorem evalLoop_numbers (rpn : List String) (i : Nat) (stack : List Float64)
    (h : ∀ t ∈ rpn, isNumber t = true) :
    ∃ stack', evalLoop rpn i stack = .ok stack' ∧ stack'.length = stack.length + rpn.length := by
  induction rpn generalizing i stack with
  | nil => exact ⟨stack, rfl, rfl⟩
  | cons token rpn ih =>
    have ht := h token (List.mem_cons_self _ _)
    obtain ⟨v, hv⟩ := Option.isSome_iff_exists.1 ht
    obtain ⟨stack', hs, hl⟩ := ih (i + 1) (v :: stack) (fun t ht => h t (List.mem_cons_of_mem _ ht))
    refine ⟨stack', by simp only [evalLoop, hv, hs], ?_⟩
    simp only [List.length_cons] at hl ⊢
    omega

/-- C11: for every postfix sequence on which no operator step fails, `evaluateRPN`
returns the malformed-expression error if and only if the operand stack does not
hold exactly one value after the pass, that is if and only if the number of
number tokens minus the number of operator tokens differs from 1; a sequence of
number tokens only fails unless it has exactly one token, and a single number
token evaluates to its own value. -/
theorem evaluateRPN_malformed (rpn : List String) :
    (∀ stack, evalLoop rpn 0 [] = .ok stack →
      (evaluateRPN rpn = .error .malformed ↔ stack.length ≠ 1) ∧
      (stack.length ≠ 1 ↔ rpn.countP isNumber ≠ rpn.countP (fun t => !isNumber t) + 1) ∧
      (∀ v, stack = [v] → evaluateRPN rpn = .ok v)) ∧
    ((∀ t ∈ rpn, isNumber t = true) → rpn.length ≠ 1 → evaluateRPN rpn = .error .malformed) ∧
    (∀ t v, rpn = [t] → parseFloat t = some v → evaluateRPN rpn = .ok v) := by
  have main : ∀ stack, evalLoop rpn 0 [] = .ok stack →
      (evaluateRPN rpn = .error .malformed ↔ stack.length ≠ 1) ∧
      (stack.length ≠ 1 ↔ rpn.countP isNumber ≠ rpn.countP (fun t => !isNumber t) + 1) ∧
      (∀ v, stack = [v] → evaluateRPN rpn = .ok v) := by
    intro stack h
    have hlen := evalLoop_length rpn 0 [] stack h
    simp only [List.length_nil, Nat.zero_add] at hlen
    refine ⟨?_, by omega, ?_⟩
    · match stack, h with
      | [], h => simp [evaluateRPN, h]
      | [v], h => simp [evaluateRPN, h]
      | _ :: _ :: _, h => simp [evaluateRPN, h]
    · rintro v rfl
      simp only [evaluateRPN, h]
  refine ⟨main, ?_, ?_⟩
  · intro hnum hne
    obtain ⟨stack, hs, hl⟩ := evalLoop_numbers rpn 0 [] hnum
    simp only [List.length_nil, Nat.zero_add] at hl
    exact (main stack hs).1.2 (by omega)
  · rintro t v rfl hv
    simp [evaluateRPN, evalLoop, hv]

/-- C11, at the empty sequence, at `["1", "2"]`, at `["7"]` and at
`["1", "2", "+", "3"]`. -/
theorem evaluateRPN_malformed_witness :
    evaluateRPN [] = .error .malformed ∧ evaluateRPN ["1", "2"] = .error .malformed ∧
    evaluateRPN ["7"] = .ok 7 ∧ evaluateRPN ["1", "2", "+", "3"] = .error .malformed :=
  ⟨(evaluateRPN_malformed []).2.1 (by decide) (by decide),
    (evaluateRPN_malformed ["1", "2"]).2.1 (by decide) (by decide),
    (evaluateRPN_malformed ["7"]).2.2 "7" 7 rfl (by decide),
    ((evaluateRPN_malformed ["1", "2", "+", "3"]).1 [3, 3] (by decide)).1.2 (by decide)⟩

/-- C17: on an operator token `evaluateRPN` takes the second value from the top of
the stack as the left operand and the top value as the right operand: for all
number tokens with values `x`, `y` and each of the four operators (`y` not zero
for `/`), `evaluateRPN [x, y, op]` is `x op y`. -/
theorem evaluateRPN_operand_order (tx ty : String) (x y : Float64) (op : Op)
    (hx : parseFloat tx = some x) (hy : parseFloat ty = some y)
    (hdiv : op = Op.div → y.isZero = false) :
    evaluateRPN [tx, ty, op.token] = .ok (op.apply x y) := by
  have hz : ¬ (op = Op.div ∧ y.isZero = true) := by
    rintro ⟨e, h⟩
    rw [hdiv e] at h
    cases h
  simp only [evaluateRPN, evalLoop, hx, hy, op.parseFloat_token, calcFunc_token, hz, if_false]

/-- C17, at `["10", "3", "-"]`, which gives 7 and not -7, and at
`["8", "2", "/"]`, which gives 4. -/
theorem evaluateRPN_operand_order_witness :
    evaluateRPN ["10", "3", "-"] = .ok 7 ∧ evaluateRPN ["10", "3", "-"] ≠ .ok (3 - 10) ∧
    evaluateRPN ["8", "2", "/"] = .ok 4 := by
  have h1 := evaluateRPN_operand_order "10" "3" 10 3 .sub (by decide) (by decide) (by decide)
  have h2 := evaluateRPN_operand_order "8" "2" 8 2 .div (by decide) (by decide) (by decide)
  refine ⟨h1.trans (by decide), ?_, h2.trans (by decide)⟩
  intro h
  have := h1.symm.trans h
  revert this
  decide

/-! ### Inputs that are not well-formed expressions -/

/-- In the token sequence of an expression with decimal literals, operands and
operators alternate. -/
theorem alternates_tokens (e : Expr) (hdec : ∀ t ∈ e.literals, IsLiteral t.data)
    (rest : List String) : alternates true (e.tokens ++ rest) = alternates false rest := by
  induction e generalizing rest with
  | lit t =>
    obtain ⟨c, r, ht, hc⟩ := isLiteral_head_digit t.data (hdec t (by simp [Expr.literals]))
    have hne : t ≠ "(" := by
      rintro rfl
      cases ht
      revert hc
      decide
    simp [Expr.tokens, alternates, hne, ht, hc]
  | paren e ih =>
    have h := ih hdec (")" :: rest)
    have htok : (Expr.paren e).tokens ++ rest = "(" :: (e.tokens ++ ")" :: rest) := by
      simp [Expr.tokens]
    rw [htok]
    simp only [alternates, if_true]
    rw [h]
    simp [alternates]
  | bin op l r ihl ihr =>
    have hl := ihl (fun t ht => hdec t (by simp [Expr.literals, ht])) (op.token :: (r.tokens ++ rest))
    have hr := ihr (fun t ht => hdec t (by simp [Expr.literals, ht])) rest
    have htok : (Expr.bin op l r).tokens ++ rest = l.tokens ++ op.token :: (r.tokens ++ rest) := by
      simp [Expr.tokens]
    have hne : op.token ≠ ")" := by cases op <;> decide
    have hp : 0 < precedence op.token := by
      rw [op.precedence_token]
      exact op.prec_pos
    rw [htok, hl]
    simp only [alternates, hne, if_false, hp, if_true]
    exact hr

/-- A token sequence in which operands and operators do not alternate is not that
of an expression with decimal literals. -/
theorem not_expr_tokens (tokens : List String) (h : alternates true tokens = false) :
    ¬ ∃ e : Expr, e.wellFormed = true ∧ (∀ t ∈ e.literals, IsLiteral t.data) ∧
      e.tokens = tokens := by
  rintro ⟨e, _, hdec, rfl⟩
  have := alternates_tokens e hdec []
  simp only [List.append_nil, alternates] at this
  rw [this] at h
  cases h

/-- C19: the pipeline does not reject every ill-formed input: the tokens of `2 3 +`
are not those of a well-formed infix expression, `parseToRPN` converts them to
`[2, 3, +]` and `evaluateRPN` returns 5 with no error; likewise `2+()3` is not
well-formed and evaluates to 5. -/
theorem evaluate_ill_formed :
    (tokenize "2 3 +" = .ok ["2", "3", "+"] ∧
      (¬ ∃ e : Expr, e.wellFormed = true ∧ (∀ t ∈ e.literals, IsLiteral t.data) ∧
        e.tokens = ["2", "3", "+"]) ∧
      parseToRPN "2 3 +" = .ok ["2", "3", "+"] ∧ evaluateRPN ["2", "3", "+"] = .ok 5) ∧
    (tokenize "2+()3" = .ok ["2", "+", "(", ")", "3"] ∧
      (¬ ∃ e : Expr, e.wellFormed = true ∧ (∀ t ∈ e.literals, IsLiteral t.data) ∧
        e.tokens = ["2", "+", "(", ")", "3"]) ∧
      parseToRPN "2+()3" = .ok ["2", "3", "+"] ∧ evaluate "2+()3" = .ok 5) :=
  ⟨⟨by decide, not_expr_tokens _ (by decide), by decide, by decide⟩,
    ⟨by decide, not_expr_tokens _ (by decide), by decide, by decide⟩⟩

/-! ### The converter: the unknown-token branch -/

/-- The step of the main loop fails for a `)` without `(`, or for a token that is
no number, no parenthesis and no operator. -/
theorem convertToken_error (token : String) (state : List String × List String)
    (err : CalcError) (h : convertToken token state = .error err) :
    (token = ")" ∧ err = .noOpeningParen) ∨
      (err = .invalidToken token ∧ parseFloat token = none ∧ token ≠ "(" ∧ token ≠ ")" ∧
        precedence token = 0) := by
  by_cases hn : (parseFloat token).isSome = true
  · rw [convertToken_number token _ hn] at h
    cases h
  by_cases ho : token = "("
  · subst ho
    rw [convertToken_open] at h
    cases h
  by_cases hc : token = ")"
  · subst hc
    left
    refine ⟨rfl, ?_⟩
    rw [convertToken_close] at h
    cases hd : state.2.dropWhile (fun t => decide (t ≠ "(")) with
    | nil => rw [hd] at h; cases h; rfl
    | cons top stack => rw [hd] at h; cases h
  by_cases hp : 0 < precedence token
  · rw [convertToken_operator token _ hp] at h
    cases h
  · right
    have hnone : parseFloat token = none := by
      cases hpf : parseFloat token with
      | none => rfl
      | some v => simp [hpf] at hn
    simp only [convertToken, hn, ho, hc, hp, if_false, Bool.false_eq_true] at h
    cases h
    exact ⟨rfl, hnone, ho, hc, by omega⟩

/-- When the main loop succeeds, it has classified every token. -/
theorem convert_ok_classified (tokens : List String) (state state' : List String × List String)
    (h : convert tokens state = .ok state') :
    ∀ t ∈ tokens, (parseFloat t).isSome = true ∨ t = "(" ∨ t = ")" ∨ 0 < precedence t := by
  induction tokens generalizing state with
  | nil => simp
  | cons token tokens ih =>
    simp only [convert] at h
    cases hs : convertToken token state with
    | error err => rw [hs] at h; cases h
    | ok mid =>
      rw [hs] at h
      intro t ht
      rcases List.mem_cons.1 ht with rfl | ht
      · by_cases hn : (parseFloat t).isSome = true
        · exact Or.inl hn
        by_cases ho : t = "("
        · exact Or.inr (Or.inl ho)
        by_cases hc : t = ")"
        · exact Or.inr (Or.inr (Or.inl hc))
        by_cases hp : 0 < precedence t
        · exact Or.inr (Or.inr (Or.inr hp))
        · simp [convertToken, hn, ho, hc, hp] at hs
      · exact ih mid h t ht

/-- The main loop fails with the unknown-token error only at a token that is no
number, no parenthesis and no operator. -/
theorem convert_invalidToken (tokens : List String) (state : List String × List String)
    (t : String) (h : convert tokens state = .error (.invalidToken t)) :
    t ∈ tokens ∧ parseFloat t = none ∧ t ≠ "(" ∧ t ≠ ")" ∧ precedence t = 0 := by
  induction tokens generalizing state with
  | nil => simp [convert] at h
  | cons token tokens ih =>
    simp only [convert] at h
    cases hs : convertToken token state with
    | error err =>
      rw [hs] at h
      cases h
      rcases convertToken_error token state _ hs with ⟨_, he⟩ | ⟨he, hrest⟩
      · cases he
      · cases he
        exact ⟨List.mem_cons_self _ _, hrest⟩
    | ok mid =>
      rw [hs] at h
      obtain ⟨hm, hrest⟩ := ih mid h
      exact ⟨List.mem_cons_of_mem _ hm, hrest⟩

theorem toPostfix_invalidToken (tokens : List String) (t : String)
    (h : toPostfix tokens = .error (.invalidToken t)) :
    t ∈ tokens ∧ parseFloat t = none ∧ t ≠ "(" ∧ t ≠ ")" ∧ precedence t = 0 := by
  unfold toPostfix at h
  cases hc : convert tokens ([], []) with
  | error err =>
    rw [hc] at h
    cases h
    exact convert_invalidToken tokens _ t hc
  | ok state =>
    rw [hc] at h
    simp only [drain_eq] at h
    split at h <;> cases h

set_option maxRecDepth 100000 in
set_option exponentiation.threshold 2000 in
/-- C13, as stated, fails: on the text `1+2000...0`, with a number of 309 digits,
`parseToRPN` fails with the unknown-token error, for a token of the tokenizer
that is a decimal literal. -/
theorem parseToRPN_invalidToken_counterexample :
    tokenize ("1+" ++ tooLarge) = .ok ["1", "+", tooLarge] ∧ IsLiteral tooLarge.data ∧
    parseToRPN ("1+" ++ tooLarge) = .error (.invalidToken tooLarge) :=
  ⟨by decide, tooLarge_isLiteral, by decide⟩

/-- C13, amended: `parseToRPN` fails with the unknown-token error only for a number
token of the tokenizer, a decimal literal, that `ParseFloat` rejects; every other
token of the tokenizer is classified as a number, `(`, `)` or an operator with
positive precedence, so for a text whose number tokens `ParseFloat` all accepts
`parseToRPN` never fails with the unknown-token error. -/
theorem parseToRPN_invalidToken (s : String) (tokens : List String)
    (h : tokenize s = .ok tokens) :
    (∀ t, parseToRPN s = .error (.invalidToken t) →
      t ∈ tokens ∧ IsLiteral t.data ∧ parseFloat t = none) ∧
    (∀ t ∈ tokens, (parseFloat t).isSome = true ∨ t = "(" ∨ t = ")" ∨ 0 < precedence t ∨
      (IsLiteral t.data ∧ parseFloat t = none)) ∧
    ((∀ t ∈ tokens, IsLiteral t.data → (parseFloat t).isSome = true) →
      ∀ t, parseToRPN s ≠ .error (.invalidToken t)) := by
  have e : parseToRPN s = toPostfix tokens := by simp only [parseToRPN, h]
  have hkind := lexed_token _ _ (tokenize_ok_lexed s tokens h)
  have hops : ∀ t, t ∈ ["+", "-", "*", "/", "(", ")"] →
      t = "(" ∨ t = ")" ∨ 0 < precedence t := by
    intro t ht
    simp only [List.mem_cons, List.mem_singleton, List.not_mem_nil, or_false] at ht
    rcases ht with rfl | rfl | rfl | rfl | rfl | rfl
    · exact Or.inr (Or.inr (by decide))
    · exact Or.inr (Or.inr (by decide))
    · exact Or.inr (Or.inr (by decide))
    · exact Or.inr (Or.inr (by decide))
    · exact Or.inl rfl
    · exact Or.inr (Or.inl rfl)
  have first : ∀ t, parseToRPN s = .error (.invalidToken t) →
      t ∈ tokens ∧ IsLiteral t.data ∧ parseFloat t = none := by
    intro t ht
    rw [e] at ht
    obtain ⟨hm, hnone, ho, hc, hp⟩ := toPostfix_invalidToken tokens t ht
    refine ⟨hm, ?_, hnone⟩
    rcases hkind t hm with hop | hlit
    · rcases hops t hop with h1 | h1 | h1
      · exact absurd h1 ho
      · exact absurd h1 hc
      · omega
    · exact hlit
  refine ⟨first, ?_, ?_⟩
  · intro t ht
    rcases hkind t ht with hop | hlit
    · rcases hops t hop with h1 | h1 | h1
      · exact Or.inr (Or.inl h1)
      · exact Or.inr (Or.inr (Or.inl h1))
      · exact Or.inr (Or.inr (Or.inr (Or.inl h1)))
    · cases hp : parseFloat t with
      | none => exact Or.inr (Or.inr (Or.inr (Or.inr ⟨hlit, rfl⟩)))
      | some v => exact Or.inl rfl
  · intro hnum t ht
    obtain ⟨hm, hlit, hnone⟩ := first t ht
    have := hnum t hm hlit
    rw [hnone] at this
    cases this

set_option maxRecDepth 100000 in
set_option exponentiation.threshold 2000 in
/-- C13, amended, at the text `(2+3)*4`, on which `parseToRPN` does not fail with
the unknown-token error, and at the text `1+2000...0`, on which it does, for a
literal that `ParseFloat` rejects. -/
theorem parseToRPN_invalidToken_witness :
    parseToRPN "(2+3)*4" ≠ .error (.invalidToken "4") ∧
    (tooLarge ∈ ["1", "+", tooLarge] ∧ IsLiteral tooLarge.data ∧ parseFloat tooLarge = none) := by
  refine ⟨(parseToRPN_invalidToken "(2+3)*4" ["(", "2", "+", "3", ")", "*", "4"]
    (by decide)).2.2 ?_ "4",
    (parseToRPN_invalidToken ("1+" ++ tooLarge) ["1", "+", tooLarge] (by decide)).1 tooLarge
      (by decide)⟩
  intro t ht _
  simp only [List.mem_cons, List.mem_singleton, List.not_mem_nil, or_false] at ht
  rcases ht with rfl | rfl | rfl | rfl | rfl | rfl | rfl
  all_goals first | decide | exact absurd ‹IsLiteral _› (not_isLiteral _ _ (by decide))

/-! ### The converter: post-order traversal and order of the numbers -/

/-- The number tokens of an expression are among its tokens. -/
theorem Expr.literals_subset_tokens (e : Expr) : ∀ t ∈ e.literals, t ∈ e.tokens := by
  induction e with
  | lit t' => intro t ht; simpa [Expr.literals, Expr.tokens] using ht
  | paren e ih =>
    intro t ht
    have := ih t ht
    simp [Expr.tokens, this]
  | bin op l r ihl ihr =>
    intro t ht
    simp only [Expr.literals, List.mem_append] at ht
    simp only [Expr.tokens, List.mem_cons, List.mem_append]
    rcases ht with ht | ht
    · exact Or.inl (ihl t ht)
    · exact Or.inr (Or.inr (ihr t ht))

/-- When the converter succeeds on the tokens of an expression with decimal
literals, `ParseFloat` accepts them all. -/
theorem toPostfix_ok_literals (e : Expr) (hdec : ∀ t ∈ e.literals, IsLiteral t.data)
    (output : List String) (h : toPostfix e.tokens = .ok output) :
    ∀ t ∈ e.literals, (parseFloat t).isSome = true := by
  have hsub := e.literals_subset_tokens
  intro t ht
  unfold toPostfix at h
  cases hc : convert e.tokens ([], []) with
  | error err => rw [hc] at h; cases h
  | ok state =>
    obtain ⟨c, r, hd, hdig⟩ := isLiteral_head_digit t.data (hdec t ht)
    rcases convert_ok_classified e.tokens _ _ hc t (hsub t ht) with h1 | rfl | rfl | h1
    · exact h1
    · cases hd; revert hdig; decide
    · cases hd; revert hdig; decide
    · rcases precedence_pos t h1 with rfl | rfl | rfl | rfl <;>
        (cases hd; revert hdig; decide)

set_option maxRecDepth 100000 in
set_option exponentiation.threshold 2000 in
/-- C16, as stated, fails: `(2000...0)`, a parenthesised literal of 309 digits, is a
well-formed infix expression with the post-order traversal `[2000...0]`, and
`parseToRPN` has no output on it: it fails with the unknown-token error. -/
theorem parseToRPN_postorder_counterexample :
    (Expr.paren (.lit tooLarge)).wellFormed = true ∧
    (∀ t ∈ (Expr.paren (.lit tooLarge)).literals, IsLiteral t.data) ∧
    (Expr.paren (.lit tooLarge)).text = "(" ++ tooLarge ++ ")" ∧
    (Expr.paren (.lit tooLarge)).rpn = [tooLarge] ∧
    parseToRPN ("(" ++ tooLarge ++ ")") = .error (.invalidToken tooLarge) :=
  ⟨rfl, by
    intro t ht
    simp only [Expr.literals, List.mem_singleton] at ht
    rw [ht]
    exact tooLarge_isLiteral, rfl, rfl, by decide⟩

/-- C16, amended: for every well-formed infix expression built from decimal
literals, binary `+ - * /` and balanced parentheses, the output of `parseToRPN`
on its text, when there is one, is exactly the post-order traversal of the
expression (left operand, right operand, operator) under the grammar in which `*`
and `/` bind tighter than `+` and `-` and all four are left-associative; there is
one when `ParseFloat` accepts every literal, also for every text with the same
tokens; and when `ParseFloat` rejects one of the literals, `parseToRPN` has no
output, neither on the text of the expression nor on any text with the same
tokens. -/
theorem parseToRPN_postorder (e : Expr) (hwf : e.wellFormed = true)
    (hdec : ∀ t ∈ e.literals, IsLiteral t.data) :
    (∀ output, parseToRPN e.text = .ok output → output = e.rpn) ∧
    ((∀ t ∈ e.literals, (parseFloat t).isSome = true) →
      parseToRPN e.text = .ok e.rpn ∧
        ∀ s, tokenize s = .ok e.tokens → parseToRPN s = .ok e.rpn) ∧
    (∀ t ∈ e.literals, parseFloat t = none →
      (∀ output, parseToRPN e.text ≠ .ok output) ∧
        ∀ s, tokenize s = .ok e.tokens → ∀ output, parseToRPN s ≠ .ok output) := by
  have htok := tokenize_text e hdec
  have e1 : parseToRPN e.text = toPostfix e.tokens := by simp only [parseToRPN, htok]
  have key : ∀ t ∈ e.literals, parseFloat t = none →
      ∀ s, tokenize s = .ok e.tokens → ∀ output, parseToRPN s ≠ .ok output := by
    intro t ht hnone s hs output h
    simp only [parseToRPN, hs] at h
    have hsome := toPostfix_ok_literals e hdec output h t ht
    rw [hnone] at hsome
    cases hsome
  refine ⟨?_, ?_, ?_⟩
  · intro output h
    rw [e1] at h
    have hlit := toPostfix_ok_literals e hdec output h
    rw [toPostfix_expr e hwf hlit] at h
    cases h
    rfl
  · intro hlit
    refine ⟨by rw [e1, toPostfix_expr e hwf hlit], ?_⟩
    intro s hs
    simp only [parseToRPN, hs, toPostfix_expr e hwf hlit]
  · intro t ht hnone
    exact ⟨key t ht hnone e.text htok, key t ht hnone⟩

set_option maxRecDepth 100000 in
set_option exponentiation.threshold 2000 in
/-- C16, amended, at `2+3*4`, `2*3+4`, `10-3-2` and `(2+3)*4`, and at `2000...0+1`
with a literal of 309 digits, where `parseToRPN` returns no postfix sequence. -/
theorem parseToRPN_postorder_witness :
    parseToRPN "2+3*4" = .ok ["2", "3", "4", "*", "+"] ∧
    parseToRPN "2*3+4" = .ok ["2", "3", "*", "4", "+"] ∧
    parseToRPN "10-3-2" = .ok ["10", "3", "-", "2", "-"] ∧
    parseToRPN "(2+3)*4" = .ok ["2", "3", "+", "4", "*"] ∧
    parseToRPN (tooLarge ++ "+1") ≠ .ok [tooLarge, "1", "+"] := by
  have hd : ∀ t : String, t ∈ ["2", "3", "4", "10", "1"] → IsLiteral t.data := by
    intro t ht
    simp only [List.mem_cons, List.mem_singleton, List.not_mem_nil, or_false] at ht
    rcases ht with rfl | rfl | rfl | rfl | rfl <;>
      exact isLiteral_digits _ (by decide) (by decide)
  refine ⟨?_, ?_, ?_, ?_, ?_⟩
  · exact ((parseToRPN_postorder (.bin .add (.lit "2") (.bin .mul (.lit "3") (.lit "4")))
      (by decide) (fun t ht => hd t (by revert t; decide))).2.1 (by decide)).1
  · exact ((parseToRPN_postorder (.bin .add (.bin .mul (.lit "2") (.lit "3")) (.lit "4"))
      (by decide) (fun t ht => hd t (by revert t; decide))).2.1 (by decide)).1
  · exact ((parseToRPN_postorder (.bin .sub (.bin .sub (.lit "10") (.lit "3")) (.lit "2"))
      (by decide) (fun t ht => hd t (by revert t; decide))).2.1 (by decide)).1
  · exact ((parseToRPN_postorder (.bin .mul (.paren (.bin .add (.lit "2") (.lit "3"))) (.lit "4"))
      (by decide) (fun t ht => hd t (by revert t; decide))).2.1 (by decide)).1
  · have hlits : ∀ t ∈ (Expr.bin .add (.lit tooLarge) (.lit "1")).literals,
        IsLiteral t.data := by
      intro t ht
      simp only [Expr.literals, List.singleton_append, List.mem_cons, List.mem_singleton,
        List.not_mem_nil, or_false] at ht
      rcases ht with rfl | rfl
      · exact tooLarge_isLiteral
      · exact hd "1" (by decide)
    exact ((parseToRPN_postorder (.bin .add (.lit tooLarge) (.lit "1")) (by decide) hlits).2.2
      tooLarge (by simp [Expr.literals]) (by decide)).1 _

/-- The step of the main loop keeps the number tokens of the output in order, adds
a number token at its end, and keeps number tokens off the stack. -/
theorem convertToken_numbers (token : String) (state state' : List String × List String)
    (h : convertToken token state = .ok state')
    (hst : ∀ x ∈ state.2, isNumber x = false) :
    state'.1.filter isNumber = state.1.filter isNumber ++ [token].filter isNumber ∧
      ∀ x ∈ state'.2, isNumber x = false := by
  obtain ⟨output, stack⟩ := state
  simp only at hst
  have hnil : ∀ l : List String, (∀ x ∈ l, isNumber x = false) → l.filter isNumber = [] := by
    intro l hl
    rw [List.filter_eq_nil_iff]
    intro x hx
    simp [hl x hx]
  by_cases hn : (parseFloat token).isSome = true
  · rw [convertToken_number token _ hn] at h
    cases h
    exact ⟨by simp [List.filter_append], hst⟩
  have hnum : isNumber token = false := by simpa [isNumber] using hn
  have htok : [token].filter isNumber = [] := by simp [hnum]
  rw [htok, List.append_nil]
  by_cases ho : token = "("
  · subst ho
    rw [convertToken_open] at h
    cases h
    refine ⟨rfl, ?_⟩
    intro x hx
    rcases List.mem_cons.1 hx with rfl | hx
    · exact hnum
    · exact hst x hx
  by_cases hc : token = ")"
  · subst hc
    by_cases hm : "(" ∈ stack
    · obtain ⟨above, below, hs, _, _, _⟩ := stack_split_paren stack hm
      subst hs
      rw [convertToken_close_ok output above below ‹_›] at h
      cases h
      refine ⟨?_, fun x hx => hst x (by simp [hx])⟩
      simp only [List.filter_append]
      rw [hnil above (fun x hx => hst x (by simp [hx])), List.append_nil]
    · rw [convertToken_close_error _ hm] at h
      cases h
  by_cases hp : 0 < precedence token
  · rw [convertToken_operator token _ hp] at h
    cases h
    refine ⟨?_, ?_⟩
    · simp only [List.filter_append]
      rw [hnil _ (fun x hx => hst x ((List.takeWhile_sublist _).subset hx)), List.append_nil]
    · intro x hx
      rcases List.mem_cons.1 hx with rfl | hx
      · exact hnum
      · exact hst x ((List.dropWhile_sublist _).subset hx)
  · simp [convertToken, hn, ho, hc, hp] at h

theorem convert_numbers (tokens : List String) (state state' : List String × List String)
    (h : convert tokens state = .ok state')
    (hst : ∀ x ∈ state.2, isNumber x = false) :
    state'.1.filter isNumber = state.1.filter isNumber ++ tokens.filter isNumber ∧
      ∀ x ∈ state'.2, isNumber x = false := by
  induction tokens generalizing state with
  | nil =>
    simp only [convert, Except.ok.injEq] at h
    subst h
    exact ⟨by simp, hst⟩
  | cons token tokens ih =>
    simp only [convert] at h
    cases hs : convertToken token state with
    | error err => rw [hs] at h; cases h
    | ok mid =>
      rw [hs] at h
      obtain ⟨h1, h2⟩ := convertToken_numbers token state mid hs hst
      obtain ⟨h3, h4⟩ := ih mid h h2
      refine ⟨?_, h4⟩
      have e : token :: tokens = [token] ++ tokens := rfl
      rw [h3, h1, e, List.filter_append, List.append_assoc]

/-- The number tokens of the output of the converter are those of its input, in
the same order. -/
theorem toPostfix_numbers (tokens output : List String) (h : toPostfix tokens = .ok output) :
    output.filter isNumber = tokens.filter isNumber := by
  unfold toPostfix at h
  cases hc : convert tokens ([], []) with
  | error err => rw [hc] at h; cases h
  | ok state =>
    obtain ⟨out, stack⟩ := state
    rw [hc] at h
    simp only [drain_eq] at h
    by_cases hm : "(" ∈ stack
    · simp [hm] at h
    · simp only [hm, if_false, Except.ok.injEq] at h
      subst h
      obtain ⟨h1, h2⟩ := convert_numbers tokens _ _ hc (by simp)
      simp only [List.filter_nil, List.nil_append] at h1
      rw [List.filter_append, h1]
      have : stack.filter isNumber = [] := by
        rw [List.filter_eq_nil_iff]
        intro x hx
        simp [h2 x hx]
      rw [this, List.append_nil]

/-- C18: when `parseToRPN` succeeds, the number tokens appear in its output in the
same order as in the input token sequence: the sub-sequence of the number tokens
of the output is that of the input tokens. -/
theorem parseToRPN_numbers (s : String) (output : List String)
    (h : parseToRPN s = .ok output) :
    ∃ tokens, tokenize s = .ok tokens ∧
      output.filter isNumber = tokens.filter isNumber := by
  unfold parseToRPN at h
  cases ht : tokenize s with
  | error err => rw [ht] at h; cases h
  | ok tokens =>
    rw [ht] at h
    exact ⟨tokens, rfl, toPostfix_numbers tokens output h⟩

/-- C18, at the well-formed text `(1+2)*3-4/5` and at the ill-formed text
`1 2+(3)`. -/
theorem parseToRPN_numbers_witness :
    (∃ tokens, tokenize "(1+2)*3-4/5" = .ok tokens ∧
      ["1", "2", "+", "3", "*", "4", "5", "/", "-"].filter isNumber = tokens.filter isNumber) ∧
    (∃ tokens, tokenize "1 2+(3)" = .ok tokens ∧
      ["1", "2", "3", "+"].filter isNumber = tokens.filter isNumber) :=
  ⟨parseToRPN_numbers "(1+2)*3-4/5" ["1", "2", "+", "3", "*", "4", "5", "/", "-"] (by decide),
    parseToRPN_numbers "1 2+(3)" ["1", "2", "3", "+"] (by decide)⟩

/-! ### The state of the calculator -/

theorem method_evalLoop (rpn : List String) (i : Nat) (stack : List Float64)
    (c : Calculator) : Method.evalLoop rpn i stack c = (evalLoop rpn i stack, c) := by
  induction rpn generalizing i stack with
  | nil => rfl
  | cons token rpn ih =>
    cases hp : parseFloat token with
    | some value => simp only [Method.evalLoop, evalLoop, hp, ih]
    | none =>
      match stack with
      | [] => simp only [Method.evalLoop, evalLoop, hp]
      | [_] => simp only [Method.evalLoop, evalLoop, hp]
      | a :: b :: stack =>
        cases hc : calcFunc (b, a) token with
        | ok result => simp only [Method.evalLoop, evalLoop, hp, Method.calcFunc, hc, ih]
        | error err => simp only [Method.evalLoop, evalLoop, hp, Method.calcFunc, hc]

theorem method_evaluateRPN (c : Calculator) (rpn : List String) :
    Method.evaluateRPN c rpn = (evaluateRPN rpn, c) := by
  simp only [Method.evaluateRPN, evaluateRPN, method_evalLoop]
  cases h : evalLoop rpn 0 [] with
  | error err => rfl
  | ok stack =>
    match stack with
    | [] => rfl
    | [_] => rfl
    | _ :: _ :: _ => rfl

/-- The evaluation of an input returns the result of the pipeline, whatever the
history, and adds a record to the history exactly when it succeeds. -/
theorem method_evaluateInput (format : Float64 → String) (c : Calculator) (input : String) :
    Method.evaluateInput format c input =
      (evaluate input,
        match evaluate input with
        | .ok result => Method.addHistory format c input result
        | .error _ => c) := by
  simp only [Method.evaluateInput, Method.parseToRPN, evaluate]
  cases hp : Calculator.parseToRPN input with
  | error err => rfl
  | ok rpn =>
    simp only [method_evaluateRPN]
    cases he : evaluateRPN rpn with
    | error err => rfl
    | ok result => rfl

/-- C15: the evaluation core is stateless: for any two states of the calculator
`parseToRPN`, `evaluateRPN` and `calcFunc` return the same result or error and
leave the history as it is; so the evaluation of a text gives the same outcome in
any two states, and after the evaluation of any sequence of other inputs, failed
or successful. -/
theorem evaluation_stateless (format : Float64 → String) :
    (∀ (c₁ c₂ : Calculator) (s : String),
      (Method.parseToRPN c₁ s).1 = (Method.parseToRPN c₂ s).1 ∧
        (Method.parseToRPN c₁ s).2 = c₁) ∧
    (∀ (c₁ c₂ : Calculator) (rpn : List String),
      (Method.evaluateRPN c₁ rpn).1 = (Method.evaluateRPN c₂ rpn).1 ∧
        (Method.evaluateRPN c₁ rpn).2 = c₁) ∧
    (∀ (c₁ c₂ : Calculator) (values : Float64 × Float64) (operator : String),
      (Method.calcFunc c₁ values operator).1 = (Method.calcFunc c₂ values operator).1 ∧
        (Method.calcFunc c₁ values operator).2 = c₁) ∧
    (∀ (c₁ c₂ : Calculator) (s : String),
      (Method.evaluateInput format c₁ s).1 = (Method.evaluateInput format c₂ s).1) ∧
    (∀ (c : Calculator) (inputs : List String) (s : String),
      (Method.evaluateInput format
        (inputs.foldl (fun c input => (Method.evaluateInput format c input).2) c) s).1 =
        (Method.evaluateInput format c s).1) := by
  refine ⟨fun c₁ c₂ s => ⟨rfl, rfl⟩, fun c₁ c₂ rpn => ?_, fun c₁ c₂ v op => ⟨rfl, rfl⟩,
    fun c₁ c₂ s => ?_, fun c inputs s => ?_⟩
  · simp only [method_evaluateRPN, and_self]
  · simp only [method_evaluateInput]
  · simp only [method_evaluateInput]

/-! ### ParseFloat on a literal with a fractional part -/

theorem isDigit_ne (c d : Char) (hc : isDigit c = true) (hd : isDigit d = false) : c ≠ d := by
  rintro rfl
  rw [hc] at hd
  cases hd

theorem digitValue_digit (c : Char) (hc : isDigit c = true) :
    digitValue false c = some (c.toNat - 48) := by
  simp [digitValue, hc]

theorem foldl_digits (digits : List Char) (a : Nat) :
    digits.foldl (fun n c => n * 10 + (c.toNat - 48)) a =
      a * 10 ^ digits.length + digitsValue digits := by
  induction digits generalizing a with
  | nil => simp [digitsValue]
  | cons c digits ih =>
    simp only [List.foldl_cons, digitsValue, List.length_cons]
    rw [ih, ih (0 * 10 + (c.toNat - 48))]
    ring

/-- The number of the digits `d1` followed by the digits `d2`. -/
theorem digitsValue_append (d1 d2 : List Char) :
    digitsValue (d1 ++ d2) = digitsValue d1 * 10 ^ d2.length + digitsValue d2 := by
  simp only [digitsValue, List.foldl_append]
  exact foldl_digits d2 _

/-- The digit loop of `readFloat` on a run of decimal digits. -/
theorem readDigits_digits (digits rest : List Char) (acc : Mantissa)
    (h : ∀ c ∈ digits, isDigit c = true) :
    readDigits false (digits ++ rest) acc =
      readDigits false rest
        { value := digits.foldl (fun n c => n * 10 + (c.toNat - 48)) acc.value
          frac := if acc.sawdot then acc.frac + digits.length else acc.frac
          sawdigits := acc.sawdigits || !digits.isEmpty
          sawdot := acc.sawdot } := by
  induction digits generalizing acc with
  | nil => cases acc; simp
  | cons c digits ih =>
    have hc := h c (List.mem_cons_self _ _)
    have h1 := isDigit_ne c '_' hc (by decide)
    have h2 := isDigit_ne c '.' hc (by decide)
    simp only [List.cons_append, readDigits, h1, h2, if_false, digitValue_digit c hc]
    refine (ih _ (fun d hd => h d (List.mem_cons_of_mem _ hd))).trans ?_
    congr 1
    cases hs : acc.sawdot <;> simp [hs, Nat.add_assoc, Nat.add_comm 1]

/-- The digit loop of `readFloat` on digits, a point and digits. -/
theorem readDigits_decimal (d1 d2 : List Char) (h1 : d1 ≠ [])
    (hd1 : ∀ c ∈ d1, isDigit c = true) (hd2 : ∀ c ∈ d2, isDigit c = true) :
    readDigits false (d1 ++ '.' :: d2) ⟨0, 0, false, false⟩ =
      (⟨digitsValue (d1 ++ d2), d2.length, true, true⟩, []) := by
  have e : d1 ++ '.' :: d2 = d1 ++ ('.' :: (d2 ++ [])) := by simp
  have hp : ¬ ('.' = '_') := by decide
  rw [e, readDigits_digits d1 _ _ hd1]
  simp only [readDigits, hp, if_false, if_true, Bool.false_eq_true]
  rw [readDigits_digits d2 [] _ hd2]
  have hne : d1.isEmpty = false := by
    cases d1 with
    | nil => exact absurd rfl h1
    | cons _ _ => rfl
  simp [readDigits, digitsValue, List.foldl_append, hne]

theorem underscoreLoop_literal (s : List Char) (saw : Char)
    (h : ∀ c ∈ s, isDigit c = true ∨ c = '.') (hsaw : saw ≠ '_') :
    underscoreLoop false s saw = true := by
  induction s generalizing saw with
  | nil => simpa [underscoreLoop] using hsaw
  | cons c s ih =>
    have hs : ∀ d ∈ s, isDigit d = true ∨ d = '.' := fun d hd => h d (List.mem_cons_of_mem _ hd)
    rcases h c (List.mem_cons_self _ _) with hc | rfl
    · simp only [underscoreLoop, digitValue_digit c hc, Option.isSome_some, if_true]
      exact ih '0' hs (by decide)
    · have h1 : (digitValue false '.').isSome = false := by decide
      have h2 : ¬ ('.' = '_') := by decide
      simp only [underscoreLoop, h1, h2, hsaw, if_false, Bool.false_eq_true]
      exact ih '!' hs (by decide)

theorem underscoreOK_literal (s : List Char) (h : ∀ c ∈ s, isDigit c = true ∨ c = '.') :
    underscoreOK s = true := by
  have hne : ∀ c ∈ s, ∀ d : Char, isDigit d = false → d ≠ '.' → c ≠ d := by
    intro c hc d hd hdot
    rcases h c hc with hc | rfl
    · exact isDigit_ne c d hc hd
    · exact fun e => hdot e.symm
  have key := underscoreLoop_literal s '^' h (by decide)
  cases s with
  | nil => exact key
  | cons c t =>
    have hp := hne c (List.mem_cons_self _ _) '+' (by decide) (by decide)
    have hm := hne c (List.mem_cons_self _ _) '-' (by decide) (by decide)
    simp only [underscoreOK, hp, hm, or_self, if_false]
    split
    · rename_i c2 t' heq
      cases heq
      have hc2 : ∀ d : Char, isDigit d = false → d ≠ '.' → c2 ≠ d :=
        hne c2 (by simp)
      simp only [hc2 'b' (by decide) (by decide), hc2 'B' (by decide) (by decide),
        hc2 'o' (by decide) (by decide), hc2 'O' (by decide) (by decide),
        hc2 'x' (by decide) (by decide), hc2 'X' (by decide) (by decide), or_self, if_false]
      exact key
    · exact key

/-- The fraction that `readFloat` reads from digits, a point and digits. -/
theorem readFloat_decimal (d1 d2 : List Char) (h1 : d1 ≠ [])
    (hd1 : ∀ c ∈ d1, isDigit c = true) (hd2 : ∀ c ∈ d2, isDigit c = true) :
    readFloat (d1 ++ '.' :: d2) = some (false, digitsValue (d1 ++ d2), 10 ^ d2.length) := by
  have hall : ∀ c ∈ d1 ++ '.' :: d2, isDigit c = true ∨ c = '.' := by
    intro c hc
    rcases List.mem_append.1 hc with hc | hc
    · exact Or.inl (hd1 c hc)
    · rcases List.mem_cons.1 hc with rfl | hc
      · exact Or.inr rfl
      · exact Or.inl (hd2 c hc)
  obtain ⟨c, r, rfl⟩ : ∃ c r, d1 = c :: r := by
    cases d1 with
    | nil => exact absurd rfl h1
    | cons c r => exact ⟨c, r, rfl⟩
  have hc := hd1 c (List.mem_cons_self _ _)
  have hp : some c ≠ some '+' := fun e => isDigit_ne c '+' hc (by decide) (Option.some.inj e)
  have hm : some c ≠ some '-' := fun e => isDigit_ne c '-' hc (by decide) (Option.some.inj e)
  have hhex : (match c :: r ++ '.' :: d2 with
      | '0' :: c :: _ :: _ => decide (c = 'x' ∨ c = 'X')
      | _ => false) = false := by
    split
    · rename_i c2 _ _ heq
      have hmem : c2 ∈ c :: r ++ '.' :: d2 := by rw [heq]; simp
      have hx : c2 ≠ 'x' := by
        rcases hall c2 hmem with h | rfl
        · exact isDigit_ne c2 'x' h (by decide)
        · decide
      have hX : c2 ≠ 'X' := by
        rcases hall c2 hmem with h | rfl
        · exact isDigit_ne c2 'X' h (by decide)
        · decide
      simp [hx, hX]
    · rfl
  have hdigits := readDigits_decimal (c :: r) d2 h1 hd1 hd2
  have hund := underscoreOK_literal _ hall
  simp only [readFloat, List.cons_append, List.head?_cons, hp, hm, or_self, if_false,
    decide_False] at hhex hdigits hund ⊢
  simp only [hhex, Bool.false_eq_true, if_false, hdigits, if_true, readExponent, hund]
  simp

/-- A digit is not the first character of an infinity or a NaN. -/
theorem special_digit (c : Char) (t : List Char) (hc : isDigit c = true) :
    special (c :: t) = none := by
  simp [special, isDigit_ne c '+' hc (by decide), isDigit_ne c '-' hc (by decide),
    isDigit_ne c 'i' hc (by decide), isDigit_ne c 'I' hc (by decide),
    isDigit_ne c 'n' hc (by decide), isDigit_ne c 'N' hc (by decide)]

/-- The value of a number token with a fractional part: `ParseFloat` rounds
`d1 + d2 / 10^len(d2)` to the nearest `float64`, and fails when that is an
infinity. -/
theorem parseFloat_decimal (d1 d2 : List Char) (h1 : d1 ≠ [])
    (hd1 : ∀ c ∈ d1, isDigit c = true) (hd2 : ∀ c ∈ d2, isDigit c = true) :
    parseFloat (String.mk (d1 ++ '.' :: d2)) =
      finite (Float64.round false (digitsValue d1 * 10 ^ d2.length + digitsValue d2)
        (10 ^ d2.length)) := by
  obtain ⟨c, r, rfl⟩ : ∃ c r, d1 = c :: r := by
    cases d1 with
    | nil => exact absurd rfl h1
    | cons c r => exact ⟨c, r, rfl⟩
  have hs := special_digit c (r ++ '.' :: d2) (hd1 c (List.mem_cons_self _ _))
  have hr := readFloat_decimal (c :: r) d2 h1 hd1 hd2
  rw [digitsValue_append] at hr
  simp only [List.cons_append] at hr
  simp only [parseFloat, List.cons_append, hs, hr, finite]

/-! ### Rounding to the nearest float64 -/

/-- The function `log2` gives the position of the leading bit. -/
theorem log2_spec (fuel n : Nat) (h0 : 0 < n) (hf : n ≤ fuel) :
    2 ^ Float64.log2 fuel n ≤ n ∧ n < 2 ^ (Float64.log2 fuel n + 1) := by
  induction fuel generalizing n with
  | zero => omega
  | succ fuel ih =>
    unfold Float64.log2
    split
    · simp; omega
    · have := ih (n / 2) (by omega) (by omega)
      rw [pow_succ, pow_succ]
      omega

/-- Stripping factors of two keeps the value `m * 2^e`. -/
theorem trim_spec (fuel m : Nat) (e : Int) :
    ((Float64.trim fuel m e).1 : ℚ) * 2 ^ (Float64.trim fuel m e).2 = (m : ℚ) * 2 ^ e ∧
      e ≤ (Float64.trim fuel m e).2 ∧ (Float64.trim fuel m e).1 ≤ m := by
  induction fuel generalizing m e with
  | zero => simp [Float64.trim]
  | succ fuel ih =>
    unfold Float64.trim
    split
    · rename_i h
      obtain ⟨h1, h2, h3⟩ := ih (m / 2) (e + 1)
      refine ⟨?_, by omega, le_trans h3 (Nat.div_le_self _ _)⟩
      rw [h1, zpow_add_one₀ (by norm_num)]
      have : ((m / 2 : ℕ) : ℚ) * 2 = m := by
        have : m / 2 * 2 = m := Nat.div_mul_cancel (Nat.dvd_of_mod_eq_zero h.2)
        exact_mod_cast this
      rw [← this]; ring
    · simp

/-- A power of two with an integer exponent as a quotient of two powers with
natural exponents, one of which is `2^0`. -/
theorem two_zpow_split (z : Int) : (2 : ℚ) ^ z = 2 ^ z.toNat / 2 ^ (-z).toNat := by
  rcases le_total 0 z with h | h
  · have h1 : (-z).toNat = 0 := by omega
    have h2 : ((z.toNat : ℕ) : ℤ) = z := Int.toNat_of_nonneg h
    rw [h1, pow_zero, div_one, ← zpow_natCast, h2]
  · have h1 : z.toNat = 0 := by omega
    have h2 : (((-z).toNat : ℕ) : ℤ) = -z := Int.toNat_of_nonneg (by omega)
    rw [h1, pow_zero, one_div, ← zpow_natCast, h2, zpow_neg, inv_inv]

/-- The leading bit of a fraction: `2^lg ≤ n / d < 2^(lg + 1)`. -/
theorem round_lg (n d : Nat) (hn : 0 < n) (hd : 0 < d) :
    (2 : ℚ) ^ (if d * 2 ^ Float64.log2 n n ≤ n * 2 ^ Float64.log2 d d
        then (Float64.log2 n n : Int) - Float64.log2 d d
        else (Float64.log2 n n : Int) - Float64.log2 d d - 1) ≤ (n : ℚ) / d ∧
    (n : ℚ) / d < (2 : ℚ) ^ ((if d * 2 ^ Float64.log2 n n ≤ n * 2 ^ Float64.log2 d d
        then (Float64.log2 n n : Int) - Float64.log2 d d
        else (Float64.log2 n n : Int) - Float64.log2 d d - 1) + 1) := by
  obtain ⟨ha1, ha2⟩ := log2_spec n n hn le_rfl
  obtain ⟨hb1, hb2⟩ := log2_spec d d hd le_rfl
  generalize Float64.log2 n n = a at *
  generalize Float64.log2 d d = b at *
  have hd' : (0 : ℚ) < d := by exact_mod_cast hd
  have hA : (0 : ℚ) < 2 ^ a := by positivity
  have hB : (0 : ℚ) < 2 ^ b := by positivity
  have qa1 : ((2 : ℚ) ^ a) ≤ n := by exact_mod_cast ha1
  have qa2 : (n : ℚ) < 2 ^ a * 2 := by rw [← pow_succ]; exact_mod_cast ha2
  have qb1 : ((2 : ℚ) ^ b) ≤ d := by exact_mod_cast hb1
  have qb2 : (d : ℚ) < 2 ^ b * 2 := by rw [← pow_succ]; exact_mod_cast hb2
  have e1 : (2 : ℚ) ^ ((a : Int) - b) = 2 ^ a / 2 ^ b := by
    rw [zpow_sub₀ (by norm_num), zpow_natCast, zpow_natCast]
  split
  · rename_i h
    have qh : (d : ℚ) * 2 ^ a ≤ n * 2 ^ b := by exact_mod_cast h
    rw [zpow_add_one₀ (by norm_num), e1]
    constructor
    · rw [div_le_div_iff₀ hB hd']; linarith
    · rw [div_mul_eq_mul_div, div_lt_div_iff₀ hd' hB]
      nlinarith
  · rename_i h
    have qh : (n : ℚ) * 2 ^ b < d * 2 ^ a := by exact_mod_cast (not_le.1 h)
    rw [sub_add_cancel, zpow_sub_one₀ (by norm_num), e1]
    constructor
    · rw [div_mul_eq_mul_div, div_le_div_iff₀ (by positivity) hd']
      have : ((2:ℚ))⁻¹ * 2 = 1 := by norm_num
      nlinarith
    · rw [div_lt_div_iff₀ hd' hB]; linarith

/-- Division rounded to the nearest integer, ties to even. -/
theorem nearest_div (num den : Nat) (hden : 0 < den) :
    |(((if den < 2 * (num % den) ∨ (2 * (num % den) = den ∧ num / den % 2 = 1)
        then num / den + 1 else num / den : ℕ) : ℚ)) - num / den| ≤ 1 / 2 ∧
    (|(((if den < 2 * (num % den) ∨ (2 * (num % den) = den ∧ num / den % 2 = 1)
        then num / den + 1 else num / den : ℕ) : ℚ)) - num / den| = 1 / 2 →
      (if den < 2 * (num % den) ∨ (2 * (num % den) = den ∧ num / den % 2 = 1)
        then num / den + 1 else num / den) % 2 = 0) := by
  have hdq : (0 : ℚ) < den := by exact_mod_cast hden
  have hsplit : (num : ℚ) / den = (num / den : ℕ) + (num % den : ℕ) / (den : ℚ) := by
    have h := Nat.div_add_mod num den
    have h' : (num : ℚ) = den * (num / den : ℕ) + (num % den : ℕ) := by exact_mod_cast h.symm
    field_simp
    linarith
  have hr : num % den < den := Nat.mod_lt _ hden
  generalize hq : num / den = q at *
  generalize hrr : num % den = r at *
  have hρ0 : (0 : ℚ) ≤ (r : ℚ) / den := by positivity
  have hhalf : (r : ℚ) / den = 1 / 2 ↔ 2 * r = den := by
    rw [div_eq_iff hdq.ne']
    constructor
    · intro h
      have : (2 * r : ℚ) = den := by linarith
      exact_mod_cast this
    · intro h
      have : (2 * r : ℚ) = den := by exact_mod_cast h
      linarith
  split
  · rename_i h
    have h2 : den ≤ 2 * r := by omega
    have hρ : (1 : ℚ) / 2 ≤ (r : ℚ) / den := by
      rw [le_div_iff₀ hdq]
      have : (den : ℚ) ≤ 2 * r := by exact_mod_cast h2
      linarith
    have hρ1 : (r : ℚ) / den < 1 := by
      rw [div_lt_one hdq]; exact_mod_cast hr
    rw [hsplit]
    push_cast
    have e : ((q : ℚ) + 1 - (q + r / den)) = 1 - r / den := by ring
    rw [e, abs_of_nonneg (by linarith)]
    refine ⟨by linarith, ?_⟩
    intro ht
    have : (r : ℚ) / den = 1 / 2 := by linarith
    have := hhalf.1 this
    omega
  · rename_i h
    have h2 : 2 * r ≤ den := by omega
    have hρ : (r : ℚ) / den ≤ 1 / 2 := by
      rw [div_le_iff₀ hdq]
      have : (2 * r : ℚ) ≤ den := by exact_mod_cast h2
      linarith
    rw [hsplit]
    have e : ((q : ℚ) - (q + r / den)) = - (r / den) := by ring
    rw [e, abs_neg, abs_of_nonneg hρ0]
    refine ⟨hρ, ?_⟩
    intro ht
    have := hhalf.1 ht
    omega

/-- The rounding of a positive fraction: the result is `m * 2^ulp` for the integer
`m` nearest to `n / d / 2^ulp` (the even one of two), where `2^ulp` is the
spacing of binary64 around `n / d`. -/
theorem round_spec (n d : Nat) (hn : 0 < n) (hd : 0 < d) :
    ∃ (ulp : Int) (m : Nat),
      Float64.round false n d =
        (if 971 < ulp ∨ (ulp = 971 ∧ 2 ^ 53 ≤ m) then Float64.inf false
         else Float64.reduced false m ulp) ∧
      -1074 ≤ ulp ∧
      |(m : ℚ) * 2 ^ ulp - n / d| ≤ 2 ^ ulp / 2 ∧
      (|(m : ℚ) * 2 ^ ulp - n / d| = 2 ^ ulp / 2 → m % 2 = 0) ∧
      (ulp ≠ -1074 → (2 : ℚ) ^ 52 * 2 ^ ulp ≤ n / d) ∧
      (n : ℚ) / d < 2 ^ 53 * 2 ^ ulp := by
  obtain ⟨lg, hlg⟩ : ∃ lg : Int, lg = (if d * 2 ^ Float64.log2 n n ≤ n * 2 ^ Float64.log2 d d
        then (Float64.log2 n n : Int) - Float64.log2 d d
        else (Float64.log2 n n : Int) - Float64.log2 d d - 1) := ⟨_, rfl⟩
  obtain ⟨ulp, hulp⟩ : ∃ ulp : Int, ulp = max (lg - 52) (-1074) := ⟨_, rfl⟩
  obtain ⟨m, hm⟩ : ∃ m : Nat, m =
      (if d * 2 ^ ulp.toNat < 2 * (n * 2 ^ (-ulp).toNat % (d * 2 ^ ulp.toNat)) ∨
        (2 * (n * 2 ^ (-ulp).toNat % (d * 2 ^ ulp.toNat)) = d * 2 ^ ulp.toNat ∧
          n * 2 ^ (-ulp).toNat / (d * 2 ^ ulp.toNat) % 2 = 1)
      then n * 2 ^ (-ulp).toNat / (d * 2 ^ ulp.toNat) + 1
      else n * 2 ^ (-ulp).toNat / (d * 2 ^ ulp.toNat)) := ⟨_, rfl⟩
  have h1 : Float64.round false n d =
      (if 971 < ulp ∨ (ulp = 971 ∧ 2 ^ 53 ≤ m) then Float64.inf false
       else Float64.reduced false m ulp) := by
    subst hm hulp hlg
    simp only [Float64.round, if_neg hn.ne']
  obtain ⟨hl1, hl2⟩ := round_lg n d hn hd
  rw [← hlg] at hl1 hl2
  have hu : (0 : ℚ) < 2 ^ ulp := by positivity
  have hden : 0 < d * 2 ^ ulp.toNat := by positivity
  obtain ⟨hm1, hm2⟩ := nearest_div (n * 2 ^ (-ulp).toNat) (d * 2 ^ ulp.toNat) hden
  rw [← hm] at hm1 hm2
  have hd' : (0 : ℚ) < d := by exact_mod_cast hd
  have hx : ((n * 2 ^ (-ulp).toNat : ℕ) : ℚ) / ((d * 2 ^ ulp.toNat : ℕ) : ℚ) =
      (n : ℚ) / d / 2 ^ ulp := by
    rw [two_zpow_split ulp]
    push_cast
    field_simp
  rw [hx] at hm1 hm2
  have hscale : (m : ℚ) * 2 ^ ulp - n / d = 2 ^ ulp * ((m : ℚ) - n / d / 2 ^ ulp) := by
    field_simp
    ring
  have habs : |(m : ℚ) * 2 ^ ulp - n / d| = 2 ^ ulp * |(m : ℚ) - n / d / 2 ^ ulp| := by
    rw [hscale, abs_mul, abs_of_pos hu]
  refine ⟨ulp, m, h1, by rw [hulp]; exact le_max_right _ _, ?_, ?_, ?_, ?_⟩
  · rw [habs]
    have := mul_le_mul_of_nonneg_left hm1 hu.le
    linarith
  · intro h
    apply hm2
    rw [habs] at h
    have : 2 ^ ulp * |(m : ℚ) - n / d / 2 ^ ulp| = 2 ^ ulp * (1 / 2) := by linarith
    exact mul_left_cancel₀ hu.ne' this
  · intro h
    have hul : ulp = lg - 52 := by
      rcases max_cases (lg - 52) (-1074) with ⟨h1, _⟩ | ⟨h1, _⟩ <;> omega
    have : (2 : ℚ) ^ lg = 2 ^ 52 * 2 ^ ulp := by
      rw [hul, zpow_sub₀ (by norm_num)]
      have : (2 : ℚ) ^ (52 : ℤ) = 2 ^ 52 := by norm_cast
      rw [this]
      field_simp
    rw [← this]
    exact hl1
  · have hle : lg + 1 ≤ ulp + 53 := by
      have := le_max_left (lg - 52) (-1074)
      omega
    have h1 : (2 : ℚ) ^ (lg + 1) ≤ 2 ^ (ulp + 53) := zpow_le_zpow_right₀ (by norm_num) hle
    have h2 : (2 : ℚ) ^ (ulp + 53) = 2 ^ 53 * 2 ^ ulp := by
      rw [zpow_add₀ (by norm_num)]
      have : (2 : ℚ) ^ (53 : ℤ) = 2 ^ 53 := by norm_cast
      rw [this, mul_comm]
    linarith

/-- An even mantissa that is not zero loses at least one factor of two. -/
theorem trim_lt (fuel m : Nat) (e : Int) (hm : m ≠ 0) (heven : m % 2 = 0) :
    (Float64.trim (fuel + 1) m e).1 < m := by
  unfold Float64.trim
  rw [if_pos ⟨hm, heven⟩]
  have := (trim_spec fuel (m / 2) (e + 1)).2.2
  omega

/-- A value in reduced form is finite. -/
theorem finite_reduced (neg : Bool) (m : Nat) (e : Int) :
    finite (Float64.reduced neg m e) = some (Float64.reduced neg m e) := by
  unfold Float64.reduced
  split <;> rfl

/-- The value of a reduced form. -/
theorem reduced_toRat (m : Nat) (e : Int) :
    (Float64.reduced false m e).toRat = (m : ℚ) * 2 ^ e := by
  unfold Float64.reduced
  split
  · rename_i h
    simp [Float64.toRat, h]
  · simp only [Float64.toRat, Bool.false_eq_true, if_false]
    exact (trim_spec 64 m e).1

/-- A significand of at most 53 bits at an exponent of binary64 is a value of
binary64, with the one exception of `2^53 * 2^971 = 2^1024`. -/
theorem reduced_isFinite64 (m : Nat) (e : Int) (hm : m ≤ 2 ^ 53) (he1 : -1074 ≤ e)
    (he2 : e ≤ 971) (h : ¬ (e = 971 ∧ 2 ^ 53 ≤ m)) :
    (Float64.reduced false m e).isFinite64 = true := by
  unfold Float64.reduced
  split
  · simp [Float64.isFinite64]
  · rename_i h0
    obtain ⟨t1, t2, t3⟩ := trim_spec 64 m e
    have t4 : m % 2 = 0 → (Float64.trim 64 m e).1 < m := trim_lt 63 m e h0
    generalize (Float64.trim 64 m e).1 = m' at *
    generalize (Float64.trim 64 m e).2 = e' at *
    simp only [Float64.isFinite64, decide_eq_true_eq]
    refine ⟨by omega, ?_⟩
    rcases le_or_lt e' 971 with h1 | h1
    · have : (e' - 971).toNat = 0 := by omega
      rw [this, pow_zero, mul_one]
      rcases Nat.lt_or_ge m (2 ^ 53) with h2 | h2
      · omega
      · have : m = 2 ^ 53 := le_antisymm hm h2
        have := t4 (by rw [this]; decide)
        omega
    · -- the value is below `2^1024`
      have hq : ((m' * 2 ^ (e' - 971).toNat : ℕ) : ℚ) < ((2 ^ 53 : ℕ) : ℚ) := by
        have e1 : (((e' - 971).toNat : ℕ) : ℤ) = e' - 971 := Int.toNat_of_nonneg (by omega)
        push_cast
        rw [← zpow_natCast (2 : ℚ) (e' - 971).toNat, e1, zpow_sub₀ (by norm_num), ← mul_div_assoc,
          t1, mul_div_assoc, ← zpow_sub₀ (by norm_num)]
        have hm' : (m : ℚ) ≤ 2 ^ 53 := by exact_mod_cast hm
        have hpos : (0 : ℚ) < m := by
          have : 0 < m := Nat.pos_of_ne_zero h0
          exact_mod_cast this
        rcases lt_or_eq_of_le he2 with h3 | h3
        · have : (2 : ℚ) ^ (e - 971) ≤ 2 ^ (-1 : ℤ) := zpow_le_zpow_right₀ (by norm_num) (by omega)
          have h4 : (2 : ℚ) ^ (-1 : ℤ) = 1 / 2 := by norm_num
          have h5 := mul_le_mul_of_nonneg_left (this.trans h4.le) hpos.le
          linarith
        · have : m < 2 ^ 53 := by
            rcases Nat.lt_or_ge m (2 ^ 53) with h2 | h2
            · exact h2
            · exact absurd ⟨h3, h2⟩ h
          have : (m : ℚ) < 2 ^ 53 := by exact_mod_cast this
          rw [h3, sub_self, zpow_zero, mul_one]
          exact this
      exact_mod_cast hq

/-- The result of `round`, when finite, is a value of binary64, and no value of
binary64 is nearer to the fraction. -/
theorem round_nearest (n d : Nat) (hd : 0 < d) (v : Float64)
    (hv : finite (Float64.round false n d) = some v) :
    v.isFinite64 = true ∧
      ∀ w : Float64, w.isFinite64 = true → |v.toRat - n / d| ≤ |w.toRat - n / d| := by
  rcases Nat.eq_zero_or_pos n with rfl | hn
  · have hv' : v = Float64.fin false 0 0 := by
      simp only [Float64.round, if_true, finite, Option.some.injEq] at hv
      exact hv.symm
    subst hv'
    refine ⟨by decide, ?_⟩
    intro w _
    simp [Float64.toRat]
  · obtain ⟨ulp, m, h1, h2, h3, -, h5, h6⟩ := round_spec n d hn hd
    rw [h1] at hv
    split at hv
    · cases hv
    · rename_i hc
      rw [finite_reduced] at hv
      cases hv
      have hu : (0 : ℚ) < 2 ^ ulp := by positivity
      obtain ⟨h3a, h3b⟩ := abs_le.1 h3
      have hmle : m ≤ 2 ^ 53 := by
        have : (m : ℚ) * 2 ^ ulp < (2 ^ 53 + 1) * 2 ^ ulp := by linarith
        have : (m : ℚ) < 2 ^ 53 + 1 := lt_of_mul_lt_mul_right this hu.le
        have : m < 2 ^ 53 + 1 := by exact_mod_cast this
        omega
      have hulp : ulp ≤ 971 := by
        by_contra hcon
        exact hc (Or.inl (by omega))
      refine ⟨reduced_isFinite64 m ulp hmle h2 hulp (fun h => hc (Or.inr h)), ?_⟩
      intro w hw
      rw [reduced_toRat]
      have hK : ∀ K : ℤ, |(m : ℚ) * 2 ^ ulp - n / d| ≤ |(K : ℚ) * 2 ^ ulp - n / d| := by
        intro K
        by_cases hKm : K = (m : ℤ)
        · rw [hKm]; simp
        · have i1 : (1 : ℤ) ≤ |K - m| := Int.one_le_abs (sub_ne_zero.2 hKm)
          have i2 : (1 : ℚ) ≤ |(K : ℚ) - m| := by exact_mod_cast i1
          have i3 : |(K : ℚ) * 2 ^ ulp - m * 2 ^ ulp| = |(K : ℚ) - m| * 2 ^ ulp := by
            rw [← sub_mul, abs_mul, abs_of_pos hu]
          have i4 := abs_sub_le ((K : ℚ) * 2 ^ ulp) (n / d) ((m : ℚ) * 2 ^ ulp)
          rw [abs_sub_comm ((n : ℚ) / d) ((m : ℚ) * 2 ^ ulp), i3] at i4
          have i5 : (1 : ℚ) * 2 ^ ulp ≤ |(K : ℚ) - m| * 2 ^ ulp :=
            mul_le_mul_of_nonneg_right i2 hu.le
          linarith
      cases w with
      | nan => cases hw
      | inf s => cases hw
      | fin s M E =>
        simp only [Float64.isFinite64, decide_eq_true_eq] at hw
        obtain ⟨hE, hM⟩ := hw
        have hM' : M < 2 ^ 53 :=
          lt_of_le_of_lt (Nat.le_mul_of_pos_right _ (by positivity)) hM
        rcases le_or_lt ulp E with hle | hlt
        · have e1 : (((E - ulp).toNat : ℕ) : ℤ) = E - ulp := Int.toNat_of_nonneg (by omega)
          have e2 : (2 : ℚ) ^ E = 2 ^ (E - ulp).toNat * 2 ^ ulp := by
            rw [← zpow_natCast (2 : ℚ) (E - ulp).toNat, e1, ← zpow_add₀ (by norm_num),
              sub_add_cancel]
          have e3 : (Float64.fin s M E).toRat =
              (((if s then -(M : ℤ) else (M : ℤ)) * 2 ^ (E - ulp).toNat : ℤ) : ℚ) * 2 ^ ulp := by
            simp only [Float64.toRat, e2]
            cases s <;> simp <;> ring
          rw [e3]
          exact hK _
        · have hne : ulp ≠ -1074 := by omega
          have hx := h5 hne
          have ht : (0 : ℚ) < 2 ^ E := by positivity
          have ht2 : (2 : ℚ) ^ E ≤ 2 ^ ulp / 2 := by
            rw [div_eq_mul_inv, ← zpow_sub_one₀ (by norm_num)]
            exact zpow_le_zpow_right₀ (by norm_num) (by omega)
          have hMq : (M : ℚ) ≤ 2 ^ 53 - 1 := by
            have : M + 1 ≤ 2 ^ 53 := hM'
            have : ((M + 1 : ℕ) : ℚ) ≤ ((2 ^ 53 : ℕ) : ℚ) := by exact_mod_cast this
            push_cast at this
            linarith
          have hM0 : (0 : ℚ) ≤ M := by positivity
          have hw1 : (Float64.fin s M E).toRat ≤ (M : ℚ) * 2 ^ E := by
            simp only [Float64.toRat]
            cases s
            · simp
            · simp only [if_true]
              nlinarith
          have hw2 : (M : ℚ) * 2 ^ E ≤ (2 ^ 53 - 1) * (2 ^ ulp / 2) :=
            mul_le_mul hMq ht2 ht.le (by norm_num)
          have hw3 := neg_abs_le ((Float64.fin s M E).toRat - n / d)
          have hw4 : (Float64.fin s M E).toRat - n / d ≤ 0 := by linarith
          rw [abs_of_nonpos hw4]
          linarith

/-- The fractions that `round` takes to an infinity: those from `2^1024 - 2^970`
on, half a spacing above the largest value of binary64. -/
theorem round_range (n d : Nat) (hd : 0 < d) :
    finite (Float64.round false n d) = none ↔ (2 : ℚ) ^ 1024 - 2 ^ 970 ≤ n / d := by
  have hg : (0 : ℚ) < 2 ^ 970 := by positivity
  have hG : (2 : ℚ) ^ 1024 = 2 ^ 54 * 2 ^ 970 := by rw [← pow_add]
  rcases Nat.eq_zero_or_pos n with rfl | hn
  · refine ⟨fun h => ?_, fun h => ?_⟩
    · simp only [Float64.round, if_true, finite] at h
      cases h
    · rw [hG, Nat.cast_zero, zero_div] at h
      nlinarith
  · obtain ⟨ulp, m, h1, h2, h3, h4, h5, h6⟩ := round_spec n d hn hd
    have hu : (0 : ℚ) < 2 ^ ulp := by positivity
    obtain ⟨h3a, h3b⟩ := abs_le.1 h3
    have h971 : (2 : ℚ) ^ (971 : ℤ) = 2 * 2 ^ 970 := by
      rw [show (971 : ℤ) = ((970 + 1 : ℕ) : ℤ) by norm_num, zpow_natCast, pow_succ]
      ring
    rw [h1, hG]
    split
    · rename_i hc
      simp only [finite, true_iff]
      rcases hc with hc | ⟨hc, hm⟩
      · have hx := h5 (by omega)
        have : (2 : ℚ) ^ (972 : ℤ) ≤ 2 ^ ulp := zpow_le_zpow_right₀ (by norm_num) (by omega)
        have h972 : (2 : ℚ) ^ (972 : ℤ) = 4 * 2 ^ 970 := by
          rw [show (972 : ℤ) = ((970 + 2 : ℕ) : ℤ) by norm_num, zpow_natCast, pow_add]
          ring
        rw [h972] at this
        linarith
      · rw [hc, h971] at h3a h3b
        have : ((2 ^ 53 : ℕ) : ℚ) ≤ m := by exact_mod_cast hm
        push_cast at this
        nlinarith
    · rename_i hc
      rw [finite_reduced]
      refine ⟨fun h => (by cases h), fun hcon => ?_⟩
      exfalso
      have hulp : ulp ≤ 971 := by
        by_contra hcon
        exact hc (Or.inl (by omega))
      rcases lt_or_eq_of_le hulp with hlt | heq
      · have : (2 : ℚ) ^ ulp ≤ 2 ^ (970 : ℤ) := zpow_le_zpow_right₀ (by norm_num) (by omega)
        have h970 : (2 : ℚ) ^ (970 : ℤ) = 2 ^ 970 := by
          rw [show (970 : ℤ) = ((970 : ℕ) : ℤ) by norm_num, zpow_natCast]
        rw [h970] at this
        linarith
      · have hm : m < 2 ^ 53 := by
          rcases Nat.lt_or_ge m (2 ^ 53) with h | h
          · exact h
          · exact absurd (Or.inr ⟨heq, h⟩) hc
        rw [heq, h971] at h3a h3b h4
        have hmq : (m : ℚ) ≤ 2 ^ 53 - 1 := by
          have : m + 1 ≤ 2 ^ 53 := hm
          have : ((m + 1 : ℕ) : ℚ) ≤ ((2 ^ 53 : ℕ) : ℚ) := by exact_mod_cast this
          push_cast at this
          linarith
        have hmq2 : (2 : ℚ) ^ 53 - 1 ≤ m := by
          have : ((2 : ℚ) ^ 53 - 1) * (2 * 2 ^ 970) ≤ m * (2 * 2 ^ 970) := by linarith
          exact le_of_mul_le_mul_right this (by positivity)
        have hmeq : (m : ℚ) = 2 ^ 53 - 1 := le_antisymm hmq hmq2
        have hmn : m = 2 ^ 53 - 1 := by
          have : ((m + 1 : ℕ) : ℚ) = ((2 ^ 53 : ℕ) : ℚ) := by push_cast; linarith
          have : m + 1 = 2 ^ 53 := by exact_mod_cast this
          omega
        have htie : |(m : ℚ) * (2 * 2 ^ 970) - n / d| = 2 * 2 ^ 970 / 2 := by
          rw [abs_of_nonpos (by rw [hmeq]; linarith), hmeq]
          linarith
        have := h4 htie
        rw [hmn] at this
        revert this
        decide

/-- The values of binary64 in the usual form: the predicate `isFinite64` holds of
every `M * 2^E` with `M < 2^53` and `-1074 ≤ E ≤ 971`, and every value of which it
holds is of this form. -/
theorem isFinite64_standard :
    (∀ (s : Bool) (M : Nat) (E : Int), M < 2 ^ 53 → -1074 ≤ E → E ≤ 971 →
      (Float64.fin s M E).isFinite64 = true) ∧
    (∀ w : Float64, w.isFinite64 = true →
      ∃ (s : Bool) (M : Nat) (E : Int), M < 2 ^ 53 ∧ -1074 ≤ E ∧ E ≤ 971 ∧
        w.toRat = (Float64.fin s M E).toRat) := by
  constructor
  · intro s M E hM h1 h2
    have : (E - 971).toNat = 0 := by omega
    simp only [Float64.isFinite64, this, pow_zero, mul_one, decide_eq_true_eq]
    exact ⟨h1, hM⟩
  · intro w hw
    cases w with
    | nan => cases hw
    | inf s => cases hw
    | fin s m e =>
      simp only [Float64.isFinite64, decide_eq_true_eq] at hw
      obtain ⟨h1, h2⟩ := hw
      refine ⟨s, m * 2 ^ (e - 971).toNat, min e 971, h2, le_min h1 (by norm_num),
        min_le_right _ _, ?_⟩
      have key : (2 : ℚ) ^ e = 2 ^ (e - 971).toNat * 2 ^ (min e 971) := by
        rcases le_total e 971 with h | h
        · have : (e - 971).toNat = 0 := by omega
          rw [this, min_eq_left h, pow_zero, one_mul]
        · have e1 : (((e - 971).toNat : ℕ) : ℤ) = e - 971 := Int.toNat_of_nonneg (by omega)
          rw [min_eq_right h, ← zpow_natCast (2 : ℚ) (e - 971).toNat, e1,
            ← zpow_add₀ (by norm_num), sub_add_cancel]
      simp only [Float64.toRat, key]
      cases s <;> simp <;> ring

/-! ### Number tokens with a fractional part -/

/-- The fraction that `ParseFloat` rounds for the token `d1.d2` is its decimal
value. -/
theorem decimalValue_eq (d1 d2 : List Char) :
    ((digitsValue d1 * 10 ^ d2.length + digitsValue d2 : ℕ) : ℚ) / ((10 ^ d2.length : ℕ) : ℚ) =
      decimalValue d1 d2 := by
  unfold decimalValue
  push_cast
  field_simp

/-- A decimal literal that `ParseFloat` rejects, alone: the evaluator takes it for
an operator without operands, and the converter for an unknown token. -/
theorem evaluate_rejected (token : String) (hlit : IsLiteral token.data)
    (hp : parseFloat token = none) :
    evaluateRPN [token] = .error (.insufficientOperands token 1) ∧
      evaluate token = .error (.invalidToken token) := by
  have htok : tokenize token = .ok [token] :=
    tokenize_text (.lit token)
      (by intro t ht; simp only [Expr.literals, List.mem_singleton] at ht; rw [ht]; exact hlit)
  have hne : ∀ x ∈ ["(", ")", "+", "-", "*", "/"], token ≠ x := by
    intro x hx heq
    rw [heq] at hlit
    simp only [List.mem_cons, List.mem_singleton, List.not_mem_nil, or_false] at hx
    rcases hx with rfl | rfl | rfl | rfl | rfl | rfl <;>
      exact not_isLiteral _ _ (by decide) hlit
  have h1 := hne "(" (by decide)
  have h2 := hne ")" (by decide)
  have h3 := hne "+" (by decide)
  have h4 := hne "-" (by decide)
  have h5 := hne "*" (by decide)
  have h6 := hne "/" (by decide)
  refine ⟨by simp [evaluateRPN, evalLoop, hp], ?_⟩
  simp [evaluate, parseToRPN, htok, toPostfix, convert, convertToken, hp, precedence,
    h1, h2, h3, h4, h5, h6]

/-- C14, as stated, fails: the token `0.1` evaluates to
`3602879701896397 / 2^55`, the `float64` nearest to one tenth, which is not the
decimal value `0 + 1 / 10^1`. -/
theorem evaluate_fraction_counterexample :
    evaluateRPN ["0.1"] = .ok (Float64.fin false 3602879701896397 (-55)) ∧
    evaluate "0.1" = .ok (Float64.fin false 3602879701896397 (-55)) ∧
    (Float64.fin false 3602879701896397 (-55)).isRatio
      (digitsValue "0".data * 10 ^ "1".data.length + digitsValue "1".data)
      (10 ^ "1".data.length) = false ∧
    (Float64.fin false 3602879701896397 (-55)).toRat ≠ decimalValue "0".data "1".data := by
  refine ⟨by decide, by decide, by decide, ?_⟩
  have e0 : digitsValue "0".data = 0 := by decide
  have e1 : digitsValue "1".data = 1 := by decide
  have el : "1".data.length = 1 := by decide
  unfold decimalValue
  rw [e0, e1, el]
  norm_num [Float64.toRat]

/-- C14, amended: a number token `d1.d2` (digit strings `d1`, `d2`) whose decimal
value `d1 + d2 / 10^len(d2)` is below `2^1024 - 2^970` is evaluated, by
`ParseFloat`, by `evaluateRPN` on the token alone and by the pipeline, at a
`float64` nearest to that value: a value of binary64 from which the decimal value
is no farther than from any other value of binary64, hence the decimal value
itself, fractional part included, when that is a value of binary64.  A token
whose decimal value is `2^1024 - 2^970` or more has no value: `ParseFloat`
rejects it, `evaluateRPN` on the token alone fails with the insufficient-operands
error and the pipeline with the unknown-token error.  The pipeline on `1.5+2.25`
returns 3.75 exactly. -/
theorem evaluate_fraction (d1 d2 : List Char) (h1 : d1 ≠ []) (h2 : d2 ≠ [])
    (hd1 : ∀ c ∈ d1, isDigit c = true) (hd2 : ∀ c ∈ d2, isDigit c = true) :
    (decimalValue d1 d2 < 2 ^ 1024 - 2 ^ 970 →
      ∃ v : Float64, parseFloat (String.mk (d1 ++ '.' :: d2)) = some v ∧
        evaluateRPN [String.mk (d1 ++ '.' :: d2)] = .ok v ∧
        evaluate (String.mk (d1 ++ '.' :: d2)) = .ok v ∧
        v.isFinite64 = true ∧
        (∀ w : Float64, w.isFinite64 = true →
          |v.toRat - decimalValue d1 d2| ≤ |w.toRat - decimalValue d1 d2|) ∧
        ((∃ w : Float64, w.isFinite64 = true ∧ w.toRat = decimalValue d1 d2) →
          v.toRat = decimalValue d1 d2)) ∧
    (2 ^ 1024 - 2 ^ 970 ≤ decimalValue d1 d2 →
      parseFloat (String.mk (d1 ++ '.' :: d2)) = none ∧
      evaluateRPN [String.mk (d1 ++ '.' :: d2)] =
        .error (.insufficientOperands (String.mk (d1 ++ '.' :: d2)) 1) ∧
      evaluate (String.mk (d1 ++ '.' :: d2)) =
        .error (.invalidToken (String.mk (d1 ++ '.' :: d2)))) ∧
    (∃ v, evaluate "1.5+2.25" = .ok v ∧ v.isRatio 375 100 = true ∧ v.toRat = 375 / 100) := by
  have hp := parseFloat_decimal d1 d2 h1 hd1 hd2
  have hpos : 0 < 10 ^ d2.length := by positivity
  have hval := decimalValue_eq d1 d2
  have hlit : IsLiteral (String.mk (d1 ++ '.' :: d2)).data :=
    ⟨d1, h1, hd1, Or.inr ⟨d2, h2, hd2, rfl⟩⟩
  refine ⟨?_, ?_, ⟨Float64.fin false 15 (-2), by decide, by decide,
    by norm_num [Float64.toRat]⟩⟩
  · intro hlt
    cases hf : finite (Float64.round false (digitsValue d1 * 10 ^ d2.length + digitsValue d2)
        (10 ^ d2.length)) with
    | none =>
      have := (round_range _ _ hpos).1 hf
      rw [hval] at this
      exact absurd hlt (not_lt.2 this)
    | some v =>
      obtain ⟨hfin, hnear⟩ := round_nearest _ _ hpos v hf
      rw [hval] at hnear
      rw [hf] at hp
      have ht := evaluate_tokens (String.mk (d1 ++ '.' :: d2))
        (.lit (String.mk (d1 ++ '.' :: d2)))
        (tokenize_text (.lit (String.mk (d1 ++ '.' :: d2)))
          (by intro t ht; simp only [Expr.literals, List.mem_singleton] at ht; rw [ht]; exact hlit))
        rfl (by intro t ht; simp only [Expr.literals, List.mem_singleton] at ht; rw [ht, hp]; rfl)
      simp only [Expr.value, hp] at ht
      refine ⟨v, hp, by simp [evaluateRPN, evalLoop, hp], ht.2, hfin, hnear, ?_⟩
      rintro ⟨w, hw, hwv⟩
      have h0 := hnear w hw
      rw [hwv, sub_self, abs_zero] at h0
      have h00 := abs_nonpos_iff.1 h0
      linarith
  · intro hge
    have hf := (round_range (digitsValue d1 * 10 ^ d2.length + digitsValue d2)
      (10 ^ d2.length) hpos).2 (by rw [hval]; exact hge)
    rw [hf] at hp
    exact ⟨hp, evaluate_rejected _ hlit hp⟩

set_option maxRecDepth 100000 in
set_option exponentiation.threshold 2000 in
/-- C14, amended, at the token `1.5`, which evaluates to 3/2, not to 1, and at the
token `2000...0.5` with 309 digits before the point, which has no value. -/
theorem evaluate_fraction_witness :
    (evaluateRPN ["1.5"] = .ok (Float64.fin false 3 (-1)) ∧
      evaluate "1.5" = .ok (Float64.fin false 3 (-1)) ∧
      (Float64.fin false 3 (-1)).toRat = decimalValue "1".data "5".data ∧
      decimalValue "1".data "5".data = 3 / 2) ∧
    (parseFloat (tooLarge ++ ".5") = none ∧
      evaluateRPN [tooLarge ++ ".5"] = .error (.insufficientOperands (tooLarge ++ ".5") 1) ∧
      evaluate (tooLarge ++ ".5") = .error (.invalidToken (tooLarge ++ ".5"))) := by
  have e1 : digitsValue "1".data = 1 := by decide
  have e5 : digitsValue "5".data = 5 := by decide
  have el : "5".data.length = 1 := by decide
  have eL : digitsValue tooLarge.data = 2 * 10 ^ 308 := by decide
  have hsmall : decimalValue "1".data "5".data = 3 / 2 := by
    unfold decimalValue
    rw [e1, e5, el]
    norm_num
  have hbig : decimalValue tooLarge.data "5".data = 2 * 10 ^ 308 + 5 / 10 := by
    unfold decimalValue
    rw [eL, e5, el]
    norm_num
  constructor
  · obtain ⟨v, hp, hr, he, -, -, hex⟩ :=
      (evaluate_fraction "1".data "5".data (by decide) (by decide) (by decide) (by decide)).1
        (by rw [hsmall]; norm_num)
    have h15 : parseFloat (String.mk ("1".data ++ '.' :: "5".data)) =
        some (Float64.fin false 3 (-1)) := by decide
    rw [h15] at hp
    cases hp
    exact ⟨hr, he, hex ⟨Float64.fin false 3 (-1), by decide,
      by rw [hsmall]; norm_num [Float64.toRat]⟩, hsmall⟩
  · exact (evaluate_fraction tooLarge.data "5".data (by decide) (by decide) (by decide)
      (by decide)).2.1 (by rw [hbig]; norm_num)

/-! ### White space between tokens -/

theorem isSpace_not_token (c : Char) (h : isSpace c = true) :
    isDigit c = false ∧ isOperatorChar c = false ∧ c ≠ '.' := by
  refine ⟨?_, ?_, ?_⟩
  · cases hd : isDigit c with
    | false => rfl
    | true =>
      exfalso
      simp only [isDigit, Bool.and_eq_true, decide_eq_true_eq] at hd
      simp only [isSpace, Bool.or_eq_true, Bool.and_eq_true, decide_eq_true_eq] at h
      omega
  · cases ho : isOperatorChar c with
    | false => rfl
    | true =>
      exfalso
      simp only [isOperatorChar, decide_eq_true_eq] at ho
      rcases ho with rfl | rfl | rfl | rfl | rfl | rfl <;> revert h <;> decide
  · rintro rfl
    revert h
    decide

theorem matchPrefix_none (c : Char) (s : List Char) (h : matchPrefix (c :: s) = none) :
    isDigit c = false ∧ isOperatorChar c = false := by
  cases hd : isDigit c with
  | true =>
    obtain ⟨token, rest, hm, _⟩ := matchPrefix_digit c s hd
    rw [hm] at h
    cases h
  | false =>
    cases hc : isOperatorChar c with
    | true =>
      rw [matchPrefix_operator c s hd hc] at h
      cases h
    | false => exact ⟨rfl, rfl⟩

/-- Characters that start no token are passed over. -/
theorem findAll_skip (ws s : List Char)
    (h : ∀ c ∈ ws, isDigit c = false ∧ isOperatorChar c = false) :
    findAll (ws ++ s).length (ws ++ s) = findAll s.length s := by
  induction ws with
  | nil => rfl
  | cons w ws ih =>
    obtain ⟨hd, hc⟩ := h w (List.mem_cons_self _ _)
    simp only [List.cons_append, List.length_cons, findAll, matchPrefix_other w _ hd hc]
    exact ih (fun c hc => h c (List.mem_cons_of_mem _ hc))

/-- A decimal literal that is the longest one at the beginning of a text is the
match of the regular expression there. -/
theorem matchPrefix_longest (t rest : List Char) (ht : IsLiteral t)
    (hl : ∀ u, IsLiteral u → u <+: t ++ rest → u.length ≤ t.length) :
    matchPrefix (t ++ rest) = some (t, rest) := by
  obtain ⟨c, r, rfl, hc⟩ := isLiteral_head_digit t ht
  obtain ⟨token, rest', hm, hsplit, hlit, hlong⟩ := matchPrefix_digit c (r ++ rest) hc
  have hsplit' : token ++ rest' = (c :: r) ++ rest := hsplit
  have h1 := hlong (c :: r) ht (List.prefix_append _ _)
  have h2 := hl token hlit ⟨rest', hsplit'⟩
  obtain ⟨e1, e2⟩ := List.append_inj hsplit' (by omega)
  show matchPrefix (c :: (r ++ rest)) = some (c :: r, rest)
  rw [hm, e1, e2]

/-- The match at the beginning of a text: a single character among `+ - * / ( )`,
or the longest decimal literal. -/
theorem matchPrefix_some (s token rest : List Char) (h : matchPrefix s = some (token, rest)) :
    token ++ rest = s ∧ token ≠ [] ∧
      ((∃ c, token = [c] ∧ isOperatorChar c = true ∧ isDigit c = false) ∨
        (IsLiteral token ∧ ∀ u, IsLiteral u → u <+: token ++ rest → u.length ≤ token.length)) := by
  cases s with
  | nil => simp [matchPrefix] at h
  | cons c s =>
    cases hd : isDigit c with
    | true =>
      obtain ⟨token', rest', hm, hsplit, hlit, hlong⟩ := matchPrefix_digit c s hd
      rw [hm] at h
      cases h
      obtain ⟨c', r', e, _⟩ := isLiteral_head_digit token hlit
      refine ⟨hsplit, by rw [e]; simp, Or.inr ⟨hlit, ?_⟩⟩
      rw [hsplit]
      exact hlong
    | false =>
      cases hc : isOperatorChar c with
      | true =>
        rw [matchPrefix_operator c s hd hc] at h
        cases h
        exact ⟨rfl, by simp, Or.inl ⟨c, rfl, hc, hd⟩⟩
      | false =>
        rw [matchPrefix_other c s hd hc] at h
        cases h

/-- White space inserted after a token, or further on, does not change the match
of the token. -/
theorem matchPrefix_insert (s token rest : List Char) (h : matchPrefix s = some (token, rest))
    (j : Nat) (ws : List Char) (hws : ∀ c ∈ ws, isSpace c = true) :
    matchPrefix (token ++ (rest.take j ++ ws ++ rest.drop j)) =
      some (token, rest.take j ++ ws ++ rest.drop j) := by
  obtain ⟨hsplit, hne, hkind⟩ := matchPrefix_some s token rest h
  rcases hkind with ⟨c, rfl, hc, hd⟩ | ⟨hlit, hlong⟩
  · exact matchPrefix_operator c _ hd hc
  · cases ws with
    | nil =>
      simp only [List.append_nil, List.take_append_drop]
      rw [hsplit]
      exact h
    | cons w ws =>
      apply matchPrefix_longest _ _ hlit
      intro u hu hpre
      by_cases hle : u.length ≤ (token ++ rest.take j).length
      · have hfull : token ++ (rest.take j ++ (w :: ws) ++ rest.drop j) =
            (token ++ rest.take j) ++ ((w :: ws) ++ rest.drop j) := by
          simp only [List.append_assoc]
        rw [hfull] at hpre
        have h1 : u <+: token ++ rest.take j :=
          List.prefix_of_prefix_length_le hpre (List.prefix_append _ _) hle
        have h2 : token ++ rest.take j <+: token ++ rest :=
          (List.prefix_append_right_inj token).2 (List.take_prefix j rest)
        exact hlong u hu (h1.trans h2)
      · exfalso
        have hfull : token ++ (rest.take j ++ (w :: ws) ++ rest.drop j) =
            (token ++ rest.take j ++ [w]) ++ (ws ++ rest.drop j) := by
          simp
        rw [hfull] at hpre
        have h1 : token ++ rest.take j ++ [w] <+: u :=
          List.prefix_of_prefix_length_le (List.prefix_append _ _) hpre
            (by simp only [List.length_append, List.length_singleton] at hle ⊢; omega)
        have hw : w ∈ u := h1.subset (by simp)
        obtain ⟨hd, _, hdot⟩ := isSpace_not_token w (hws w (List.mem_cons_self _ _))
        rcases isLiteral_chars u hu w hw with h3 | h3
        · rw [hd] at h3
          cases h3
        · exact hdot h3

/-- White space inserted at a place that is not inside a token leaves the tokens
as they are. -/
theorem findAll_insert (ws : List Char) (hws : ∀ c ∈ ws, isSpace c = true) (fuel : Nat) :
    ∀ (s : List Char) (pos k : Nat), s.length ≤ fuel → k ≤ s.length →
      (∀ span ∈ findAllIndex fuel pos s, ¬ (span.1 < pos + k ∧ pos + k < span.2)) →
      findAll (s.take k ++ ws ++ s.drop k).length (s.take k ++ ws ++ s.drop k) =
        findAll fuel s := by
  have hskip : ∀ c ∈ ws, isDigit c = false ∧ isOperatorChar c = false :=
    fun c hc => ⟨(isSpace_not_token c (hws c hc)).1, (isSpace_not_token c (hws c hc)).2.1⟩
  induction fuel with
  | zero =>
    intro s pos k hs hk _
    have : s = [] := List.length_eq_zero.1 (Nat.le_zero.1 hs)
    subst this
    simp only [List.take_nil, List.drop_nil, List.nil_append, List.append_nil]
    have := findAll_skip ws [] hskip
    simp only [List.append_nil] at this
    rw [this]
    rfl
  | succ fuel ih =>
    intro s pos k hs hk hspan
    cases k with
    | zero =>
      simp only [List.take_zero, List.drop_zero, List.nil_append]
      rw [findAll_skip ws s hskip, findAll_fuel (fuel + 1) s hs]
    | succ k =>
      cases s with
      | nil => simp at hk
      | cons c s =>
        have hs' : s.length ≤ fuel := by simpa using hs
        have hk' : k ≤ s.length := by simpa using hk
        cases hm : matchPrefix (c :: s) with
        | none =>
          obtain ⟨hd, hc⟩ := matchPrefix_none c s hm
          have hspan' : ∀ span ∈ findAllIndex fuel (pos + 1) s,
              ¬ (span.1 < pos + 1 + k ∧ pos + 1 + k < span.2) := by
            intro span hmem
            have := hspan span (by simp only [findAllIndex, hm]; exact hmem)
            omega
          have := ih s (pos + 1) k hs' hk' hspan'
          simp only [List.take_succ_cons, List.drop_succ_cons, List.cons_append, List.length_cons,
            findAll, matchPrefix_other c _ hd hc, hm]
          exact this
        | some p =>
          obtain ⟨token, rest⟩ := p
          obtain ⟨hsplit, hne, _⟩ := matchPrefix_some _ _ _ hm
          have hpos : 0 < token.length := List.length_pos.2 hne
          have hlen : token.length + rest.length = s.length + 1 := by
            have := congrArg List.length hsplit
            simpa using this
          have htok : token.length ≤ k + 1 := by
            have := hspan (pos, pos + token.length) (by simp [findAllIndex, hm])
            simp only at this
            omega
          have hspan' : ∀ span ∈ findAllIndex fuel (pos + token.length) rest,
              ¬ (span.1 < pos + token.length + (k + 1 - token.length) ∧
                pos + token.length + (k + 1 - token.length) < span.2) := by
            intro span hmem
            have := hspan span (by simp only [findAllIndex, hm]; exact List.mem_cons_of_mem _ hmem)
            omega
          have hrec := ih rest (pos + token.length) (k + 1 - token.length) (by omega) (by omega)
            hspan'
          have hk1 : k + 1 = token.length + (k + 1 - token.length) := by omega
          have htake : (c :: s).take (k + 1) = token ++ rest.take (k + 1 - token.length) := by
            rw [← hsplit]
            conv_lhs => rw [hk1]
            exact List.take_append _
          have hdrop : (c :: s).drop (k + 1) = rest.drop (k + 1 - token.length) := by
            rw [← hsplit]
            conv_lhs => rw [hk1]
            exact List.drop_append _
          have hnew := matchPrefix_insert _ _ _ hm (k + 1 - token.length) ws hws
          have hL : ∀ x : List Char, matchPrefix (token ++ x) = some (token, x) →
              findAll (token ++ x).length (token ++ x) = String.mk token :: findAll x.length x := by
            intro x hx
            cases token with
            | nil => exact absurd rfl hne
            | cons c' r' =>
              simp only [List.cons_append, List.length_cons, findAll] at hx ⊢
              rw [hx]
              simp only
              rw [findAll_fuel _ x (by simp)]
          have hR : findAll (fuel + 1) (c :: s) = String.mk token :: findAll fuel rest := by
            simp only [findAll, hm]
          rw [htake, hdrop, hR, ← hrec]
          have hassoc : token ++ rest.take (k + 1 - token.length) ++ ws ++
              rest.drop (k + 1 - token.length) =
              token ++ (rest.take (k + 1 - token.length) ++ ws ++
                rest.drop (k + 1 - token.length)) := by
            simp only [List.append_assoc]
          rw [hassoc]
          exact hL _ hnew

/-- The places that `findAllIndex` returns are those of the tokens that `findAll`
returns: each token is the part of the text between the two offsets. -/
theorem findAllIndex_tokens (fuel : Nat) (pos : Nat) (s : List Char) :
    List.Forall₂
      (fun (span : Nat × Nat) (token : String) =>
        pos ≤ span.1 ∧ span.1 + token.data.length = span.2 ∧
          token.data = (s.drop (span.1 - pos)).take token.data.length)
      (findAllIndex fuel pos s) (findAll fuel s) := by
  induction fuel generalizing pos s with
  | zero => exact List.Forall₂.nil
  | succ fuel ih =>
    cases hm : matchPrefix s with
    | none =>
      cases s with
      | nil => simp only [findAllIndex, findAll, hm]; exact List.Forall₂.nil
      | cons c t =>
        simp only [findAllIndex, findAll, hm]
        refine (ih (pos + 1) t).imp ?_
        rintro span token ⟨h1, h2, h3⟩
        refine ⟨by omega, h2, ?_⟩
        have e : span.1 - pos = (span.1 - (pos + 1)) + 1 := by omega
        rw [e, List.drop_succ_cons]
        exact h3
    | some p =>
      obtain ⟨token, rest⟩ := p
      obtain ⟨hsplit, _, _⟩ := matchPrefix_some _ _ _ hm
      simp only [findAllIndex, findAll, hm]
      refine List.Forall₂.cons ⟨Nat.le_refl _, rfl, ?_⟩ ((ih (pos + token.length) rest).imp ?_)
      · simp only [Nat.sub_self, List.drop_zero, ← hsplit, List.take_left]
      · rintro span tok ⟨h1, h2, h3⟩
        refine ⟨by omega, h2, ?_⟩
        have e : span.1 - pos = token.length + (span.1 - (pos + token.length)) := by omega
        rw [e, ← hsplit, List.drop_append]
        exact h3

/-- C12, as stated, fails for a text without tokens: a blank inserted into `ab`
gives `a b`; both texts have no token, and the error of `tokenize`, which is that
of the pipeline, quotes the text it was given, so it is not the same error. -/
theorem tokenize_whitespace_counterexample :
    isSpace ' ' = true ∧
    (∀ span ∈ findAllIndex "ab".length 0 "ab".data, ¬ (span.1 < 1 ∧ 1 < span.2)) ∧
    insertAt "ab" 1 [' '] = "a b" ∧
    evaluate "ab" = .error (.tokenize "ab") ∧ evaluate "a b" = .error (.tokenize "a b") ∧
    evaluate "a b" ≠ evaluate "ab" := by
  decide

/-- C12, amended: white space between tokens does not affect the outcome:
inserting any number of white-space characters into a text at a place that is not
inside a token (no token begins before it and ends after it) leaves the token
sequence unchanged; when the text has at least one token, `tokenize` returns the
same tokens and `parseToRPN` and the pipeline return the same result or error;
when it has none, `tokenize` fails as before, its error quoting the text it was
given. -/
theorem tokenize_whitespace (s : String) (k : Nat) (ws : List Char) (hk : k ≤ s.length)
    (hws : ∀ c ∈ ws, isSpace c = true)
    (hpos : ∀ span ∈ findAllIndex s.length 0 s.data, ¬ (span.1 < k ∧ k < span.2)) :
    findAll (insertAt s k ws).length (insertAt s k ws).data = findAll s.length s.data ∧
    (∀ tokens, tokenize s = .ok tokens →
      tokenize (insertAt s k ws) = .ok tokens ∧
        parseToRPN (insertAt s k ws) = parseToRPN s ∧
        evaluate (insertAt s k ws) = evaluate s) ∧
    (tokenize s = .error (.tokenize s) →
      tokenize (insertAt s k ws) = .error (.tokenize (insertAt s k ws))) := by
  have hspan : ∀ span ∈ findAllIndex s.data.length 0 s.data,
      ¬ (span.1 < 0 + k ∧ 0 + k < span.2) := by
    intro span hmem
    have := hpos span hmem
    omega
  have key : findAll (insertAt s k ws).length (insertAt s k ws).data =
      findAll s.length s.data :=
    findAll_insert ws hws s.data.length s.data 0 k (Nat.le_refl _) hk hspan
  refine ⟨key, ?_, ?_⟩
  · intro tokens ht
    obtain ⟨he, hne⟩ := tokenize_ok s tokens ht
    have h1 : tokenize (insertAt s k ws) = .ok tokens := by
      simp only [tokenize, key, ← he, hne, if_false]
    exact ⟨h1, by simp only [parseToRPN, h1, ht], by simp only [evaluate, parseToRPN, h1, ht]⟩
  · intro ht
    have hnil : findAll s.length s.data = [] := by
      by_cases h : findAll s.length s.data = []
      · exact h
      · simp [tokenize, h] at ht
    simp only [tokenize, key, hnil, if_true]

/-- C12, amended, at the text `2+3*4` with a blank inserted after the first token;
`2 + 3 * 4` and `2+3*4` both give 14. -/
theorem tokenize_whitespace_witness :
    evaluate "2 +3*4" = evaluate "2+3*4" ∧ evaluate "2 + 3 * 4" = .ok 14 ∧
      evaluate "2+3*4" = .ok 14 :=
  ⟨((tokenize_whitespace "2+3*4" 1 [' '] (by decide) (by decide) (by decide)).2.1
      ["2", "+", "3", "*", "4"] (by decide)).2.2, by decide, by decide⟩

end Calculator
